import Mathlib

/-!
# OrderBook: a shallow embedding of the matching engine

The development follows `OrderBook.cpp`, `Order.h` and `OrderModify.h`.

Modelling conventions.

* `Price` is a `double` in the source.  The book only ever compares prices
  (`<`, `<=`, `>=`, map-key equality) and never does arithmetic on them, so a
  price is modelled by an integer (a number of ticks); NaN keys are excluded.
* `Quantity` and `OrderId` are `int` in the source.  Signed overflow is
  undefined in C++, so quantities are unbounded integers here.
* `std::map` and `std::unordered_map` are key-sorted association lists.  An
  unordered map has no specified iteration order; the model keeps it sorted by
  key so that equal maps are equal lists.
* An `OrderPointer` is shared between a price queue and the locator
  `orders_`.  The model stores the order value in both places and applies
  `Fill` to both, so the two copies agree exactly like the two views of the
  one shared object.  The list iterator kept in an `OrderEntry` denotes the
  queue node that holds the order with the entry's id.
* C++ exceptions and undefined behaviour are values of `Error`; every
  operation of the book returns `Except Error _`.
* `ModifyOrder` reads the type of the existing order through a reference into
  the locator entry after `CancelOrder` has erased that entry.
  `ModifyOrderAsWritten` is the call as the source has it; `ModifyOrder` is the
  call with the type copied before the cancel, the way `CancelOrderInternal`
  copies its own entry, and is what the other operations are studied with.
-/

namespace OrderBook

abbrev Price := Int
abbrev Quantity := Int
abbrev OrderId := Int

inductive OrderType where
  | GoodTillCancel
  | FillAndKill
  | Market
  | GoodForDay
  | FillOrKill
  deriving DecidableEq, Repr

inductive Side where
  | Buy
  | Sell
  deriving DecidableEq, Repr

/-- Failures of the C++ code: the two exception types it can throw, behaviour
the language leaves undefined (erasing through a dangling iterator, `front()`
of an empty list, reading through a reference into an erased map entry), and a
loop that did not finish within its iteration bound. -/
inductive Error where
  | logic_error
  | out_of_range
  | undefined
  | nontermination
  deriving DecidableEq, Repr

structure Order where
  orderType_ : OrderType
  orderId_ : OrderId
  side_ : Side
  price_ : Price
  initialQuantity_ : Quantity
  remainingQuantity_ : Quantity
  deriving DecidableEq, Repr

/-- The five-argument constructor `Order(orderType, orderId, side, price, quantity)`. -/
def Order.new (orderType : OrderType) (orderId : OrderId) (side : Side) (price : Price)
    (quantity : Quantity) : Order :=
  { orderType_ := orderType, orderId_ := orderId, side_ := side, price_ := price,
    initialQuantity_ := quantity, remainingQuantity_ := quantity }

def Order.IsFilled (o : Order) : Bool :=
  o.remainingQuantity_ == 0

/-- Model of `Order::Fill`: throws when asked for more than the remaining quantity. -/
def Order.Fill (o : Order) (quantity : Quantity) : Except Error Order :=
  if quantity > o.remainingQuantity_ then .error .logic_error
  else .ok { o with remainingQuantity_ := o.remainingQuantity_ - quantity }

/-- Model of `Order::ToGoodTillCancel`: only a market order can be re-priced. -/
def Order.ToGoodTillCancel (o : Order) (price : Price) : Except Error Order :=
  if o.orderType_ ≠ OrderType.Market then .error .logic_error
  else .ok { o with price_ := price, orderType_ := OrderType.GoodTillCancel }

structure OrderModify where
  orderId_ : OrderId
  side_ : Side
  price_ : Price
  quantity_ : Quantity
  deriving DecidableEq, Repr

/-- Model of `OrderModify::ToOrderPointer`. -/
def OrderModify.ToOrderPointer (m : OrderModify) (type : OrderType) : Order :=
  Order.new type m.orderId_ m.side_ m.price_ m.quantity_

structure TradeInfo where
  orderId_ : OrderId
  price_ : Price
  quantity_ : Quantity
  deriving DecidableEq, Repr

structure Trade where
  bidTrade_ : TradeInfo
  askTrade_ : TradeInfo
  deriving DecidableEq, Repr

abbrev Trades := List Trade
abbrev OrderPointers := List Order

/-! ## Maps as key-sorted association lists -/

/-- Model of `map::find`: the value stored under `k`, if any. -/
def find {V : Type} (k : Int) : List (Int × V) → Option V
  | [] => none
  | (k', v) :: rest => if k' = k then some v else find k rest

/-- Insert-or-assign; `before` is the map's `Compare`.  A new key goes in front
of the first key it compares before. -/
def insert {V : Type} (before : Int → Int → Bool) (k : Int) (v : V) :
    List (Int × V) → List (Int × V)
  | [] => [(k, v)]
  | (k', v') :: rest =>
    if k' = k then (k, v) :: rest
    else if before k k' then (k, v) :: (k', v') :: rest
    else (k', v') :: insert before k v rest

/-- Overwrite the value stored under `k` in place; a map without `k` is left alone. -/
def replace {V : Type} (k : Int) (v : V) (m : List (Int × V)) : List (Int × V) :=
  m.map (fun e => if e.1 = k then (e.1, v) else e)

/-- Model of `map::erase(key)`. -/
def erase {V : Type} (k : Int) (m : List (Int × V)) : List (Int × V) :=
  m.filter (fun e => decide (e.1 ≠ k))

def keys {V : Type} (m : List (Int × V)) : List Int :=
  m.map Prod.fst

/-- Model of `std::greater<Price>`, the comparator of `bids_`. -/
def greater (a b : Int) : Bool := decide (a > b)

/-- Model of `std::less<Price>`, the comparator of `asks_`; also the canonical key order
of the two hash maps. -/
def less (a b : Int) : Bool := decide (a < b)

/-! ## The book -/

structure LevelData where
  quantity_ : Quantity
  count_ : Quantity
  deriving DecidableEq, Repr

inductive Action where
  | Add
  | Remove
  | Match
  deriving DecidableEq, Repr

end OrderBook

/-- The state of `class OrderBook`: the level aggregate `data_`, the two side
indices `bids_` (best = highest first) and `asks_` (best = lowest first), and
the locator `orders_`. -/
structure OrderBook where
  data_ : List (OrderBook.Price × OrderBook.LevelData)
  bids_ : List (OrderBook.Price × OrderBook.OrderPointers)
  asks_ : List (OrderBook.Price × OrderBook.OrderPointers)
  orders_ : List (OrderBook.OrderId × OrderBook.Order)
  deriving DecidableEq, Repr

namespace OrderBook

/-- The book right after construction. -/
def empty : OrderBook :=
  { data_ := [], bids_ := [], asks_ := [], orders_ := [] }

def Size (b : OrderBook) : Nat :=
  b.orders_.length

/-- Model of `OrderBook::updateLevelData`: `data_[price]` default-constructs a missing
entry, the entry is adjusted, and it is erased when its count is zero. -/
def updateLevelData (b : OrderBook) (price : Price) (quantity : Quantity) (action : Action) :
    OrderBook :=
  let data : LevelData := (find price b.data_).getD { quantity_ := 0, count_ := 0 }
  let count := data.count_ + (if action = Action.Remove then -1 else if action = Action.Add then 1 else 0)
  let qty :=
    if action = Action.Remove ∨ action = Action.Match then data.quantity_ - quantity
    else data.quantity_ + quantity
  if count = 0 then { b with data_ := erase price b.data_ }
  else { b with data_ := insert less price { quantity_ := qty, count_ := count } b.data_ }

def onOrderCancelled (b : OrderBook) (order : Order) : OrderBook :=
  updateLevelData b order.price_ order.initialQuantity_ Action.Remove

def onOrderMatched (b : OrderBook) (price : Price) (quantity : Quantity) (isFullyFilled : Bool) :
    OrderBook :=
  updateLevelData b price quantity (if isFullyFilled then Action.Remove else Action.Match)

def onOrderAdded (b : OrderBook) (order : Order) : OrderBook :=
  updateLevelData b order.price_ order.initialQuantity_ Action.Add

/-- Model of `list::erase(iterator)` for the iterator of the node holding order `orderId`. -/
def eraseNode (orderId : OrderId) (orders : OrderPointers) : OrderPointers :=
  orders.eraseP (fun o => decide (o.orderId_ = orderId))

/-- The part of `CancelOrderInternal` that works on one side index: look the
queue up with `at(price)`, erase the node, drop the price key if the queue is
now empty. -/
def cancelInSide (orderId : OrderId) (price : Price) (side : List (Price × OrderPointers)) :
    Except Error (List (Price × OrderPointers)) :=
  match find price side with
  | none => .error .out_of_range
  | some orders =>
    if orders.any (fun o => decide (o.orderId_ = orderId)) then
      let orders' := eraseNode orderId orders
      if orders'.isEmpty then .ok (erase price side)
      else .ok (replace price orders' side)
    else .error .undefined

/-- Model of `OrderBook::CancelOrderInternal`. -/
def CancelOrderInternal (b : OrderBook) (orderId : OrderId) : Except Error OrderBook :=
  match find orderId b.orders_ with
  | none => .ok b
  | some order =>
    let b1 := { b with orders_ := erase orderId b.orders_ }
    if order.side_ = Side.Sell then
      match cancelInSide orderId order.price_ b1.asks_ with
      | .error e => .error e
      | .ok asks => .ok (onOrderCancelled { b1 with asks_ := asks } order)
    else
      match cancelInSide orderId order.price_ b1.bids_ with
      | .error e => .error e
      | .ok bids => .ok (onOrderCancelled { b1 with bids_ := bids } order)

/-- Model of `OrderBook::CancelOrder`: takes the lock and calls `CancelOrderInternal`. -/
def CancelOrder (b : OrderBook) (orderId : OrderId) : Except Error OrderBook :=
  CancelOrderInternal b orderId

/-- Model of `OrderBook::CancelOrders`: the batch cancel used by the pruner. -/
def CancelOrders (b : OrderBook) : List OrderId → Except Error OrderBook
  | [] => .ok b
  | orderId :: rest =>
    match CancelOrderInternal b orderId with
    | .error e => .error e
    | .ok b' => CancelOrders b' rest

/-- Model of `OrderBook::canMatch`. -/
def canMatch (b : OrderBook) (side : Side) (price : Price) : Bool :=
  if side = Side.Buy then
    match b.asks_ with
    | [] => false
    | (bestAsk, _) :: _ => decide (price ≥ bestAsk)
  else
    match b.bids_ with
    | [] => false
    | (bestBid, _) :: _ => decide (price ≤ bestBid)

/-- The `for` loop of `canFullyFill` over the entries of `data_`, in the order given. -/
def canFullyFillWalk (side : Side) (price : Price) (threshold : Option Price) :
    Quantity → List (Price × LevelData) → Bool
  | _, [] => false
  | quantity, (levelPrice, levelData) :: rest =>
    if (threshold.isSome ∧ (side = Side.Buy ∧ threshold.getD 0 > levelPrice)) ∨
        (side = Side.Sell ∧ threshold.getD 0 < levelPrice) then
      canFullyFillWalk side price threshold quantity rest
    else if (side = Side.Buy ∧ levelPrice > price) ∨ (side = Side.Sell ∧ levelPrice < price) then
      canFullyFillWalk side price threshold quantity rest
    else if quantity ≤ levelData.quantity_ then true
    else canFullyFillWalk side price threshold (quantity - levelData.quantity_) rest

/-- Model of `OrderBook::canFullyFill`. -/
def canFullyFill (b : OrderBook) (side : Side) (price : Price) (quantity : Quantity) : Bool :=
  if ¬ canMatch b side price then false
  else
    let threshold : Option Price :=
      if side = Side.Buy then (b.asks_.head?).map Prod.fst else (b.bids_.head?).map Prod.fst
    canFullyFillWalk side price threshold quantity b.data_

/-- The inner `while (bids.size() > 0 && asks.size() > 0)` loop of `MatchOrders`;
`bids` and `asks` are the queues of the first level of each side and are
updated in place.  Each round removes a queue front, so `fuel` rounds suffice
when `fuel` is the number of orders in the two queues. -/
def matchLevel : Nat → OrderBook → Except Error (Trades × OrderBook)
  | fuel, b =>
    match b.bids_, b.asks_ with
    | (bidPrice, bid :: bids) :: restBids, (askPrice, ask :: asks) :: restAsks =>
      match fuel with
      | 0 => .error .nontermination
      | fuel + 1 =>
        let quantity := min bid.remainingQuantity_ ask.remainingQuantity_
        match bid.Fill quantity, ask.Fill quantity with
        | .error e, _ => .error e
        | .ok _, .error e => .error e
        | .ok bid', .ok ask' =>
          let orders0 := replace ask.orderId_ ask' (replace bid.orderId_ bid' b.orders_)
          let bids1 := if bid'.IsFilled then bids else bid' :: bids
          let orders1 := if bid'.IsFilled then erase bid.orderId_ orders0 else orders0
          let asks1 := if ask'.IsFilled then asks else ask' :: asks
          let orders2 := if ask'.IsFilled then erase ask.orderId_ orders1 else orders1
          let bidTrade : TradeInfo :=
            { orderId_ := bid'.orderId_, price_ := bid'.price_, quantity_ := quantity }
          let askTrade : TradeInfo :=
            { orderId_ := ask'.orderId_, price_ := ask'.price_, quantity_ := quantity }
          let b1 : OrderBook :=
            { b with bids_ := (bidPrice, bids1) :: restBids, asks_ := (askPrice, asks1) :: restAsks,
                     orders_ := orders2 }
          let b2 := onOrderMatched b1 bid'.price_ quantity bid'.IsFilled
          let b3 := onOrderMatched b2 bid'.price_ quantity ask'.IsFilled
          match matchLevel fuel b3 with
          | .error e => .error e
          | .ok (trades, b') => .ok ({ bidTrade_ := bidTrade, askTrade_ := askTrade } :: trades, b')
    | _, _ => .ok ([], b)

/-- Model of `if (queue.empty()) side.erase(price)` for the first level of a side. -/
def eraseIfEmpty (side : List (Price × OrderPointers)) : List (Price × OrderPointers) :=
  match side with
  | (price, []) :: _ => erase price side
  | _ => side

/-- The outer `while (true)` loop of `MatchOrders`.  Each round that does not
break erases a price level, so `fuel` rounds suffice when `fuel` exceeds the
number of levels. -/
def matchLoop : Nat → OrderBook → Except Error (Trades × OrderBook)
  | fuel, b =>
    match b.bids_, b.asks_ with
    | (bidPrice, bids) :: _, (askPrice, asks) :: _ =>
      if bidPrice < askPrice then .ok ([], b)
      else
        match fuel with
        | 0 => .error .nontermination
        | fuel + 1 =>
          match matchLevel (bids.length + asks.length) b with
          | .error e => .error e
          | .ok (trades, b1) =>
            let b2 := { b1 with bids_ := eraseIfEmpty b1.bids_, asks_ := eraseIfEmpty b1.asks_ }
            match matchLoop fuel b2 with
            | .error e => .error e
            | .ok (trades', b') => .ok (trades ++ trades', b')
    | _, _ => .ok ([], b)

/-- The check after the matching loop: a `FillAndKill` order at the front of
the best level of `side` is cancelled. -/
def cancelFrontFillAndKill (b : OrderBook) (side : List (Price × OrderPointers)) :
    Except Error OrderBook :=
  match side with
  | [] => .ok b
  | (_, []) :: _ => .error .undefined
  | (_, order :: _) :: _ =>
    if order.orderType_ = OrderType.FillAndKill then CancelOrder b order.orderId_ else .ok b

/-- Model of `OrderBook::MatchOrders`. -/
def MatchOrders (b : OrderBook) : Except Error (Trades × OrderBook) :=
  match matchLoop (b.bids_.length + b.asks_.length + 1) b with
  | .error e => .error e
  | .ok (trades, b1) =>
    match cancelFrontFillAndKill b1 b1.bids_ with
    | .error e => .error e
    | .ok b2 =>
      match cancelFrontFillAndKill b2 b2.asks_ with
      | .error e => .error e
      | .ok b3 => .ok (trades, b3)

/-- The insertion at the end of `AddOrder`: push the order on the tail of its
price queue (`operator[]` creates the queue), record it in the locator, emit
the Add event, then match. -/
def insertAndMatch (b : OrderBook) (order : Order) : Except Error (Trades × OrderBook) :=
  let b1 : OrderBook :=
    if order.side_ = Side.Buy then
      { b with bids_ := insert greater order.price_
                  ((find order.price_ b.bids_).getD [] ++ [order]) b.bids_ }
    else
      { b with asks_ := insert less order.price_
                  ((find order.price_ b.asks_).getD [] ++ [order]) b.asks_ }
  let b2 := { b1 with orders_ := insert less order.orderId_ order b1.orders_ }
  MatchOrders (onOrderAdded b2 order)

/-- The policy checks of `AddOrder` that follow the market rewrite. -/
def checkAndInsert (b : OrderBook) (order : Order) : Except Error (Trades × OrderBook) :=
  if order.orderType_ = OrderType.FillAndKill ∧ ¬ canMatch b order.side_ order.price_ then
    .ok ([], b)
  else if order.orderType_ = OrderType.FillOrKill ∧
      ¬ canFullyFill b order.side_ order.price_ order.initialQuantity_ then
    .ok ([], b)
  else insertAndMatch b order

/-- Model of `OrderBook::AddOrder`. -/
def AddOrder (b : OrderBook) (order : Order) : Except Error (Trades × OrderBook) :=
  if (find order.orderId_ b.orders_).isSome then .ok ([], b)
  else if order.orderType_ = OrderType.Market then
    match order.side_, b.asks_, b.bids_ with
    | Side.Buy, (marketAsk, _) :: _, _ =>
      match order.ToGoodTillCancel marketAsk with
      | .error e => .error e
      | .ok order' => checkAndInsert b order'
    | Side.Sell, _, (marketBid, _) :: _ =>
      match order.ToGoodTillCancel marketBid with
      | .error e => .error e
      | .ok order' => checkAndInsert b order'
    | _, _, _ => .ok ([], b)
  else checkAndInsert b order

/-- Model of `OrderBook::ModifyOrder` with the type of the existing order taken
by value before the cancel: the type is the one the locator entry holds when
the call starts.  The source does not copy it; `ModifyOrderAsWritten` follows
the source there. -/
def ModifyOrder (b : OrderBook) (order : OrderModify) : Except Error (Trades × OrderBook) :=
  match find order.orderId_ b.orders_ with
  | none => .ok ([], b)
  | some existingOrder =>
    match CancelOrder b order.orderId_ with
    | .error e => .error e
    | .ok b1 => AddOrder b1 (order.ToOrderPointer existingOrder.orderType_)

/-- Model of `OrderBook::ModifyOrder` statement by statement.  `existingOrder`
is bound by `const auto &` to the entry of `orders_`, not copied, so
`existingOrder->GetOrderType()` reads the entry as the locator holds it when
the read happens, which is after `CancelOrder`.  Reading through the reference
when the entry has been erased is undefined behaviour. -/
def ModifyOrderAsWritten (b : OrderBook) (order : OrderModify) :
    Except Error (Trades × OrderBook) :=
  match find order.orderId_ b.orders_ with
  | none => .ok ([], b)
  | some _ =>
    match CancelOrder b order.orderId_ with
    | .error e => .error e
    | .ok b1 =>
      match find order.orderId_ b1.orders_ with
      | none => .error .undefined
      | some existingOrder => AddOrder b1 (order.ToOrderPointer existingOrder.orderType_)

/-- States the public mutators can produce from a freshly constructed book. -/
inductive Reachable : OrderBook → Prop
  | empty : Reachable OrderBook.empty
  | add {b b' : OrderBook} {order : Order} {trades : Trades} :
      Reachable b → AddOrder b order = .ok (trades, b') → Reachable b'
  | cancel {b b' : OrderBook} {orderId : OrderId} :
      Reachable b → CancelOrder b orderId = .ok b' → Reachable b'
  | modify {b b' : OrderBook} {order : OrderModify} {trades : Trades} :
      Reachable b → ModifyOrder b order = .ok (trades, b') → Reachable b'

/-- States the public mutators can produce from a freshly constructed book when
every order handed to `AddOrder` has a positive remaining quantity not above
its initial quantity (as every order built by the five-argument constructor
with a positive quantity has) and every modify request asks for a positive
quantity. -/
inductive ReachablePositive : OrderBook → Prop
  | empty : ReachablePositive OrderBook.empty
  | add {b b' : OrderBook} {order : Order} {trades : Trades} :
      ReachablePositive b → 0 < order.remainingQuantity_ →
      order.remainingQuantity_ ≤ order.initialQuantity_ →
      AddOrder b order = .ok (trades, b') → ReachablePositive b'
  | cancel {b b' : OrderBook} {orderId : OrderId} :
      ReachablePositive b → CancelOrder b orderId = .ok b' → ReachablePositive b'
  | modify {b b' : OrderBook} {order : OrderModify} {trades : Trades} :
      ReachablePositive b → 0 < order.quantity_ →
      ModifyOrder b order = .ok (trades, b') → ReachablePositive b'

/-! ## The snapshot -/

/-- Model of the three-argument constructor `Order(orderId, side, quantity)`.
Its body builds a temporary with the five-argument constructor and discards
it; no member of the object under construction is assigned, so the object
keeps whatever its storage held.  That content is the argument `storage`. -/
def Order.newMarket (storage : Order) (orderId : OrderId) (side : Side) (quantity : Quantity) :
    Order :=
  let _temporary := Order.new OrderType.Market orderId side (-10) quantity
  storage

/-! ## The pruner -/

/-- The two results of `condition_variable::wait_for`: `timeout` when the
deadline passed, `no_timeout` when the thread was woken before it. -/
inductive cv_status where
  | no_timeout
  | timeout
  deriving DecidableEq, Repr

/-- The scan of `orders_` in `PruneGoodForDayOrders`: the ids of the entries
whose order is `GoodForDay`, in the iteration order of the locator. -/
def goodForDayIds (b : OrderBook) : List OrderId :=
  (b.orders_.filter (fun e => decide (e.2.orderType_ = OrderType.GoodForDay))).map
    (fun e => e.2.orderId_)

/-- One pass through the body of the `while (true)` loop of
`PruneGoodForDayOrders`.  The clock arithmetic at the top of the body only
fixes how long the wait may last; what the wait returns is the argument
`waitResult` (`wait_for` is called only when the flag is not set).  The result
is `none` when the function returns, and the book after the batch cancel when
the loop goes round again. -/
def PruneGoodForDayOrdersPass (b : OrderBook) (shutDown_ : Bool) (waitResult : cv_status) :
    Except Error (Option OrderBook) :=
  if shutDown_ = true ∨ waitResult = cv_status.timeout then .ok none
  else
    match CancelOrders b (goodForDayIds b) with
    | .error e => .error e
    | .ok b' => .ok (some b')

/-! ## Auxiliary definitions for the invariants -/

/-- The strict order in which a side index keeps its keys: descending for
bids, ascending for asks. -/
def sideRel (s : Side) (a b : Int) : Prop :=
  match s with
  | Side.Buy => a > b
  | Side.Sell => a < b

/-- The comparator of a side index. -/
def sideBefore (s : Side) : Int → Int → Bool :=
  match s with
  | Side.Buy => greater
  | Side.Sell => less

/-- A map whose keys are in the strict order of side `s`. -/
def SortedBy (s : Side) {V : Type} (m : List (Int × V)) : Prop :=
  (keys m).Pairwise (sideRel s)


/-- The side index of side `s`. -/
def sideOf (b : OrderBook) (s : Side) : List (Price × OrderPointers) :=
  match s with
  | Side.Buy => b.bids_
  | Side.Sell => b.asks_

/-- The book with the side index of side `s` set to `m`. -/
def setSide (b : OrderBook) (s : Side) (m : List (Price × OrderPointers)) : OrderBook :=
  match s with
  | Side.Buy => { b with bids_ := m }
  | Side.Sell => { b with asks_ := m }

/-- The book with the locator set to `x`. -/
def setOrders (b : OrderBook) (x : List (OrderId × Order)) : OrderBook :=
  { b with orders_ := x }

/-- The queue resting at price `p` on side `s`; empty when there is no such level. -/
def level (b : OrderBook) (s : Side) (p : Price) : OrderPointers :=
  (find p (sideOf b s)).getD []

/-- The order the locator holds for `orderId`. -/
def locate (b : OrderBook) (orderId : OrderId) : Option Order :=
  find orderId b.orders_

/-- The side index and the locator describe the same set of resting orders:
every queued order sits on its own side under its own price and is the
locator's entry for its id, ids are not repeated inside a queue, and every
locator entry is keyed by its order's id and queued where the order says it is. -/
structure Consistent (lev : Side → Price → OrderPointers) (loc : OrderId → Option Order) :
    Prop where
  side_ok : ∀ s p, ∀ o ∈ lev s p, o.side_ = s ∧ o.price_ = p ∧ loc o.orderId_ = some o
  side_nodup : ∀ s p, ((lev s p).map Order.orderId_).Nodup
  orders_ok : ∀ orderId o, loc orderId = some o → o.orderId_ = orderId ∧ o ∈ lev o.side_ o.price_

/-- Structural well-formedness of a book: the three maps have strictly ordered
keys and the side index agrees with the locator. -/
structure WF (b : OrderBook) : Prop where
  side_sorted : ∀ s, SortedBy s (sideOf b s)
  orders_sorted : SortedBy Side.Sell b.orders_
  consistent : Consistent (level b) (locate b)

/-- No price key maps to an empty queue. -/
def LevelsNonEmpty (b : OrderBook) : Prop :=
  ∀ s p l, find p (sideOf b s) = some l → l ≠ []

/-- No price key other than the first of each side maps to an empty queue. -/
def TailLevelsNonEmpty (b : OrderBook) : Prop :=
  ∀ s p l, find p (sideOf b s).tail = some l → l ≠ []

/-- Every bid price is below every ask price. -/
def Uncrossed (b : OrderBook) : Prop :=
  ∀ pb ∈ keys b.bids_, ∀ pa ∈ keys b.asks_, pb < pa

/-- The invariant of the book between public calls. -/
structure Inv (b : OrderBook) : Prop where
  wf : WF b
  nonEmpty : LevelsNonEmpty b
  uncrossed : Uncrossed b

/-- The effect of one `Fill(quantity)` on the order at the front of the first
level of side `s`, followed by the pop and locator erase when the order is
thereby filled. -/
def fillFront (s : Side) (quantity : Quantity) (b : OrderBook) : OrderBook :=
  match sideOf b s with
  | (p, o :: rest) :: tl =>
    let o' : Order := { o with remainingQuantity_ := o.remainingQuantity_ - quantity }
    if o'.IsFilled then
      setOrders (setSide b s ((p, rest) :: tl)) (erase o.orderId_ b.orders_)
    else
      setOrders (setSide b s ((p, o' :: rest) :: tl)) (replace o.orderId_ o' b.orders_)
  | _ => b

/-- The inner matching loop can run a round: both sides have a first level with
a front order. -/
def BothFronts (b : OrderBook) : Prop :=
  ∃ bidPrice bid bids restBids askPrice ask asks restAsks,
    b.bids_ = (bidPrice, bid :: bids) :: restBids ∧ b.asks_ = (askPrice, ask :: asks) :: restAsks

/-- Number of orders queued at the first level of a side index. -/
def headLen (m : List (Price × OrderPointers)) : Nat :=
  match m with
  | (_, l) :: _ => l.length
  | [] => 0

/-- The outer matching loop does not break: both sides are non-empty and the
best bid is not below the best ask. -/
def Crossing (b : OrderBook) : Prop :=
  ∃ bidPrice bids restBids askPrice asks restAsks,
    b.bids_ = (bidPrice, bids) :: restBids ∧ b.asks_ = (askPrice, asks) :: restAsks ∧
      ¬ bidPrice < askPrice

/-- The end of a round of the outer matching loop: a first level whose queue
is empty is erased, on both sides. -/
def sweep (b : OrderBook) : OrderBook :=
  { b with bids_ := eraseIfEmpty b.bids_, asks_ := eraseIfEmpty b.asks_ }

/-- The book after one round of the inner matching loop: both front orders
are filled by the smaller of their remaining quantities and the two events are
sent to the level aggregate. -/
def afterRound (b : OrderBook) : OrderBook :=
  match b.bids_, b.asks_ with
  | (_, bid :: _) :: _, (_, ask :: _) :: _ =>
    let quantity := min bid.remainingQuantity_ ask.remainingQuantity_
    let b1 := fillFront Side.Sell quantity (fillFront Side.Buy quantity b)
    let b2 := onOrderMatched b1 bid.price_ quantity (decide (bid.remainingQuantity_ - quantity = 0))
    onOrderMatched b2 bid.price_ quantity (decide (ask.remainingQuantity_ - quantity = 0))
  | _, _ => b

/-- The trade recorded by one round of the inner matching loop. -/
def roundTrade (bid ask : Order) : Trade :=
  { bidTrade_ := { orderId_ := bid.orderId_, price_ := bid.price_,
                   quantity_ := min bid.remainingQuantity_ ask.remainingQuantity_ },
    askTrade_ := { orderId_ := ask.orderId_, price_ := ask.price_,
                   quantity_ := min bid.remainingQuantity_ ask.remainingQuantity_ } }

/-- What a cancel of a resting id does to a well-formed book. -/
structure CancelEffect (b b' : OrderBook) (o : Order) : Prop where
  orders_eq : b'.orders_ = erase o.orderId_ b.orders_
  locate_eq : ∀ i, locate b' i = if i = o.orderId_ then none else locate b i
  level_eq : ∀ s p, level b' s p =
    if s = o.side_ ∧ p = o.price_ then
      (level b s p).filter (fun x => decide (x.orderId_ ≠ o.orderId_))
    else level b s p
  side_other : ∀ s, s ≠ o.side_ → sideOf b' s = sideOf b s
  keys_subset : ∀ s, ∀ x ∈ keys (sideOf b' s), x ∈ keys (sideOf b s)
  key_iff : ∀ p, p ∈ keys (sideOf b' o.side_) ↔
    (p ∈ keys (sideOf b o.side_) ∧
      (p = o.price_ → (level b o.side_ p).filter (fun x => decide (x.orderId_ ≠ o.orderId_)) ≠ []))
  data_eq : b'.data_ = (onOrderCancelled b o).data_
  wf : WF b'
  nonEmpty : LevelsNonEmpty b → LevelsNonEmpty b'

/-- The book right after the insertion at the end of `AddOrder`, before the
level aggregate is told and before matching. -/
def inserted (b : OrderBook) (o : Order) : OrderBook :=
  setOrders
    (setSide b o.side_
      (insert (sideBefore o.side_) o.price_ (level b o.side_ o.price_ ++ [o]) (sideOf b o.side_)))
    (insert less o.orderId_ o b.orders_)

/-- The order with id `orderId` is either gone from the locator or is the only
order at the first level of side `s` and is a fill-and-kill order. -/
def FrontOrGone (orderId : OrderId) (s : Side) (b : OrderBook) : Prop :=
  locate b orderId = none ∨
    ∃ p o tl, sideOf b s = (p, [o]) :: tl ∧ o.orderId_ = orderId ∧
      o.orderType_ = OrderType.FillAndKill

/-- The side an order of side `s` trades against. -/
def opposite (s : Side) : Side :=
  match s with
  | Side.Buy => Side.Sell
  | Side.Sell => Side.Buy

/-- The first bid key, `bids_.begin()->first`, when there is a bid. -/
def bestBid (b : OrderBook) : Option Price :=
  b.bids_.head?.map Prod.fst

/-- The first ask key, `asks_.begin()->first`, when there is an ask. -/
def bestAsk (b : OrderBook) : Option Price :=
  b.asks_.head?.map Prod.fst

/-! ## Concrete books used by the examples -/

/-- A book holding a single order: Sell GoodTillCancel id 1, quantity 10 at 100. -/
def loneAsk : OrderBook :=
  { data_ := [(100, { quantity_ := 10, count_ := 1 })],
    bids_ := [],
    asks_ := [(100, [Order.new OrderType.GoodTillCancel 1 Side.Sell 100 10])],
    orders_ := [(1, Order.new OrderType.GoodTillCancel 1 Side.Sell 100 10)] }

/-- The book after Sell GoodTillCancel id 1 (10 at 100) and Buy GoodTillCancel
id 2 (10 at 99): both rest. -/
def twoSided : OrderBook :=
  { data_ := [(99, { quantity_ := 10, count_ := 1 }), (100, { quantity_ := 10, count_ := 1 })],
    bids_ := [(99, [Order.new OrderType.GoodTillCancel 2 Side.Buy 99 10])],
    asks_ := [(100, [Order.new OrderType.GoodTillCancel 1 Side.Sell 100 10])],
    orders_ := [(1, Order.new OrderType.GoodTillCancel 1 Side.Sell 100 10),
                (2, Order.new OrderType.GoodTillCancel 2 Side.Buy 99 10)] }

/-- The book after Sell GoodTillCancel id 1 (10 at 100) and Buy GoodTillCancel
id 2 (5 at 101): order 2 is filled, order 1 rests with 5 remaining, and the
level aggregate still shows 10 at price 100. -/
def staleAggregate : OrderBook :=
  { data_ := [(100, { quantity_ := 10, count_ := 1 })],
    bids_ := [],
    asks_ := [(100, [{ Order.new OrderType.GoodTillCancel 1 Side.Sell 100 10 with
                        remainingQuantity_ := 5 }])],
    orders_ := [(1, { Order.new OrderType.GoodTillCancel 1 Side.Sell 100 10 with
                        remainingQuantity_ := 5 })] }

/-- The book after Sell GoodTillCancel id 1 (10 at 100) and Buy GoodTillCancel
id 2 (10 at 101): both orders are filled, no order rests, and the level
aggregate keeps an entry at 100 and one with count -1 at 101. -/
def negativeCount : OrderBook :=
  { data_ := [(100, { quantity_ := 10, count_ := 1 }), (101, { quantity_ := -10, count_ := -1 })],
    bids_ := [],
    asks_ := [],
    orders_ := [] }

/-- A book holding a single order: Buy GoodForDay id 1, quantity 10 at 100. -/
def loneGoodForDay : OrderBook :=
  { data_ := [(100, { quantity_ := 10, count_ := 1 })],
    bids_ := [(100, [Order.new OrderType.GoodForDay 1 Side.Buy 100 10])],
    asks_ := [],
    orders_ := [(1, Order.new OrderType.GoodForDay 1 Side.Buy 100 10)] }

/-- Storage filled with zero bytes read as an `Order`: the first enumerator of
each enumeration and 0 in every number. -/
def zeroStorage : Order :=
  { orderType_ := OrderType.GoodTillCancel, orderId_ := 0, side_ := Side.Buy, price_ := 0,
    initialQuantity_ := 0, remainingQuantity_ := 0 }

/-- All orders queued in a side index, first level first and front first
inside a level: the order in which the matcher reaches them. -/
def queued : List (Price × OrderPointers) → OrderPointers
  | [] => []
  | (_, l) :: rest => l ++ queued rest

/-- Sum of the remaining quantities of a queue. -/
def totalRemaining (l : OrderPointers) : Quantity :=
  (l.map Order.remainingQuantity_).sum

/-- Every queued order has a positive remaining quantity that does not exceed
its initial quantity. -/
def Positive (b : OrderBook) : Prop :=
  ∀ s p, ∀ y ∈ level b s p,
    0 < y.remainingQuantity_ ∧ y.remainingQuantity_ ≤ y.initialQuantity_

/-- The book an `AddOrder` call leaves (the book itself if the call fails). -/
def afterAdd (b : OrderBook) (o : Order) : OrderBook :=
  match AddOrder b o with
  | .ok (_, b') => b'
  | .error _ => b

/-- The book a `CancelOrder` call leaves (the book itself if the call fails). -/
def afterCancel (b : OrderBook) (orderId : OrderId) : OrderBook :=
  match CancelOrder b orderId with
  | .ok b' => b'
  | .error _ => b

/-- The book after Sell GoodTillCancel id 1 (10 at 100), Sell GoodTillCancel
id 2 (10 at 100), Buy GoodTillCancel id 3 (4 at 100, which fills against
order 1) and `CancelOrder(1)`: order 2 rests with 10 remaining, and the level
aggregate at 100 holds 6, because the cancel took off the initial quantity 10
of order 1, of which 4 had already been taken off by the match. -/
def underCounted : OrderBook :=
  { data_ := [(100, { quantity_ := 6, count_ := 1 })],
    bids_ := [],
    asks_ := [(100, [Order.new OrderType.GoodTillCancel 2 Side.Sell 100 10])],
    orders_ := [(2, Order.new OrderType.GoodTillCancel 2 Side.Sell 100 10)] }

/-- The first key of the side opposite to `side`: the `threshold` of `canFullyFill`. -/
def oppositeBest (b : OrderBook) (side : Side) : Option Price :=
  if side = Side.Buy then (b.asks_.head?).map Prod.fst else (b.bids_.head?).map Prod.fst

/-- The level prices that the loop of `canFullyFill` does not skip: neither of
its two `continue` conditions holds. -/
def inRange (side : Side) (price : Price) (threshold : Option Price) (levelPrice : Price) : Bool :=
  !(decide ((threshold.isSome ∧ (side = Side.Buy ∧ threshold.getD 0 > levelPrice)) ∨
      (side = Side.Sell ∧ threshold.getD 0 < levelPrice))) &&
  !(decide ((side = Side.Buy ∧ levelPrice > price) ∨ (side = Side.Sell ∧ levelPrice < price)))

/-- Sum of the level-aggregate quantities of the entries that `canFullyFill`
does not skip. -/
def aggregateInRange (b : OrderBook) (side : Side) (price : Price) : Quantity :=
  ((b.data_.filter (fun e => inRange side price (oppositeBest b side) e.1)).map
    (fun e => e.2.quantity_)).sum

/-- Total remaining quantity of the orders resting on the side opposite to
`side` at prices no worse than `price`: asks at or below it for a Buy, bids at
or above it for a Sell. -/
def availableRemaining (b : OrderBook) (side : Side) (price : Price) : Quantity :=
  (((sideOf b (opposite side)).filter
      (fun e => if side = Side.Buy then decide (e.1 ≤ price) else decide (e.1 ≥ price))).map
    (fun e => totalRemaining e.2)).sum

/-- The leg of a trade that belongs to the resting side when the incoming order
is on side `s`: the ask leg for an incoming Buy, the bid leg for an incoming
Sell. -/
def restingLeg (s : Side) (t : Trade) : TradeInfo :=
  match s with
  | Side.Buy => t.askTrade_
  | Side.Sell => t.bidTrade_

/-- The leg of a trade that belongs to the side `s` of the incoming order. -/
def incomingLeg (s : Side) (t : Trade) : TradeInfo :=
  match s with
  | Side.Buy => t.bidTrade_
  | Side.Sell => t.askTrade_

/-- The leg of a trade that fills order `r` completely. -/
def fullLeg (r : Order) : TradeInfo :=
  { orderId_ := r.orderId_, price_ := r.price_, quantity_ := r.remainingQuantity_ }

/-- The legs are those of the orders `R`, one leg per order and in the same
sequence (same id and price), and every leg but the last fills its order
completely. -/
def LegsOf (R : OrderPointers) (legs : List TradeInfo) : Prop :=
  legs.map (fun t => (t.orderId_, t.price_)) = R.map (fun r => (r.orderId_, r.price_)) ∧
    legs.dropLast = R.dropLast.map fullLeg

/-- Every key of `own`, a side index of side `s`, is strictly on the passive
side of every key of `opp`, the opposite side index: no pair of levels crosses. -/
def Apart (s : Side) (own opp : List (Price × OrderPointers)) : Prop :=
  ∀ ko ∈ keys own, ∀ kp ∈ keys opp, sideRel s kp ko

/-- A book whose only resting order is `r`, with level aggregate `d`. -/
def singleBook (d : List (Price × LevelData)) (r : Order) : OrderBook :=
  setSide { data_ := d, bids_ := [], asks_ := [], orders_ := [(r.orderId_, r)] } r.side_
    [(r.price_, [r])]

/-- The book after Sell GoodTillCancel id 1 (10 at 101). -/
def askAt101 : OrderBook :=
  { data_ := [(101, { quantity_ := 10, count_ := 1 })],
    bids_ := [],
    asks_ := [(101, [Order.new OrderType.GoodTillCancel 1 Side.Sell 101 10])],
    orders_ := [(1, Order.new OrderType.GoodTillCancel 1 Side.Sell 101 10)] }

/-- The book after Sell GoodTillCancel id 1 (10 at 101) and Sell
GoodTillCancel id 2 (5 at 100). -/
def twoAsks : OrderBook :=
  { data_ := [(100, { quantity_ := 5, count_ := 1 }), (101, { quantity_ := 10, count_ := 1 })],
    bids_ := [],
    asks_ := [(100, [Order.new OrderType.GoodTillCancel 2 Side.Sell 100 5]),
              (101, [Order.new OrderType.GoodTillCancel 1 Side.Sell 101 10])],
    orders_ := [(1, Order.new OrderType.GoodTillCancel 1 Side.Sell 101 10),
                (2, Order.new OrderType.GoodTillCancel 2 Side.Sell 100 5)] }

/-- The book after Sell GoodTillCancel id 1 (10 at 101), Sell GoodTillCancel
id 2 (5 at 100) and Sell GoodTillCancel id 3 (5 at 100): order 1 came first but
at the worse price, orders 2 and 3 share the better price and 2 came first. -/
def threeAsks : OrderBook :=
  { data_ := [(100, { quantity_ := 10, count_ := 2 }), (101, { quantity_ := 10, count_ := 1 })],
    bids_ := [],
    asks_ := [(100, [Order.new OrderType.GoodTillCancel 2 Side.Sell 100 5,
                     Order.new OrderType.GoodTillCancel 3 Side.Sell 100 5]),
              (101, [Order.new OrderType.GoodTillCancel 1 Side.Sell 101 10])],
    orders_ := [(1, Order.new OrderType.GoodTillCancel 1 Side.Sell 101 10),
                (2, Order.new OrderType.GoodTillCancel 2 Side.Sell 100 5),
                (3, Order.new OrderType.GoodTillCancel 3 Side.Sell 100 5)] }

/-- The leg of a trade for order `o` with quantity `q`. -/
def legOf (o : Order) (q : Quantity) : TradeInfo :=
  { orderId_ := o.orderId_, price_ := o.price_, quantity_ := q }

/-- The book after Buy GoodForDay id 1 (10 at 100), Buy GoodTillCancel id 2
(5 at 100) and Sell GoodForDay id 3 (7 at 101). -/
def mixedDay : OrderBook :=
  { data_ := [(100, { quantity_ := 15, count_ := 2 }), (101, { quantity_ := 7, count_ := 1 })],
    bids_ := [(100, [Order.new OrderType.GoodForDay 1 Side.Buy 100 10,
                     Order.new OrderType.GoodTillCancel 2 Side.Buy 100 5])],
    asks_ := [(101, [Order.new OrderType.GoodForDay 3 Side.Sell 101 7])],
    orders_ := [(1, Order.new OrderType.GoodForDay 1 Side.Buy 100 10),
                (2, Order.new OrderType.GoodTillCancel 2 Side.Buy 100 5),
                (3, Order.new OrderType.GoodForDay 3 Side.Sell 101 7)] }

/-! ## Facts about the association-list maps -/

section MapLemmas

variable {V : Type}

@[simp] theorem find_nil (k : Int) : find k ([] : List (Int × V)) = none := rfl

@[simp] theorem find_cons (k k' : Int) (v : V) (m : List (Int × V)) :
    find k ((k', v) :: m) = if k' = k then some v else find k m := rfl

theorem find_replace (k k' : Int) (v : V) (m : List (Int × V)) :
    find k' (replace k v m) = if k' = k then (find k m).map (fun _ => v) else find k' m := by
  induction m with
  | nil => simp [replace]
  | cons e m ih =>
    obtain ⟨a, w⟩ := e
    simp only [replace, List.map_cons] at ih ⊢
    by_cases h1 : a = k
    · by_cases h2 : k' = k
      · subst h1; subst h2; simp
      · subst h1
        have h3 : ¬ a = k' := fun h => h2 h.symm
        simp [h2, h3] at ih ⊢
        exact ih
    · by_cases h2 : k' = k
      · subst h2
        simp [h1] at ih ⊢
        exact ih
      · by_cases h3 : a = k'
        · simp [h1, h2, h3]
        · simp [h1, h2, h3] at ih ⊢
          exact ih

theorem find_erase (k k' : Int) (m : List (Int × V)) :
    find k' (erase k m) = if k' = k then none else find k' m := by
  induction m with
  | nil => simp [erase]
  | cons e m ih =>
    obtain ⟨a, w⟩ := e
    simp only [erase] at ih ⊢
    by_cases h1 : a = k
    · subst h1
      by_cases h2 : k' = a
      · subst h2; simp [List.filter_cons] at ih ⊢; exact ih
      · have h3 : ¬ a = k' := fun h => h2 h.symm
        simp [List.filter_cons, h2, h3] at ih ⊢
        exact ih
    · by_cases h2 : k' = k
      · subst h2
        simp [List.filter_cons, h1] at ih ⊢
        exact ih
      · by_cases h3 : a = k'
        · simp [List.filter_cons, h1, h2, h3]
        · simp [List.filter_cons, h1, h2, h3] at ih ⊢
          exact ih

theorem find_insert (before : Int → Int → Bool) (k k' : Int) (v : V) (m : List (Int × V)) :
    find k' (insert before k v m) = if k' = k then some v else find k' m := by
  induction m with
  | nil =>
    by_cases h : k' = k
    · subst h; simp [insert]
    · have h3 : ¬ k = k' := fun h' => h h'.symm
      simp [insert, h, h3]
  | cons e m ih =>
    obtain ⟨a, w⟩ := e
    simp only [insert]
    by_cases h1 : a = k
    · subst h1
      by_cases h2 : k' = a
      · subst h2; simp
      · have h3 : ¬ a = k' := fun h => h2 h.symm
        simp [h2, h3]
    · simp only [h1, if_false]
      by_cases hb : before k a = true
      · simp only [hb, if_true]
        by_cases h2 : k' = k
        · subst h2; simp
        · have h3 : ¬ k = k' := fun h => h2 h.symm
          simp [h2, h3]
      · simp only [hb]
        by_cases h2 : k' = k
        · subst h2
          simp [h1] at ih ⊢
          exact ih
        · by_cases h3 : a = k'
          · simp [h2, h3]
          · simp [h2, h3] at ih ⊢
            exact ih

theorem keys_replace (k : Int) (v : V) (m : List (Int × V)) : keys (replace k v m) = keys m := by
  induction m with
  | nil => rfl
  | cons e m ih =>
    simp only [keys, replace, List.map_cons] at ih ⊢
    by_cases h : e.1 = k <;> simp [h, ih]

theorem keys_erase_sublist (k : Int) (m : List (Int × V)) : (keys (erase k m)).Sublist (keys m) := by
  unfold keys erase
  exact (List.filter_sublist m).map Prod.fst

theorem mem_keys_erase (k x : Int) (m : List (Int × V)) :
    x ∈ keys (erase k m) ↔ x ∈ keys m ∧ x ≠ k := by
  simp only [keys, erase, List.mem_map, List.mem_filter, decide_eq_true_eq]
  constructor
  · rintro ⟨e, ⟨he, hk⟩, rfl⟩
    exact ⟨⟨e, he, rfl⟩, hk⟩
  · rintro ⟨⟨e, he, rfl⟩, hk⟩
    exact ⟨e, ⟨he, hk⟩, rfl⟩

theorem mem_keys_insert (before : Int → Int → Bool) (k x : Int) (v : V) (m : List (Int × V)) :
    x ∈ keys (insert before k v m) ↔ x = k ∨ x ∈ keys m := by
  induction m with
  | nil => simp [insert, keys]
  | cons e m ih =>
    obtain ⟨a, w⟩ := e
    simp only [insert]
    by_cases h1 : a = k
    · subst h1; simp [keys]
    · simp only [h1, if_false]
      by_cases hb : before k a = true
      · simp [hb, keys]
      · simp only [hb]
        simp only [Bool.false_eq_true, if_false, keys, List.map_cons, List.mem_cons] at ih ⊢
        rw [ih]
        tauto

theorem find_isSome_iff (k : Int) (m : List (Int × V)) : (find k m).isSome ↔ k ∈ keys m := by
  induction m with
  | nil => simp [keys]
  | cons e m ih =>
    obtain ⟨a, w⟩ := e
    by_cases h : a = k
    · subst h; simp [keys]
    · have h3 : ¬ k = a := fun h' => h h'.symm
      simp only [keys, List.map_cons, List.mem_cons] at ih ⊢
      simp [h, h3, ih]

theorem find_eq_none_iff (k : Int) (m : List (Int × V)) : find k m = none ↔ k ∉ keys m := by
  rw [← find_isSome_iff]
  cases find k m <;> simp

theorem mem_keys_of_find {k : Int} {v : V} {m : List (Int × V)} (h : find k m = some v) :
    k ∈ keys m := by
  rw [← find_isSome_iff, h]; rfl

theorem mem_of_find {k : Int} {v : V} {m : List (Int × V)} (h : find k m = some v) :
    (k, v) ∈ m := by
  induction m with
  | nil => simp at h
  | cons e m ih =>
    obtain ⟨a, w⟩ := e
    by_cases h1 : a = k
    · subst h1; simp at h; subst h; simp
    · simp [h1] at h
      exact List.mem_cons_of_mem _ (ih h)

/-- Erasing a key that is not in the map changes nothing. -/
theorem erase_of_not_mem {k : Int} {m : List (Int × V)} (h : k ∉ keys m) : erase k m = m := by
  unfold erase
  rw [List.filter_eq_self]
  intro e he
  simp only [decide_eq_true_eq]
  intro hk
  exact h (by rw [← hk]; exact List.mem_map_of_mem Prod.fst he)

theorem length_erase_le (k : Int) (m : List (Int × V)) : (erase k m).length ≤ m.length :=
  List.length_filter_le _ _

end MapLemmas

theorem sideBefore_iff (s : Side) (a b : Int) : sideBefore s a b = true ↔ sideRel s a b := by
  cases s <;> simp [sideBefore, sideRel, greater, less]

theorem sideRel_trans {s : Side} {a b c : Int} (h1 : sideRel s a b) (h2 : sideRel s b c) :
    sideRel s a c := by
  cases s <;> simp only [sideRel] at * <;> omega

theorem sideRel_irrefl (s : Side) (a : Int) : ¬ sideRel s a a := by
  cases s <;> simp [sideRel]

theorem sideRel_total {s : Side} {a b : Int} (h1 : ¬ sideRel s a b) (h2 : a ≠ b) :
    sideRel s b a := by
  cases s <;> simp only [sideRel] at * <;> omega

section SortedLemmas

variable {V : Type}

theorem sorted_nil (s : Side) : SortedBy s ([] : List (Int × V)) := List.Pairwise.nil

theorem sorted_cons_iff {s : Side} {k : Int} {v : V} {m : List (Int × V)} :
    SortedBy s ((k, v) :: m) ↔ (∀ x ∈ keys m, sideRel s k x) ∧ SortedBy s m := by
  simp [SortedBy, keys, List.pairwise_cons]

theorem sorted_tail {s : Side} {e : Int × V} {m : List (Int × V)}
    (h : SortedBy s (e :: m)) : SortedBy s m := by
  obtain ⟨k, v⟩ := e
  exact (sorted_cons_iff.mp h).2

theorem sorted_head_not_mem {s : Side} {k : Int} {v : V} {m : List (Int × V)}
    (h : SortedBy s ((k, v) :: m)) : k ∉ keys m := by
  intro hk
  exact sideRel_irrefl s k ((sorted_cons_iff.mp h).1 k hk)

theorem sorted_erase {s : Side} {m : List (Int × V)} (h : SortedBy s m) (k : Int) :
    SortedBy s (erase k m) :=
  List.Pairwise.sublist (keys_erase_sublist k m) h

theorem sorted_replace {s : Side} {m : List (Int × V)} (h : SortedBy s m) (k : Int) (v : V) :
    SortedBy s (replace k v m) := by
  unfold SortedBy; rw [keys_replace]; exact h

theorem sorted_insert {s : Side} {m : List (Int × V)} (h : SortedBy s m) (k : Int) (v : V) :
    SortedBy s (insert (sideBefore s) k v m) := by
  induction m with
  | nil => simp [OrderBook.insert, SortedBy, keys]
  | cons e m ih =>
    obtain ⟨a, w⟩ := e
    have hc := sorted_cons_iff.mp h
    simp only [OrderBook.insert]
    by_cases h1 : a = k
    · subst h1
      simp only [if_true]
      exact sorted_cons_iff.mpr hc
    · simp only [h1, if_false]
      by_cases hb : sideBefore s k a = true
      · simp only [hb, if_true]
        have hka : sideRel s k a := (sideBefore_iff s k a).mp hb
        refine sorted_cons_iff.mpr ⟨?_, h⟩
        intro x hx
        simp only [keys, List.map_cons, List.mem_cons] at hx
        rcases hx with rfl | hx
        · exact hka
        · exact sideRel_trans hka (hc.1 x hx)
      · simp only [hb]
        have hka : ¬ sideRel s k a := fun h' => hb ((sideBefore_iff s k a).mpr h')
        have hak : sideRel s a k := sideRel_total hka (fun h' => h1 h'.symm)
        refine sorted_cons_iff.mpr ⟨?_, ih hc.2⟩
        intro x hx
        rcases (mem_keys_insert _ k x v m).mp hx with rfl | hx
        · exact hak
        · exact hc.1 x hx

/-- In a sorted map the first key is not repeated, so erasing it leaves the tail. -/
theorem sorted_erase_head {s : Side} {k : Int} {v : V} {m : List (Int × V)}
    (h : SortedBy s ((k, v) :: m)) : erase k ((k, v) :: m) = m := by
  have h1 : erase k ((k, v) :: m) = erase k m := by simp [OrderBook.erase, List.filter_cons]
  rw [h1, erase_of_not_mem (sorted_head_not_mem h)]

/-- A key that precedes every key of a sorted map is inserted in front. -/
theorem insert_front {s : Side} {k : Int} (v : V) {m : List (Int × V)}
    (h : ∀ x ∈ keys m, sideRel s k x) :
    insert (sideBefore s) k v m = (k, v) :: m := by
  cases m with
  | nil => rfl
  | cons e m =>
    obtain ⟨a, w⟩ := e
    have hka : sideRel s k a := h a (by simp [keys])
    have h1 : ¬ a = k := fun h' => sideRel_irrefl s k (h' ▸ hka)
    simp [OrderBook.insert, h1, (sideBefore_iff s k a).mpr hka]

/-- With distinct keys, the length of a map drops by one when a present key is erased. -/
theorem length_erase_of_find {s : Side} {k : Int} {v : V} {m : List (Int × V)}
    (hs : SortedBy s m) (h : find k m = some v) : (erase k m).length + 1 = m.length := by
  induction m with
  | nil => simp at h
  | cons e m ih =>
    obtain ⟨a, w⟩ := e
    by_cases h1 : a = k
    · subst h1
      rw [sorted_erase_head hs]; simp
    · simp [h1] at h
      have := ih (sorted_tail hs) h
      simp [OrderBook.erase, List.filter_cons, h1] at this ⊢
      exact this

/-- With distinct keys, the length of a map grows by one when a new key is inserted. -/
theorem length_insert_of_not_mem (before : Int → Int → Bool) {k : Int} (v : V)
    {m : List (Int × V)} (h : find k m = none) :
    (insert before k v m).length = m.length + 1 := by
  induction m with
  | nil => rfl
  | cons e m ih =>
    obtain ⟨a, w⟩ := e
    by_cases h1 : a = k
    · simp [h1] at h
    · simp [h1] at h
      simp only [OrderBook.insert, h1, if_false]
      by_cases hb : before k a = true
      · simp [hb]
      · simp [hb, ih h]

end SortedLemmas

/-! ## The consistency relation under the three elementary changes -/

/-- In a consistent book an id names one order. -/
theorem Consistent.eq_of_id {lev : Side → Price → OrderPointers} {loc : OrderId → Option Order}
    (h : Consistent lev loc) {s : Side} {p : Price} {x o : Order}
    (hx : x ∈ lev s p) (ho : loc o.orderId_ = some o) (hid : x.orderId_ = o.orderId_) : x = o := by
  have h1 := (h.side_ok s p x hx).2.2
  rw [hid, ho] at h1
  exact (Option.some.inj h1).symm

/-- Removing a resting order from its queue and from the locator. -/
theorem Consistent.remove {lev lev' : Side → Price → OrderPointers}
    {loc loc' : OrderId → Option Order} (h : Consistent lev loc) {o : Order}
    (ho : loc o.orderId_ = some o)
    (hloc : ∀ i, loc' i = if i = o.orderId_ then none else loc i)
    (hother : ∀ s p, ¬ (s = o.side_ ∧ p = o.price_) → lev' s p = lev s p)
    (hsub : (lev' o.side_ o.price_).Sublist (lev o.side_ o.price_))
    (hnot : o ∉ lev' o.side_ o.price_)
    (hkeep : ∀ x ∈ lev o.side_ o.price_, x ≠ o → x ∈ lev' o.side_ o.price_) :
    Consistent lev' loc' := by
  have hmem : ∀ s p, ∀ x ∈ lev' s p, x ∈ lev s p ∧ x ≠ o := by
    intro s p x hx
    by_cases hsp : s = o.side_ ∧ p = o.price_
    · obtain ⟨rfl, rfl⟩ := hsp
      exact ⟨hsub.subset hx, fun hxo => hnot (hxo ▸ hx)⟩
    · rw [hother s p hsp] at hx
      refine ⟨hx, fun hxo => hsp ?_⟩
      have := h.side_ok s p x hx
      rw [hxo] at this
      exact ⟨this.1.symm, this.2.1.symm⟩
  refine ⟨?_, ?_, ?_⟩
  · intro s p x hx
    obtain ⟨hx1, hx2⟩ := hmem s p x hx
    have h1 := h.side_ok s p x hx1
    refine ⟨h1.1, h1.2.1, ?_⟩
    rw [hloc]
    have hne : x.orderId_ ≠ o.orderId_ := fun hid => hx2 (h.eq_of_id hx1 ho hid)
    simp [hne, h1.2.2]
  · intro s p
    by_cases hsp : s = o.side_ ∧ p = o.price_
    · obtain ⟨rfl, rfl⟩ := hsp
      exact List.Nodup.sublist (hsub.map _) (h.side_nodup _ _)
    · rw [hother s p hsp]; exact h.side_nodup s p
  · intro i x hx
    rw [hloc] at hx
    by_cases hi : i = o.orderId_
    · simp [hi] at hx
    · simp only [hi, if_false] at hx
      have h1 := h.orders_ok i x hx
      refine ⟨h1.1, ?_⟩
      have hxo : x ≠ o := fun hxo => hi (by rw [← h1.1, hxo])
      by_cases hsp : x.side_ = o.side_ ∧ x.price_ = o.price_
      · rw [hsp.1, hsp.2]
        apply hkeep _ _ hxo
        rw [← hsp.1, ← hsp.2]; exact h1.2
      · rw [hother _ _ hsp]; exact h1.2

/-- Replacing the order at the front of its queue by one that differs only in
the remaining quantity, in the queue and in the locator. -/
theorem Consistent.update {lev lev' : Side → Price → OrderPointers}
    {loc loc' : OrderId → Option Order} (h : Consistent lev loc) {o o' : Order}
    {rest : OrderPointers}
    (hid : o'.orderId_ = o.orderId_) (hside : o'.side_ = o.side_) (hprice : o'.price_ = o.price_)
    (hloc : ∀ i, loc' i = if i = o.orderId_ then some o' else loc i)
    (hother : ∀ s p, ¬ (s = o.side_ ∧ p = o.price_) → lev' s p = lev s p)
    (hold : lev o.side_ o.price_ = o :: rest)
    (hnew : lev' o.side_ o.price_ = o' :: rest) :
    Consistent lev' loc' := by
  have ho : loc o.orderId_ = some o := (h.side_ok _ _ o (by rw [hold]; simp)).2.2
  have hnd := h.side_nodup o.side_ o.price_
  rw [hold] at hnd
  simp only [List.map_cons, List.nodup_cons, List.mem_map, not_exists, not_and] at hnd
  have hrest : ∀ x ∈ rest, x.orderId_ ≠ o.orderId_ := fun x hx => hnd.1 x hx
  have hfar : ∀ s p, ¬ (s = o.side_ ∧ p = o.price_) → ∀ x ∈ lev s p, x.orderId_ ≠ o.orderId_ := by
    intro s p hsp x hx hxid
    have hxo := h.eq_of_id hx ho hxid
    have := h.side_ok s p x hx
    rw [hxo] at this
    exact hsp ⟨this.1.symm, this.2.1.symm⟩
  refine ⟨?_, ?_, ?_⟩
  · intro s p x hx
    by_cases hsp : s = o.side_ ∧ p = o.price_
    · obtain ⟨rfl, rfl⟩ := hsp
      rw [hnew] at hx
      rcases List.mem_cons.mp hx with rfl | hx
      · exact ⟨hside, hprice, by rw [hloc, hid]; simp⟩
      · have h1 := h.side_ok _ _ x (by rw [hold]; exact List.mem_cons_of_mem _ hx)
        refine ⟨h1.1, h1.2.1, ?_⟩
        rw [hloc]; simp [hrest x hx, h1.2.2]
    · rw [hother s p hsp] at hx
      have h1 := h.side_ok s p x hx
      refine ⟨h1.1, h1.2.1, ?_⟩
      rw [hloc]; simp [hfar s p hsp x hx, h1.2.2]
  · intro s p
    by_cases hsp : s = o.side_ ∧ p = o.price_
    · obtain ⟨rfl, rfl⟩ := hsp
      rw [hnew]
      simp only [List.map_cons, List.nodup_cons, List.mem_map, not_exists, not_and]
      rw [hid]
      exact hnd
    · rw [hother s p hsp]; exact h.side_nodup s p
  · intro i x hx
    rw [hloc] at hx
    by_cases hi : i = o.orderId_
    · simp only [hi, if_true] at hx
      have hx' : x = o' := (Option.some.inj hx).symm
      subst hx'
      refine ⟨by rw [hid, hi], ?_⟩
      rw [hside, hprice, hnew]; simp
    · simp only [hi, if_false] at hx
      have h1 := h.orders_ok i x hx
      refine ⟨h1.1, ?_⟩
      by_cases hsp : x.side_ = o.side_ ∧ x.price_ = o.price_
      · rw [hsp.1, hsp.2, hnew]
        have h2 := h1.2
        rw [hsp.1, hsp.2, hold] at h2
        rcases List.mem_cons.mp h2 with rfl | h2
        · exact absurd h1.1.symm hi
        · exact List.mem_cons_of_mem _ h2
      · rw [hother _ _ hsp]; exact h1.2

/-- Appending an order with a fresh id to the tail of the queue at its price. -/
theorem Consistent.add {lev lev' : Side → Price → OrderPointers}
    {loc loc' : OrderId → Option Order} (h : Consistent lev loc) {o : Order}
    (hfresh : loc o.orderId_ = none)
    (hloc : ∀ i, loc' i = if i = o.orderId_ then some o else loc i)
    (hother : ∀ s p, ¬ (s = o.side_ ∧ p = o.price_) → lev' s p = lev s p)
    (hnew : lev' o.side_ o.price_ = lev o.side_ o.price_ ++ [o]) :
    Consistent lev' loc' := by
  have hne : ∀ s p, ∀ x ∈ lev s p, x.orderId_ ≠ o.orderId_ := by
    intro s p x hx hxid
    have := (h.side_ok s p x hx).2.2
    rw [hxid, hfresh] at this
    exact Option.noConfusion this
  refine ⟨?_, ?_, ?_⟩
  · intro s p x hx
    by_cases hsp : s = o.side_ ∧ p = o.price_
    · obtain ⟨rfl, rfl⟩ := hsp
      rw [hnew] at hx
      rcases List.mem_append.mp hx with hx | hx
      · have h1 := h.side_ok _ _ x hx
        refine ⟨h1.1, h1.2.1, ?_⟩
        rw [hloc]; simp [hne _ _ x hx, h1.2.2]
      · have hxo : x = o := by simpa using hx
        subst hxo
        exact ⟨rfl, rfl, by rw [hloc]; simp⟩
    · rw [hother s p hsp] at hx
      have h1 := h.side_ok s p x hx
      refine ⟨h1.1, h1.2.1, ?_⟩
      rw [hloc]; simp [hne s p x hx, h1.2.2]
  · intro s p
    by_cases hsp : s = o.side_ ∧ p = o.price_
    · obtain ⟨rfl, rfl⟩ := hsp
      rw [hnew, List.map_append, List.nodup_append]
      refine ⟨h.side_nodup _ _, by simp, ?_⟩
      intro a ha1 ha2
      simp only [List.map_cons, List.map_nil, List.mem_singleton] at ha2
      obtain ⟨x, hx, rfl⟩ := List.mem_map.mp ha1
      exact hne _ _ x hx ha2
    · rw [hother s p hsp]; exact h.side_nodup s p
  · intro i x hx
    rw [hloc] at hx
    by_cases hi : i = o.orderId_
    · simp only [hi, if_true] at hx
      have hx' : x = o := (Option.some.inj hx).symm
      subst hx'
      exact ⟨hi.symm, by rw [hnew]; simp⟩
    · simp only [hi, if_false] at hx
      have h1 := h.orders_ok i x hx
      refine ⟨h1.1, ?_⟩
      by_cases hsp : x.side_ = o.side_ ∧ x.price_ = o.price_
      · rw [hsp.1, hsp.2, hnew]
        have h2 := h1.2
        rw [hsp.1, hsp.2] at h2
        exact List.mem_append_left _ h2
      · rw [hother _ _ hsp]; exact h1.2

/-! ## Elementary facts about the accessors -/

@[simp] theorem sideOf_buy (b : OrderBook) : sideOf b Side.Buy = b.bids_ := rfl
@[simp] theorem sideOf_sell (b : OrderBook) : sideOf b Side.Sell = b.asks_ := rfl

theorem sideOf_setSide (b : OrderBook) (s s' : Side) (m : List (Price × OrderPointers)) :
    sideOf (setSide b s m) s' = if s' = s then m else sideOf b s' := by
  cases s <;> cases s' <;> simp [setSide, sideOf]

@[simp] theorem sideOf_setSide_same (b : OrderBook) (s : Side) (m : List (Price × OrderPointers)) :
    sideOf (setSide b s m) s = m := by
  cases s <;> simp [setSide, sideOf]

@[simp] theorem setSide_orders (b : OrderBook) (s : Side) (m : List (Price × OrderPointers)) :
    (setSide b s m).orders_ = b.orders_ := by
  cases s <;> rfl

@[simp] theorem setSide_data (b : OrderBook) (s : Side) (m : List (Price × OrderPointers)) :
    (setSide b s m).data_ = b.data_ := by
  cases s <;> rfl

@[simp] theorem sideOf_setOrders (b : OrderBook) (x : List (OrderId × Order)) (s : Side) :
    sideOf (setOrders b x) s = sideOf b s := by
  cases s <;> rfl

@[simp] theorem setOrders_orders (b : OrderBook) (x : List (OrderId × Order)) :
    (setOrders b x).orders_ = x := rfl

@[simp] theorem setOrders_data (b : OrderBook) (x : List (OrderId × Order)) :
    (setOrders b x).data_ = b.data_ := rfl

@[simp] theorem updateLevelData_bids (b : OrderBook) (p : Price) (q : Quantity) (a : Action) :
    (updateLevelData b p q a).bids_ = b.bids_ := by
  unfold updateLevelData; dsimp only; split_ifs <;> rfl

@[simp] theorem updateLevelData_asks (b : OrderBook) (p : Price) (q : Quantity) (a : Action) :
    (updateLevelData b p q a).asks_ = b.asks_ := by
  unfold updateLevelData; dsimp only; split_ifs <;> rfl

@[simp] theorem updateLevelData_orders (b : OrderBook) (p : Price) (q : Quantity) (a : Action) :
    (updateLevelData b p q a).orders_ = b.orders_ := by
  unfold updateLevelData; dsimp only; split_ifs <;> rfl

@[simp] theorem onOrderMatched_bids (b : OrderBook) (p : Price) (q : Quantity) (f : Bool) :
    (onOrderMatched b p q f).bids_ = b.bids_ := by simp [onOrderMatched]

@[simp] theorem onOrderMatched_asks (b : OrderBook) (p : Price) (q : Quantity) (f : Bool) :
    (onOrderMatched b p q f).asks_ = b.asks_ := by simp [onOrderMatched]

@[simp] theorem onOrderMatched_orders (b : OrderBook) (p : Price) (q : Quantity) (f : Bool) :
    (onOrderMatched b p q f).orders_ = b.orders_ := by simp [onOrderMatched]

@[simp] theorem onOrderCancelled_bids (b : OrderBook) (o : Order) :
    (onOrderCancelled b o).bids_ = b.bids_ := by simp [onOrderCancelled]

@[simp] theorem onOrderCancelled_asks (b : OrderBook) (o : Order) :
    (onOrderCancelled b o).asks_ = b.asks_ := by simp [onOrderCancelled]

@[simp] theorem onOrderCancelled_orders (b : OrderBook) (o : Order) :
    (onOrderCancelled b o).orders_ = b.orders_ := by simp [onOrderCancelled]

@[simp] theorem onOrderAdded_bids (b : OrderBook) (o : Order) :
    (onOrderAdded b o).bids_ = b.bids_ := by simp [onOrderAdded]

@[simp] theorem onOrderAdded_asks (b : OrderBook) (o : Order) :
    (onOrderAdded b o).asks_ = b.asks_ := by simp [onOrderAdded]

@[simp] theorem onOrderAdded_orders (b : OrderBook) (o : Order) :
    (onOrderAdded b o).orders_ = b.orders_ := by simp [onOrderAdded]

/-! ## Commutation of the locator updates -/

section Locator

variable {V : Type}

theorem erase_replace (k k' : Int) (v : V) (m : List (Int × V)) :
    erase k (replace k' v m) = replace k' v (erase k m) := by
  unfold erase replace
  rw [List.filter_map]
  congr 1
  apply List.filter_congr
  intro e _
  by_cases h : e.1 = k' <;> simp [h]

theorem replace_erase_same (k : Int) (v : V) (m : List (Int × V)) :
    replace k v (erase k m) = erase k m := by
  unfold erase replace
  conv_rhs => rw [← List.map_id (List.filter (fun e => decide (e.1 ≠ k)) m)]
  apply List.map_congr_left
  intro e he
  have := (List.mem_filter.mp he).2
  simp only [decide_eq_true_eq] at this
  simp [this]

theorem replace_of_not_mem {k : Int} (v : V) {m : List (Int × V)} (h : k ∉ keys m) :
    replace k v m = m := by
  unfold replace
  conv_rhs => rw [← List.map_id m]
  apply List.map_congr_left
  intro e he
  have : e.1 ≠ k := fun hk => h (by rw [← hk]; exact List.mem_map_of_mem Prod.fst he)
  simp [this]

theorem replace_replace_erase (k k' : Int) (v v' : V) (m : List (Int × V)) :
    replace k v (replace k' v' (erase k m)) = replace k' v' (erase k m) := by
  apply replace_of_not_mem
  rw [keys_replace, mem_keys_erase]
  simp

end Locator

/-- A `Fill` with the smaller of the two remaining quantities never throws. -/
theorem Fill_min_left (bid ask : Order) :
    bid.Fill (min bid.remainingQuantity_ ask.remainingQuantity_) =
      .ok { bid with remainingQuantity_ :=
              (bid.remainingQuantity_ - min bid.remainingQuantity_ ask.remainingQuantity_) } := by
  unfold Order.Fill
  have : ¬ min bid.remainingQuantity_ ask.remainingQuantity_ > bid.remainingQuantity_ := by
    exact not_lt.mpr (min_le_left bid.remainingQuantity_ ask.remainingQuantity_)
  simp [this]

theorem Fill_min_right (bid ask : Order) :
    ask.Fill (min bid.remainingQuantity_ ask.remainingQuantity_) =
      .ok { ask with remainingQuantity_ :=
              (ask.remainingQuantity_ - min bid.remainingQuantity_ ask.remainingQuantity_) } := by
  unfold Order.Fill
  have : ¬ min bid.remainingQuantity_ ask.remainingQuantity_ > ask.remainingQuantity_ := by
    exact not_lt.mpr (min_le_right bid.remainingQuantity_ ask.remainingQuantity_)
  simp [this]

/-- One unfolding of the inner loop: a round, then the rest of the loop. -/
theorem matchLevel_succ (fuel : Nat) (b : OrderBook) {bidPrice askPrice : Price}
    {bid ask : Order} {bids asks : OrderPointers} {restBids restAsks : List (Price × OrderPointers)}
    (hb : b.bids_ = (bidPrice, bid :: bids) :: restBids)
    (ha : b.asks_ = (askPrice, ask :: asks) :: restAsks) :
    matchLevel (fuel + 1) b =
      match matchLevel fuel (afterRound b) with
      | .error e => .error e
      | .ok (trades, b') => .ok (roundTrade bid ask :: trades, b') := by
  have hround : afterRound b =
      onOrderMatched (onOrderMatched
        (fillFront Side.Sell (min bid.remainingQuantity_ ask.remainingQuantity_)
          (fillFront Side.Buy (min bid.remainingQuantity_ ask.remainingQuantity_) b))
        bid.price_ (min bid.remainingQuantity_ ask.remainingQuantity_)
        (decide (bid.remainingQuantity_ - min bid.remainingQuantity_ ask.remainingQuantity_ = 0)))
        bid.price_ (min bid.remainingQuantity_ ask.remainingQuantity_)
        (decide (ask.remainingQuantity_ - min bid.remainingQuantity_ ask.remainingQuantity_ = 0)) := by
    unfold afterRound; rw [hb, ha]
  rw [hround]
  rw [matchLevel]
  simp only [hb, ha, Fill_min_left, Fill_min_right]
  have hbook : ∀ (x y : OrderBook), x = y →
      (match matchLevel fuel x with
        | .error e => (Except.error e : Except Error (Trades × OrderBook))
        | .ok (trades, b') => .ok (roundTrade bid ask :: trades, b')) =
      (match matchLevel fuel y with
        | .error e => (Except.error e : Except Error (Trades × OrderBook))
        | .ok (trades, b') => .ok (roundTrade bid ask :: trades, b')) := by
    intro x y h; rw [h]
  apply hbook
  congr 2
  unfold fillFront
  simp only [sideOf_buy, hb, Order.IsFilled]
  by_cases h1 : bid.remainingQuantity_ - min bid.remainingQuantity_ ask.remainingQuantity_ = 0 <;>
    by_cases h2 : ask.remainingQuantity_ - min bid.remainingQuantity_ ask.remainingQuantity_ = 0 <;>
    simp [h1, h2, setSide, setOrders, sideOf, ha, erase_replace, replace_erase_same, replace_replace_erase]

/-! ## The front fill keeps the book well-formed -/

@[simp] theorem sideOf_with_data (b : OrderBook) (x : List (Price × LevelData)) (s : Side) :
    sideOf { b with data_ := x } s = sideOf b s := by
  cases s <;> rfl

@[simp] theorem sideOf_updateLevelData (b : OrderBook) (p : Price) (q : Quantity) (a : Action)
    (s : Side) : sideOf (updateLevelData b p q a) s = sideOf b s := by
  cases s <;> simp [sideOf]

@[simp] theorem sideOf_onOrderMatched (b : OrderBook) (p : Price) (q : Quantity) (f : Bool)
    (s : Side) : sideOf (onOrderMatched b p q f) s = sideOf b s := by
  simp [onOrderMatched]

@[simp] theorem sideOf_onOrderCancelled (b : OrderBook) (o : Order) (s : Side) :
    sideOf (onOrderCancelled b o) s = sideOf b s := by
  simp [onOrderCancelled]

@[simp] theorem sideOf_onOrderAdded (b : OrderBook) (o : Order) (s : Side) :
    sideOf (onOrderAdded b o) s = sideOf b s := by
  simp [onOrderAdded]

/-- A predicate that only reads the side indices and the locator does not see
the level aggregate. -/
theorem WF_of_same {b b' : OrderBook} (h : WF b) (hs : ∀ s, sideOf b' s = sideOf b s)
    (ho : b'.orders_ = b.orders_) : WF b' := by
  have hl : level b' = level b := by
    funext s p; simp [level, hs]
  have hc : locate b' = locate b := by
    funext i; simp [locate, ho]
  exact ⟨fun s => by rw [hs]; exact h.side_sorted s, by rw [ho]; exact h.orders_sorted,
    by rw [hl, hc]; exact h.consistent⟩

theorem WF_onOrderMatched {b : OrderBook} (h : WF b) (p : Price) (q : Quantity) (f : Bool) :
    WF (onOrderMatched b p q f) :=
  WF_of_same h (fun s => by simp) (by simp)

theorem WF_onOrderCancelled {b : OrderBook} (h : WF b) (o : Order) : WF (onOrderCancelled b o) :=
  WF_of_same h (fun s => by simp) (by simp)

theorem WF_onOrderAdded {b : OrderBook} (h : WF b) (o : Order) : WF (onOrderAdded b o) :=
  WF_of_same h (fun s => by simp) (by simp)

/-- The queue at the first key of a side. -/
theorem level_head {b : OrderBook} {s : Side} {p : Price} {l : OrderPointers}
    {tl : List (Price × OrderPointers)} (hs : sideOf b s = (p, l) :: tl) : level b s p = l := by
  simp [level, hs]

/-- The shape of the book after a front fill that empties the order. -/
theorem fillFront_filled {b : OrderBook} {s : Side} {q : Quantity} {p : Price} {o : Order}
    {rest : OrderPointers} {tl : List (Price × OrderPointers)}
    (hs : sideOf b s = (p, o :: rest) :: tl) (hf : o.remainingQuantity_ - q = 0) :
    fillFront s q b =
      setOrders (setSide b s ((p, rest) :: tl)) (erase o.orderId_ b.orders_) := by
  unfold fillFront
  rw [hs]
  simp [Order.IsFilled, hf]

/-- The shape of the book after a front fill that leaves the order open. -/
theorem fillFront_open {b : OrderBook} {s : Side} {q : Quantity} {p : Price} {o : Order}
    {rest : OrderPointers} {tl : List (Price × OrderPointers)}
    (hs : sideOf b s = (p, o :: rest) :: tl) (hf : o.remainingQuantity_ - q ≠ 0) :
    fillFront s q b =
      setOrders
        (setSide b s ((p, { o with remainingQuantity_ := o.remainingQuantity_ - q } :: rest) :: tl))
        (replace o.orderId_ { o with remainingQuantity_ := o.remainingQuantity_ - q } b.orders_) := by
  unfold fillFront
  rw [hs]
  simp [Order.IsFilled, hf]

/-- A front fill on a side without a front order does nothing. -/
theorem fillFront_none {b : OrderBook} {s : Side} {q : Quantity}
    (hs : ∀ p o rest tl, sideOf b s ≠ (p, o :: rest) :: tl) : fillFront s q b = b := by
  unfold fillFront
  split
  · rename_i p o rest tl heq
    exact absurd heq (hs p o rest tl)
  · rfl

/-- A front fill changes no key of either side. -/
theorem keys_fillFront (s s' : Side) (q : Quantity) (b : OrderBook) :
    keys (sideOf (fillFront s q b) s') = keys (sideOf b s') := by
  unfold fillFront
  split
  · rename_i p o rest tl heq
    dsimp only
    split_ifs
    · simp only [sideOf_setOrders, sideOf_setSide]
      split_ifs with h
      · subst h; rw [heq]; rfl
      · rfl
    · simp only [sideOf_setOrders, sideOf_setSide]
      split_ifs with h
      · subst h; rw [heq]; rfl
      · rfl
  · rfl

/-- A front fill changes nothing behind the first level of either side. -/
theorem tail_fillFront (s s' : Side) (q : Quantity) (b : OrderBook) :
    (sideOf (fillFront s q b) s').tail = (sideOf b s').tail := by
  unfold fillFront
  split
  · rename_i p o rest tl heq
    dsimp only
    split_ifs
    · simp only [sideOf_setOrders, sideOf_setSide]
      split_ifs with h
      · subst h; rw [heq]; rfl
      · rfl
    · simp only [sideOf_setOrders, sideOf_setSide]
      split_ifs with h
      · subst h; rw [heq]; rfl
      · rfl
  · rfl

/-- A front fill leaves the other side alone. -/
theorem sideOf_fillFront_other {s s' : Side} (h : s' ≠ s) (q : Quantity) (b : OrderBook) :
    sideOf (fillFront s q b) s' = sideOf b s' := by
  unfold fillFront
  split
  · dsimp only
    split_ifs <;> simp [sideOf_setSide, h]
  · rfl

theorem fillFront_WF {b : OrderBook} (h : WF b) (s : Side) (q : Quantity) :
    WF (fillFront s q b) := by
  by_cases hshape : ∃ p o rest tl, sideOf b s = (p, o :: rest) :: tl
  · obtain ⟨p, o, rest, tl, hs⟩ := hshape
    have hlev : level b s p = o :: rest := level_head hs
    have hoin := h.consistent.side_ok s p o (by rw [hlev]; simp)
    obtain ⟨hos, hop, holoc⟩ := hoin
    have hsorted : ∀ s', SortedBy s' (sideOf (fillFront s q b) s') := by
      intro s'
      unfold SortedBy
      rw [keys_fillFront]
      exact h.side_sorted s'
    have hnd := h.consistent.side_nodup s p
    rw [hlev] at hnd
    simp only [List.map_cons, List.nodup_cons, List.mem_map, not_exists, not_and] at hnd
    by_cases hf : o.remainingQuantity_ - q = 0
    · have heq := fillFront_filled hs hf
      refine ⟨hsorted, ?_, ?_⟩
      · rw [heq]; exact sorted_erase h.orders_sorted _
      · rw [heq]
        apply h.consistent.remove holoc
        · intro i
          simp only [locate, setOrders_orders, find_erase]
        · intro s' p' hsp
          simp only [level, sideOf_setOrders, sideOf_setSide]
          by_cases hs' : s' = s
          · subst hs'
            have hp' : ¬ p = p' := fun hpp => hsp ⟨hos.symm, by rw [hop, hpp]⟩
            simp [hs, hp']
          · simp [hs']
        · rw [hos, hop]
          simp only [level, sideOf_setOrders, sideOf_setSide_same]
          simp [hs]
        · rw [hos, hop]
          simp only [level, sideOf_setOrders, sideOf_setSide_same]
          simp only [find_cons, if_true, Option.getD_some]
          intro hmem
          exact hnd.1 o hmem rfl
        · rw [hos, hop]
          intro x hx hxo
          simp only [level, sideOf_setOrders, sideOf_setSide_same]
          simp only [find_cons, if_true, Option.getD_some]
          rw [hlev] at hx
          rcases List.mem_cons.mp hx with rfl | hx
          · exact absurd rfl hxo
          · exact hx
    · have heq := fillFront_open hs hf
      refine ⟨hsorted, ?_, ?_⟩
      · rw [heq]; exact sorted_replace h.orders_sorted _ _
      · rw [heq]
        apply @Consistent.update (level b) _ (locate b) _ h.consistent o
          { o with remainingQuantity_ := o.remainingQuantity_ - q } rest rfl rfl rfl
        · intro i
          simp only [locate, setOrders_orders, find_replace]
          by_cases hi : i = o.orderId_
          · subst hi
            simp only [locate] at holoc
            simp [holoc]
          · simp [hi]
        · intro s' p' hsp
          simp only [level, sideOf_setOrders, sideOf_setSide]
          by_cases hs' : s' = s
          · subst hs'
            have hp' : ¬ p = p' := fun hpp => hsp ⟨hos.symm, by rw [hop, hpp]⟩
            simp [hs, hp']
          · simp [hs']
        · rw [hos, hop]; exact hlev
        · rw [hos, hop]
          simp only [level, sideOf_setOrders, sideOf_setSide_same]
          simp
  · have : fillFront s q b = b := by
      apply fillFront_none
      intro p o rest tl hs
      exact hshape ⟨p, o, rest, tl, hs⟩
    rw [this]; exact h

theorem fillFront_tailNonEmpty {b : OrderBook} (h : TailLevelsNonEmpty b) (s : Side)
    (q : Quantity) : TailLevelsNonEmpty (fillFront s q b) := by
  intro s' p l hl
  rw [tail_fillFront] at hl
  exact h s' p l hl

/-! ## The inner matching loop -/

theorem matchLevel_done {b : OrderBook} (h : ¬ BothFronts b) (fuel : Nat) :
    matchLevel fuel b = .ok ([], b) := by
  rw [matchLevel]
  split
  · rename_i bidPrice bid bids restBids askPrice ask asks restAsks hb ha
    exact absurd ⟨bidPrice, bid, bids, restBids, askPrice, ask, asks, restAsks, hb, ha⟩ h
  · rfl

theorem matchLevel_zero {b : OrderBook} (h : BothFronts b) :
    matchLevel 0 b = .error .nontermination := by
  obtain ⟨bidPrice, bid, bids, restBids, askPrice, ask, asks, restAsks, hb, ha⟩ := h
  rw [matchLevel]
  simp [hb, ha]

theorem afterRound_of_not {b : OrderBook} (h : ¬ BothFronts b) : afterRound b = b := by
  unfold afterRound
  split
  · rename_i bidPrice bid bids restBids askPrice ask asks restAsks hb ha
    exact absurd ⟨bidPrice, bid, bids, restBids, askPrice, ask, asks, restAsks, hb, ha⟩ h
  · rfl

/-- Whatever holds before the inner loop and survives a round holds after it. -/
theorem matchLevel_induct (P : OrderBook → Prop) (hround : ∀ b, P b → P (afterRound b)) :
    ∀ (fuel : Nat) (b : OrderBook) (trades : Trades) (b' : OrderBook),
      matchLevel fuel b = .ok (trades, b') → P b → P b' := by
  intro fuel
  induction fuel with
  | zero =>
    intro b trades b' h hP
    by_cases hf : BothFronts b
    · rw [matchLevel_zero hf] at h; cases h
    · rw [matchLevel_done hf] at h
      cases h; exact hP
  | succ fuel ih =>
    intro b trades b' h hP
    by_cases hf : BothFronts b
    · obtain ⟨bidPrice, bid, bids, restBids, askPrice, ask, asks, restAsks, hb, ha⟩ := hf
      rw [matchLevel_succ fuel b hb ha] at h
      cases hm : matchLevel fuel (afterRound b) with
      | error e => rw [hm] at h; cases h
      | ok r =>
        obtain ⟨ts, b''⟩ := r
        rw [hm] at h
        cases h
        exact ih (afterRound b) ts b' hm (hround b hP)
    · rw [matchLevel_done hf] at h
      cases h; exact hP

theorem afterRound_WF {b : OrderBook} (h : WF b) : WF (afterRound b) := by
  unfold afterRound
  split
  · exact WF_onOrderMatched (WF_onOrderMatched (fillFront_WF (fillFront_WF h _ _) _ _) _ _ _) _ _ _
  · exact h

theorem matchLevel_WF {fuel : Nat} {b b' : OrderBook} {trades : Trades}
    (h : matchLevel fuel b = .ok (trades, b')) (hwf : WF b) : WF b' :=
  matchLevel_induct WF (fun _ => afterRound_WF) fuel b trades b' h hwf

theorem sideOf_afterRound_keys (b : OrderBook) (s : Side) :
    keys (sideOf (afterRound b) s) = keys (sideOf b s) := by
  unfold afterRound
  split
  · simp [keys_fillFront]
  · rfl

theorem sideOf_afterRound_tail (b : OrderBook) (s : Side) :
    (sideOf (afterRound b) s).tail = (sideOf b s).tail := by
  unfold afterRound
  split
  · simp [tail_fillFront]
  · rfl

theorem matchLevel_keys {fuel : Nat} {b b' : OrderBook} {trades : Trades}
    (h : matchLevel fuel b = .ok (trades, b')) (s : Side) :
    keys (sideOf b' s) = keys (sideOf b s) :=
  matchLevel_induct (fun x => keys (sideOf x s) = keys (sideOf b s))
    (fun x hx => (sideOf_afterRound_keys x s).trans hx) fuel b trades b' h rfl

theorem matchLevel_tail {fuel : Nat} {b b' : OrderBook} {trades : Trades}
    (h : matchLevel fuel b = .ok (trades, b')) (s : Side) :
    (sideOf b' s).tail = (sideOf b s).tail :=
  matchLevel_induct (fun x => (sideOf x s).tail = (sideOf b s).tail)
    (fun x hx => (sideOf_afterRound_tail x s).trans hx) fuel b trades b' h rfl

/-- The inner loop stops only when a first level has run out of orders. -/
theorem matchLevel_exit : ∀ (fuel : Nat) (b : OrderBook) (trades : Trades) (b' : OrderBook),
    matchLevel fuel b = .ok (trades, b') → ¬ BothFronts b' := by
  intro fuel
  induction fuel with
  | zero =>
    intro b trades b' h
    by_cases hf : BothFronts b
    · rw [matchLevel_zero hf] at h; cases h
    · rw [matchLevel_done hf] at h
      cases h; exact hf
  | succ fuel ih =>
    intro b trades b' h
    by_cases hf : BothFronts b
    · obtain ⟨bidPrice, bid, bids, restBids, askPrice, ask, asks, restAsks, hb, ha⟩ := hf
      rw [matchLevel_succ fuel b hb ha] at h
      cases hm : matchLevel fuel (afterRound b) with
      | error e => rw [hm] at h; cases h
      | ok r =>
        obtain ⟨ts, b''⟩ := r
        rw [hm] at h
        cases h
        exact ih (afterRound b) ts b' hm
    · rw [matchLevel_done hf] at h
      cases h; exact hf

/-- A loop that can run a round records a trade. -/
theorem matchLevel_trades_ne_nil {fuel : Nat} {b b' : OrderBook} {trades : Trades}
    (h : matchLevel fuel b = .ok (trades, b')) (hf : BothFronts b) : trades ≠ [] := by
  cases fuel with
  | zero => rw [matchLevel_zero hf] at h; cases h
  | succ fuel =>
    obtain ⟨bidPrice, bid, bids, restBids, askPrice, ask, asks, restAsks, hb, ha⟩ := hf
    rw [matchLevel_succ fuel b hb ha] at h
    cases hm : matchLevel fuel (afterRound b) with
    | error e => rw [hm] at h; cases h
    | ok r =>
      obtain ⟨ts, b''⟩ := r
      rw [hm] at h
      cases h
      simp

theorem sideOf_fillFront_same {b : OrderBook} {s : Side} {p : Price} {o : Order}
    {rest : OrderPointers} {tl : List (Price × OrderPointers)} (q : Quantity)
    (hs : sideOf b s = (p, o :: rest) :: tl) :
    sideOf (fillFront s q b) s =
      (p, if o.remainingQuantity_ - q = 0 then rest
          else { o with remainingQuantity_ := o.remainingQuantity_ - q } :: rest) :: tl := by
  by_cases hf : o.remainingQuantity_ - q = 0
  · rw [fillFront_filled hs hf]; simp [hf]
  · rw [fillFront_open hs hf]; simp [hf]

theorem afterRound_bids {b : OrderBook} {bidPrice askPrice : Price}
    {bid ask : Order} {bids asks : OrderPointers} {restBids restAsks : List (Price × OrderPointers)}
    (hb : b.bids_ = (bidPrice, bid :: bids) :: restBids)
    (ha : b.asks_ = (askPrice, ask :: asks) :: restAsks) :
    (afterRound b).bids_ =
      (bidPrice,
        if bid.remainingQuantity_ - min bid.remainingQuantity_ ask.remainingQuantity_ = 0 then bids
        else { bid with remainingQuantity_ :=
                (bid.remainingQuantity_ - min bid.remainingQuantity_ ask.remainingQuantity_) } :: bids)
        :: restBids := by
  have h1 : (afterRound b).bids_ =
      sideOf (fillFront Side.Sell (min bid.remainingQuantity_ ask.remainingQuantity_)
        (fillFront Side.Buy (min bid.remainingQuantity_ ask.remainingQuantity_) b)) Side.Buy := by
    unfold afterRound; rw [hb, ha]; simp
  rw [h1, sideOf_fillFront_other (by decide), sideOf_fillFront_same _ (by simpa using hb)]

theorem afterRound_asks {b : OrderBook} {bidPrice askPrice : Price}
    {bid ask : Order} {bids asks : OrderPointers} {restBids restAsks : List (Price × OrderPointers)}
    (hb : b.bids_ = (bidPrice, bid :: bids) :: restBids)
    (ha : b.asks_ = (askPrice, ask :: asks) :: restAsks) :
    (afterRound b).asks_ =
      (askPrice,
        if ask.remainingQuantity_ - min bid.remainingQuantity_ ask.remainingQuantity_ = 0 then asks
        else { ask with remainingQuantity_ :=
                (ask.remainingQuantity_ - min bid.remainingQuantity_ ask.remainingQuantity_) } :: asks)
        :: restAsks := by
  have h1 : (afterRound b).asks_ =
      sideOf (fillFront Side.Sell (min bid.remainingQuantity_ ask.remainingQuantity_)
        (fillFront Side.Buy (min bid.remainingQuantity_ ask.remainingQuantity_) b)) Side.Sell := by
    unfold afterRound; rw [hb, ha]; simp
  rw [h1]
  apply sideOf_fillFront_same
  rw [sideOf_fillFront_other (by decide)]
  simpa using ha

/-- A round takes at least one order off the two first levels. -/
theorem afterRound_headLen {b : OrderBook} (hf : BothFronts b) :
    headLen (afterRound b).bids_ + headLen (afterRound b).asks_ <
      headLen b.bids_ + headLen b.asks_ := by
  obtain ⟨bidPrice, bid, bids, restBids, askPrice, ask, asks, restAsks, hb, ha⟩ := hf
  rw [afterRound_bids hb ha, afterRound_asks hb ha, hb, ha]
  simp only [headLen]
  rcases le_total bid.remainingQuantity_ ask.remainingQuantity_ with hle | hle
  · have h1 : bid.remainingQuantity_ - min bid.remainingQuantity_ ask.remainingQuantity_ = 0 := by
      rw [min_eq_left hle]; exact sub_self _
    rw [if_pos h1]
    split_ifs <;> simp only [List.length_cons] <;> omega
  · have h1 : ask.remainingQuantity_ - min bid.remainingQuantity_ ask.remainingQuantity_ = 0 := by
      rw [min_eq_right hle]; exact sub_self _
    rw [if_pos h1]
    split_ifs <;> simp only [List.length_cons] <;> omega

/-- The inner loop finishes within as many rounds as there are orders at the
two first levels, on every book. -/
theorem matchLevel_total : ∀ (fuel : Nat) (b : OrderBook),
    headLen b.bids_ + headLen b.asks_ ≤ fuel → ∃ r, matchLevel fuel b = .ok r := by
  intro fuel
  induction fuel with
  | zero =>
    intro b hle
    by_cases hf : BothFronts b
    · obtain ⟨bidPrice, bid, bids, restBids, askPrice, ask, asks, restAsks, hb, ha⟩ := hf
      rw [hb, ha] at hle
      simp [headLen] at hle
    · exact ⟨_, matchLevel_done hf 0⟩
  | succ fuel ih =>
    intro b hle
    by_cases hf : BothFronts b
    · have hlt := afterRound_headLen hf
      obtain ⟨bidPrice, bid, bids, restBids, askPrice, ask, asks, restAsks, hb, ha⟩ := hf
      obtain ⟨r, hr⟩ := ih (afterRound b) (by omega)
      rw [matchLevel_succ fuel b hb ha, hr]
      exact ⟨_, rfl⟩
    · exact ⟨_, matchLevel_done hf _⟩

theorem afterRound_tailNonEmpty {b : OrderBook} (h : TailLevelsNonEmpty b) :
    TailLevelsNonEmpty (afterRound b) := by
  intro s p l hl
  rw [sideOf_afterRound_tail] at hl
  exact h s p l hl

/-! ## The outer matching loop -/

theorem matchLoop_done {b : OrderBook} (h : ¬ Crossing b) (fuel : Nat) :
    matchLoop fuel b = .ok ([], b) := by
  rw [matchLoop]
  split
  · rename_i bidPrice bids restBids askPrice asks restAsks hb ha
    by_cases hlt : bidPrice < askPrice
    · simp [hlt]
    · exact absurd ⟨bidPrice, bids, restBids, askPrice, asks, restAsks, hb, ha, hlt⟩ h
  · rfl

theorem matchLoop_zero {b : OrderBook} (h : Crossing b) :
    matchLoop 0 b = .error .nontermination := by
  obtain ⟨bidPrice, bids, restBids, askPrice, asks, restAsks, hb, ha, hlt⟩ := h
  rw [matchLoop]
  simp [hb, ha, hlt]

/-- One unfolding of the outer loop: the inner loop, the sweep, the rest. -/
theorem matchLoop_succ (fuel : Nat) {b : OrderBook} (h : Crossing b) :
    matchLoop (fuel + 1) b =
      match matchLevel (headLen b.bids_ + headLen b.asks_) b with
      | .error e => .error e
      | .ok (trades, b1) =>
        match matchLoop fuel (sweep b1) with
        | .error e => .error e
        | .ok (trades', b') => .ok (trades ++ trades', b') := by
  obtain ⟨bidPrice, bids, restBids, askPrice, asks, restAsks, hb, ha, hlt⟩ := h
  rw [matchLoop]
  simp only [hb, ha, hlt, if_false, headLen]
  rfl

/-- Whatever holds before the outer loop and survives an inner loop followed
by a sweep holds after it. -/
theorem matchLoop_induct (P : OrderBook → Prop)
    (hstep : ∀ x fuel trades x1, P x → matchLevel fuel x = .ok (trades, x1) → P (sweep x1)) :
    ∀ (fuel : Nat) (b : OrderBook) (trades : Trades) (b' : OrderBook),
      matchLoop fuel b = .ok (trades, b') → P b → P b' := by
  intro fuel
  induction fuel with
  | zero =>
    intro b trades b' h hP
    by_cases hc : Crossing b
    · rw [matchLoop_zero hc] at h; cases h
    · rw [matchLoop_done hc] at h
      cases h; exact hP
  | succ fuel ih =>
    intro b trades b' h hP
    by_cases hc : Crossing b
    · rw [matchLoop_succ fuel hc] at h
      cases hm : matchLevel (headLen b.bids_ + headLen b.asks_) b with
      | error e => rw [hm] at h; cases h
      | ok r =>
        obtain ⟨ts, b1⟩ := r
        rw [hm] at h
        simp only at h
        cases hl : matchLoop fuel (sweep b1) with
        | error e => rw [hl] at h; cases h
        | ok r' =>
          obtain ⟨ts', b''⟩ := r'
          rw [hl] at h
          cases h
          exact ih (sweep b1) ts' b' hl (hstep b _ ts b1 hP hm)
    · rw [matchLoop_done hc] at h
      cases h; exact hP

/-- The outer loop stops only at a book that is not crossing. -/
theorem matchLoop_exit : ∀ (fuel : Nat) (b : OrderBook) (trades : Trades) (b' : OrderBook),
    matchLoop fuel b = .ok (trades, b') → ¬ Crossing b' := by
  intro fuel
  induction fuel with
  | zero =>
    intro b trades b' h
    by_cases hc : Crossing b
    · rw [matchLoop_zero hc] at h; cases h
    · rw [matchLoop_done hc] at h
      cases h; exact hc
  | succ fuel ih =>
    intro b trades b' h
    by_cases hc : Crossing b
    · rw [matchLoop_succ fuel hc] at h
      cases hm : matchLevel (headLen b.bids_ + headLen b.asks_) b with
      | error e => rw [hm] at h; cases h
      | ok r =>
        obtain ⟨ts, b1⟩ := r
        rw [hm] at h
        simp only at h
        cases hl : matchLoop fuel (sweep b1) with
        | error e => rw [hl] at h; cases h
        | ok r' =>
          obtain ⟨ts', b''⟩ := r'
          rw [hl] at h
          cases h
          exact ih (sweep b1) ts' b' hl
    · rw [matchLoop_done hc] at h
      cases h; exact hc

/-! ### The sweep -/

theorem eraseIfEmpty_empty (p : Price) (tl : List (Price × OrderPointers)) :
    eraseIfEmpty ((p, []) :: tl) = erase p ((p, []) :: tl) := rfl

theorem eraseIfEmpty_cons (p : Price) (o : Order) (l : OrderPointers)
    (tl : List (Price × OrderPointers)) :
    eraseIfEmpty ((p, o :: l) :: tl) = (p, o :: l) :: tl := rfl

@[simp] theorem eraseIfEmpty_nil : eraseIfEmpty [] = [] := rfl

@[simp] theorem sweep_orders (b : OrderBook) : (sweep b).orders_ = b.orders_ := rfl

@[simp] theorem sweep_data (b : OrderBook) : (sweep b).data_ = b.data_ := rfl

theorem sideOf_sweep (b : OrderBook) (s : Side) :
    sideOf (sweep b) s = eraseIfEmpty (sideOf b s) := by
  cases s <;> rfl

/-- The sweep only drops a key whose queue is empty, so every queue is as before. -/
theorem getD_find_eraseIfEmpty (p : Price) (m : List (Price × OrderPointers)) :
    (find p (eraseIfEmpty m)).getD [] = (find p m).getD [] := by
  cases m with
  | nil => rfl
  | cons e tl =>
    obtain ⟨k, l⟩ := e
    cases l with
    | nil =>
      rw [eraseIfEmpty_empty, find_erase]
      by_cases h : p = k
      · subst h; simp
      · simp [h]
    | cons o l => rfl

theorem level_sweep (b : OrderBook) : level (sweep b) = level b := by
  funext s p
  simp only [level, sideOf_sweep, getD_find_eraseIfEmpty]

theorem sorted_eraseIfEmpty {s : Side} {m : List (Price × OrderPointers)} (h : SortedBy s m) :
    SortedBy s (eraseIfEmpty m) := by
  cases m with
  | nil => exact h
  | cons e tl =>
    obtain ⟨k, l⟩ := e
    cases l with
    | nil => rw [eraseIfEmpty_empty]; exact sorted_erase h k
    | cons o l => exact h

theorem keys_eraseIfEmpty_subset (m : List (Price × OrderPointers)) :
    ∀ x ∈ keys (eraseIfEmpty m), x ∈ keys m := by
  intro x hx
  cases m with
  | nil => exact hx
  | cons e tl =>
    obtain ⟨k, l⟩ := e
    cases l with
    | nil =>
      rw [eraseIfEmpty_empty] at hx
      exact (keys_erase_sublist k _).subset hx
    | cons o l => exact hx

theorem sweep_WF {b : OrderBook} (h : WF b) : WF (sweep b) := by
  refine ⟨?_, h.orders_sorted, ?_⟩
  · intro s
    rw [sideOf_sweep]
    exact sorted_eraseIfEmpty (h.side_sorted s)
  · rw [level_sweep]
    exact h.consistent

theorem sweep_nonEmpty {b : OrderBook} (hs : ∀ s, SortedBy s (sideOf b s))
    (h : TailLevelsNonEmpty b) : LevelsNonEmpty (sweep b) := by
  intro s p l hl
  rw [sideOf_sweep] at hl
  have ht := h s
  have hsort := hs s
  cases hm : sideOf b s with
  | nil => rw [hm] at hl; simp at hl
  | cons e tl =>
    obtain ⟨k, q⟩ := e
    rw [hm] at hl ht hsort
    cases q with
    | nil =>
      rw [eraseIfEmpty_empty, sorted_erase_head hsort] at hl
      exact ht p l hl
    | cons o q =>
      rw [eraseIfEmpty_cons] at hl
      by_cases hk : k = p
      · simp [hk] at hl
        rw [← hl]; simp
      · simp [hk] at hl
        exact ht p l hl

theorem tailNonEmpty_of_nonEmpty {b : OrderBook} (hs : ∀ s, SortedBy s (sideOf b s))
    (h : LevelsNonEmpty b) : TailLevelsNonEmpty b := by
  intro s p l hl
  apply h s p l
  have hsort := hs s
  cases hm : sideOf b s with
  | nil => rw [hm] at hl; simp at hl
  | cons e tl =>
    obtain ⟨k, q⟩ := e
    rw [hm] at hl hsort
    simp only [List.tail_cons] at hl
    have hk : k ≠ p := by
      intro hkp
      subst hkp
      exact sorted_head_not_mem hsort (mem_keys_of_find hl)
    simp [hk, hl]

theorem matchLevel_tailNonEmpty {fuel : Nat} {b b' : OrderBook} {trades : Trades}
    (h : matchLevel fuel b = .ok (trades, b')) (hne : TailLevelsNonEmpty b) :
    TailLevelsNonEmpty b' :=
  matchLevel_induct TailLevelsNonEmpty (fun _ => afterRound_tailNonEmpty) fuel b trades b' h hne

/-- The outer loop keeps the book well-formed and free of empty levels. -/
theorem matchLoop_WF {fuel : Nat} {b b' : OrderBook} {trades : Trades}
    (h : matchLoop fuel b = .ok (trades, b')) (hwf : WF b) (hne : LevelsNonEmpty b) :
    WF b' ∧ LevelsNonEmpty b' := by
  refine matchLoop_induct (fun x => WF x ∧ LevelsNonEmpty x) ?_ fuel b trades b' h ⟨hwf, hne⟩
  intro x f ts x1 hx hm
  have hwf1 := matchLevel_WF hm hx.1
  have hne1 := matchLevel_tailNonEmpty hm (tailNonEmpty_of_nonEmpty hx.1.side_sorted hx.2)
  exact ⟨sweep_WF hwf1, sweep_nonEmpty hwf1.side_sorted hne1⟩

theorem length_eraseIfEmpty_le (m : List (Price × OrderPointers)) :
    (eraseIfEmpty m).length ≤ m.length := by
  cases m with
  | nil => simp
  | cons e tl =>
    obtain ⟨k, l⟩ := e
    cases l with
    | nil => rw [eraseIfEmpty_empty]; exact length_erase_le _ _
    | cons o l => simp [eraseIfEmpty_cons]

theorem length_eraseIfEmpty_lt (p : Price) (tl : List (Price × OrderPointers)) :
    (eraseIfEmpty ((p, []) :: tl)).length < ((p, ([] : OrderPointers)) :: tl).length := by
  rw [eraseIfEmpty_empty]
  have h1 : erase p ((p, ([] : OrderPointers)) :: tl) = erase p tl := by
    simp [erase, List.filter_cons]
  rw [h1]
  have := length_erase_le p tl
  simp only [List.length_cons]
  omega

/-- A round of the outer loop leaves fewer price levels, on every book. -/
theorem sweep_levels_lt {fuel : Nat} {b b1 : OrderBook} {trades : Trades} (hc : Crossing b)
    (hm : matchLevel fuel b = .ok (trades, b1)) :
    (sweep b1).bids_.length + (sweep b1).asks_.length < b.bids_.length + b.asks_.length := by
  obtain ⟨bidPrice, bids, restBids, askPrice, asks, restAsks, hb, ha, hlt⟩ := hc
  have hkb := matchLevel_keys hm Side.Buy
  have hka := matchLevel_keys hm Side.Sell
  have hx := matchLevel_exit fuel b trades b1 hm
  simp only [sideOf_buy, sideOf_sell] at hkb hka
  have hlb : b1.bids_.length = b.bids_.length := by
    have := congrArg List.length hkb
    simpa [keys] using this
  have hla : b1.asks_.length = b.asks_.length := by
    have := congrArg List.length hka
    simpa [keys] using this
  have h1 := length_eraseIfEmpty_le b1.bids_
  have h2 := length_eraseIfEmpty_le b1.asks_
  show (eraseIfEmpty b1.bids_).length + (eraseIfEmpty b1.asks_).length < _
  cases hb1 : b1.bids_ with
  | nil => rw [hb1, hb] at hlb; simp at hlb
  | cons e tl =>
    obtain ⟨k, l⟩ := e
    cases ha1 : b1.asks_ with
    | nil => rw [ha1, ha] at hla; simp at hla
    | cons e' tl' =>
      obtain ⟨k', l'⟩ := e'
      cases l with
      | nil =>
        have := length_eraseIfEmpty_lt k tl
        rw [hb1] at hlb h1
        rw [ha1] at hla h2
        omega
      | cons o l =>
        cases l' with
        | nil =>
          have := length_eraseIfEmpty_lt k' tl'
          rw [hb1] at hlb h1
          rw [ha1] at hla h2
          omega
        | cons o' l' =>
          exact absurd ⟨k, o, l, tl, k', o', l', tl', hb1, ha1⟩ hx

/-- The outer loop finishes within as many rounds as there are price levels,
on every book, provided the inner loop gets the fuel `MatchOrders` gives it. -/
theorem matchLoop_total : ∀ (fuel : Nat) (b : OrderBook),
    b.bids_.length + b.asks_.length < fuel → ∃ r, matchLoop fuel b = .ok r := by
  intro fuel
  induction fuel with
  | zero => intro b h; omega
  | succ fuel ih =>
    intro b hlt
    by_cases hc : Crossing b
    · obtain ⟨r, hr⟩ := matchLevel_total (headLen b.bids_ + headLen b.asks_) b le_rfl
      obtain ⟨ts, b1⟩ := r
      have hdec := sweep_levels_lt hc hr
      obtain ⟨r', hr'⟩ := ih (sweep b1) (by omega)
      rw [matchLoop_succ fuel hc, hr]
      simp only
      rw [hr']
      exact ⟨_, rfl⟩
    · exact ⟨_, matchLoop_done hc _⟩

/-- A book whose sides are sorted and that is not crossing has every bid
below every ask. -/
theorem uncrossed_of_not_crossing {b : OrderBook} (hs : ∀ s, SortedBy s (sideOf b s))
    (h : ¬ Crossing b) : Uncrossed b := by
  intro pb hpb pa hpa
  have hsb := hs Side.Buy
  have hsa := hs Side.Sell
  simp only [sideOf_buy, sideOf_sell] at hsb hsa
  cases hb : b.bids_ with
  | nil => rw [hb] at hpb; simp [keys] at hpb
  | cons e tl =>
    obtain ⟨k, l⟩ := e
    cases ha : b.asks_ with
    | nil => rw [ha] at hpa; simp [keys] at hpa
    | cons e' tl' =>
      obtain ⟨k', l'⟩ := e'
      have hkk : k < k' := by
        by_contra hn
        exact h ⟨k, l, tl, k', l', tl', hb, ha, hn⟩
      rw [hb] at hpb hsb
      rw [ha] at hpa hsa
      have h1 : pb ≤ k := by
        simp only [keys, List.map_cons, List.mem_cons] at hpb
        rcases hpb with rfl | hpb
        · exact le_rfl
        · have := (sorted_cons_iff.mp hsb).1 pb hpb
          simp only [sideRel] at this
          exact le_of_lt this
      have h2 : k' ≤ pa := by
        simp only [keys, List.map_cons, List.mem_cons] at hpa
        rcases hpa with rfl | hpa
        · exact le_rfl
        · have := (sorted_cons_iff.mp hsa).1 pa hpa
          simp only [sideRel] at this
          exact le_of_lt this
      exact lt_of_le_of_lt h1 (lt_of_lt_of_le hkk h2)

/-! ## Cancelling -/

/-- The function `CancelOrderInternal` with its two symmetric branches folded into one. -/
theorem CancelOrderInternal_eq (b : OrderBook) (orderId : OrderId) :
    CancelOrderInternal b orderId =
      match find orderId b.orders_ with
      | none => .ok b
      | some order =>
        match cancelInSide orderId order.price_ (sideOf b order.side_) with
        | .error e => .error e
        | .ok m =>
          .ok (onOrderCancelled
            (setSide (setOrders b (erase orderId b.orders_)) order.side_ m) order) := by
  unfold CancelOrderInternal
  cases find orderId b.orders_ with
  | none => rfl
  | some order =>
    simp only
    cases hs : order.side_ <;> rfl

theorem CancelOrderInternal_absent {b : OrderBook} {orderId : OrderId}
    (h : find orderId b.orders_ = none) : CancelOrderInternal b orderId = .ok b := by
  unfold CancelOrderInternal; rw [h]

theorem cancelInSide_ok {orderId : OrderId} {price : Price} {side : List (Price × OrderPointers)}
    {l : OrderPointers} (hf : find price side = some l) (hx : ∃ x ∈ l, x.orderId_ = orderId) :
    cancelInSide orderId price side =
      .ok (if (eraseNode orderId l).isEmpty then erase price side
           else replace price (eraseNode orderId l) side) := by
  unfold cancelInSide
  rw [hf]
  have : l.any (fun o => decide (o.orderId_ = orderId)) = true := by
    obtain ⟨x, hxl, hxid⟩ := hx
    exact List.any_eq_true.mpr ⟨x, hxl, by simp [hxid]⟩
  simp only [this, if_true]
  split_ifs <;> rfl

/-- The queues of a side after a successful `cancelInSide`. -/
theorem getD_find_cancelled {orderId : OrderId} {price : Price}
    {side : List (Price × OrderPointers)} {l : OrderPointers} (hf : find price side = some l)
    (p : Price) :
    (find p (if (eraseNode orderId l).isEmpty then erase price side
             else replace price (eraseNode orderId l) side)).getD [] =
      if p = price then eraseNode orderId l else (find p side).getD [] := by
  by_cases he : (eraseNode orderId l).isEmpty = true
  · rw [if_pos he, find_erase]
    by_cases hp : p = price
    · simp only [hp, if_true, Option.getD_none]
      exact (List.isEmpty_iff.mp he).symm
    · simp [hp]
  · rw [if_neg he, find_replace]
    by_cases hp : p = price
    · subst hp; simp [hf]
    · simp [hp]

theorem sorted_cancelled {s : Side} {orderId : OrderId} {price : Price}
    {side : List (Price × OrderPointers)} (l : OrderPointers) (h : SortedBy s side) :
    SortedBy s (if (eraseNode orderId l).isEmpty then erase price side
                else replace price (eraseNode orderId l) side) := by
  split_ifs
  · exact sorted_erase h _
  · exact sorted_replace h _ _

theorem keys_cancelled_subset {orderId : OrderId} {price : Price}
    {side : List (Price × OrderPointers)} (l : OrderPointers) :
    ∀ x ∈ keys (if (eraseNode orderId l).isEmpty then erase price side
                else replace price (eraseNode orderId l) side), x ∈ keys side := by
  intro x hx
  split_ifs at hx
  · exact (keys_erase_sublist _ _).subset hx
  · rw [keys_replace] at hx; exact hx

theorem find_cancelled_ne_nil {orderId : OrderId} {price : Price}
    {side : List (Price × OrderPointers)} (l : OrderPointers)
    (hne : ∀ p q, find p side = some q → q ≠ []) :
    ∀ p q, find p (if (eraseNode orderId l).isEmpty then erase price side
                   else replace price (eraseNode orderId l) side) = some q → q ≠ [] := by
  intro p q hq
  by_cases he : (eraseNode orderId l).isEmpty = true
  · rw [if_pos he, find_erase] at hq
    by_cases hp : p = price
    · simp [hp] at hq
    · simp only [hp, if_false] at hq
      exact hne p q hq
  · rw [if_neg he, find_replace] at hq
    by_cases hp : p = price
    · simp only [hp, if_true] at hq
      cases hfind : find price side with
      | none => rw [hfind] at hq; simp at hq
      | some l0 =>
        rw [hfind] at hq
        simp only [Option.map_some', Option.some.injEq] at hq
        rw [← hq]
        intro hnil
        exact he (List.isEmpty_iff.mpr hnil)
    · simp only [hp, if_false] at hq
      exact hne p q hq

/-- Erasing the node of an id from a queue in which ids are not repeated
removes exactly the orders with that id. -/
theorem eraseNode_eq_filter (orderId : OrderId) (l : OrderPointers)
    (hnd : (l.map Order.orderId_).Nodup) :
    eraseNode orderId l = l.filter (fun o => decide (o.orderId_ ≠ orderId)) := by
  induction l with
  | nil => rfl
  | cons x l ih =>
    simp only [List.map_cons, List.nodup_cons] at hnd
    by_cases hx : x.orderId_ = orderId
    · have h1 : eraseNode orderId (x :: l) = l := by
        simp [eraseNode, List.eraseP_cons, hx]
      rw [h1]
      have h2 : (x :: l).filter (fun o => decide (o.orderId_ ≠ orderId)) =
          l.filter (fun o => decide (o.orderId_ ≠ orderId)) := by
        simp [List.filter_cons, hx]
      rw [h2]
      symm
      rw [List.filter_eq_self]
      intro y hy
      simp only [decide_eq_true_eq]
      intro hyid
      apply hnd.1
      rw [hx, ← hyid]
      exact List.mem_map_of_mem _ hy
    · have h1 : eraseNode orderId (x :: l) = x :: eraseNode orderId l := by
        simp [eraseNode, List.eraseP_cons, hx]
      rw [h1, ih hnd.2]
      simp [List.filter_cons, hx]

theorem CancelOrderInternal_resting {b : OrderBook} (h : WF b) {orderId : OrderId} {o : Order}
    (ho : find orderId b.orders_ = some o) :
    ∃ b', CancelOrderInternal b orderId = .ok b' ∧ CancelEffect b b' o := by
  obtain ⟨hid, hin⟩ := h.consistent.orders_ok orderId o ho
  subst hid
  have hlevdef : level b o.side_ o.price_ = (find o.price_ (sideOf b o.side_)).getD [] := rfl
  cases hf : find o.price_ (sideOf b o.side_) with
  | none => rw [hlevdef, hf] at hin; simp at hin
  | some l =>
    have hlev : level b o.side_ o.price_ = l := by rw [hlevdef, hf]; rfl
    rw [hlev] at hin
    have hnd := h.consistent.side_nodup o.side_ o.price_
    rw [hlev] at hnd
    have hfilter := eraseNode_eq_filter o.orderId_ l hnd
    have hc := @cancelInSide_ok o.orderId_ _ _ _ hf ⟨o, hin, rfl⟩
    refine ⟨onOrderCancelled (setSide (setOrders b (erase o.orderId_ b.orders_)) o.side_
        (if (eraseNode o.orderId_ l).isEmpty then erase o.price_ (sideOf b o.side_)
         else replace o.price_ (eraseNode o.orderId_ l) (sideOf b o.side_))) o, ?_, ?_⟩
    · rw [CancelOrderInternal_eq, ho]
      simp only
      rw [hc]
    · have hlevel : ∀ s p,
          level (onOrderCancelled (setSide (setOrders b (erase o.orderId_ b.orders_)) o.side_
            (if (eraseNode o.orderId_ l).isEmpty then erase o.price_ (sideOf b o.side_)
             else replace o.price_ (eraseNode o.orderId_ l) (sideOf b o.side_))) o) s p =
          if s = o.side_ ∧ p = o.price_ then
            (level b s p).filter (fun x => decide (x.orderId_ ≠ o.orderId_))
          else level b s p := by
        intro s p
        simp only [level, sideOf_onOrderCancelled, sideOf_setSide, sideOf_setOrders]
        by_cases hs : s = o.side_
        · subst hs
          simp only [if_true, true_and]
          rw [getD_find_cancelled hf]
          by_cases hp : p = o.price_
          · subst hp
            simp only [if_true]
            rw [hf, hfilter]; rfl
          · simp [hp]
        · simp [hs]
      have hlocate : ∀ i,
          locate (onOrderCancelled (setSide (setOrders b (erase o.orderId_ b.orders_)) o.side_
            (if (eraseNode o.orderId_ l).isEmpty then erase o.price_ (sideOf b o.side_)
             else replace o.price_ (eraseNode o.orderId_ l) (sideOf b o.side_))) o) i =
          if i = o.orderId_ then none else locate b i := by
        intro i
        simp only [locate, onOrderCancelled_orders, setSide_orders, setOrders_orders, find_erase]
      refine ⟨by simp, hlocate, hlevel, ?_, ?_, ?_, ?_, ?_, ?_⟩
      · intro s hs
        simp [sideOf_setSide, hs]
      · intro s x hx
        simp only [sideOf_onOrderCancelled, sideOf_setSide, sideOf_setOrders] at hx
        by_cases hs : s = o.side_
        · subst hs
          simp only [if_true] at hx
          exact keys_cancelled_subset l x hx
        · simpa [hs] using hx
      · intro p
        simp only [sideOf_onOrderCancelled, sideOf_setSide_same]
        rw [← find_isSome_iff, ← find_isSome_iff]
        by_cases he : (eraseNode o.orderId_ l).isEmpty = true
        · rw [if_pos he, find_erase]
          by_cases hp : p = o.price_
          · subst hp
            simp only [if_true, Option.isSome_none, Bool.false_eq_true, false_iff, not_and,
              not_forall, not_not]
            intro _
            refine ⟨trivial, ?_⟩
            rw [hlev, ← hfilter]
            exact List.isEmpty_iff.mp he
          · simp [hp]
        · rw [if_neg he, find_replace]
          by_cases hp : p = o.price_
          · subst hp
            simp only [if_true, hf, Option.map_some', Option.isSome_some, true_and, true_iff]
            intro _
            rw [hlev, ← hfilter]
            intro hnil
            exact he (List.isEmpty_iff.mpr hnil)
          · simp [hp]
      · simp [onOrderCancelled, updateLevelData]
        split_ifs <;> rfl
      · refine ⟨?_, ?_, ?_⟩
        · intro s
          simp only [sideOf_onOrderCancelled, sideOf_setSide, sideOf_setOrders]
          by_cases hs : s = o.side_
          · subst hs
            simp only [if_true]
            exact sorted_cancelled l (h.side_sorted _)
          · simp only [hs, if_false]
            exact h.side_sorted s
        · simp only [onOrderCancelled_orders, setSide_orders, setOrders_orders]
          exact sorted_erase h.orders_sorted _
        · have hloc0 : locate b o.orderId_ = some o := ho
          apply h.consistent.remove hloc0 hlocate
          · intro s p hsp
            rw [hlevel]; simp [hsp]
          · rw [hlevel]; simp only [and_self, if_true]
            exact List.filter_sublist _
          · rw [hlevel]; simp
          · intro x hx hxo
            rw [hlevel]; simp only [and_self, if_true]
            refine List.mem_filter.mpr ⟨hx, ?_⟩
            simp only [decide_eq_true_eq]
            intro hxid
            exact hxo (h.consistent.eq_of_id hx hloc0 hxid)
      · intro hne s p q hq
        simp only [sideOf_onOrderCancelled, sideOf_setSide, sideOf_setOrders] at hq
        by_cases hs : s = o.side_
        · subst hs
          simp only [if_true] at hq
          exact find_cancelled_ne_nil l (hne _) p q hq
        · simp only [hs, if_false] at hq
          exact hne s p q hq

/-! ## Inserting -/

theorem insertAndMatch_eq (b : OrderBook) (o : Order) :
    insertAndMatch b o = MatchOrders (onOrderAdded (inserted b o) o) := by
  unfold insertAndMatch inserted
  cases hs : o.side_ <;> simp [setSide, setOrders, sideOf, level, sideBefore]

theorem level_inserted (b : OrderBook) (o : Order) (s : Side) (p : Price) :
    level (inserted b o) s p =
      if s = o.side_ ∧ p = o.price_ then level b s p ++ [o] else level b s p := by
  simp only [inserted, level, sideOf_setOrders, sideOf_setSide]
  by_cases hs : s = o.side_
  · subst hs
    simp only [if_true, true_and, find_insert]
    by_cases hp : p = o.price_
    · subst hp; simp
    · simp [hp]
  · simp [hs]

theorem locate_inserted (b : OrderBook) (o : Order) (i : OrderId) :
    locate (inserted b o) i = if i = o.orderId_ then some o else locate b i := by
  simp only [inserted, locate, setOrders_orders, find_insert]

theorem inserted_WF {b : OrderBook} (h : WF b) {o : Order}
    (hfresh : find o.orderId_ b.orders_ = none) : WF (inserted b o) := by
  refine ⟨?_, ?_, ?_⟩
  · intro s
    simp only [inserted, sideOf_setOrders, sideOf_setSide]
    by_cases hs : s = o.side_
    · subst hs
      simp only [if_true]
      exact sorted_insert (h.side_sorted _) _ _
    · simp only [hs, if_false]
      exact h.side_sorted s
  · simp only [inserted, setOrders_orders]
    exact sorted_insert (s := Side.Sell) h.orders_sorted _ _
  · apply h.consistent.add (o := o) hfresh (locate_inserted b o)
    · intro s p hsp
      rw [level_inserted]; simp [hsp]
    · rw [level_inserted]; simp

theorem inserted_nonEmpty {b : OrderBook} (h : LevelsNonEmpty b) (o : Order) :
    LevelsNonEmpty (inserted b o) := by
  intro s p l hl
  simp only [inserted, sideOf_setOrders, sideOf_setSide] at hl
  by_cases hs : s = o.side_
  · subst hs
    simp only [if_true, find_insert] at hl
    by_cases hp : p = o.price_
    · simp only [hp, if_true, Option.some.injEq] at hl
      rw [← hl]; simp
    · simp only [hp, if_false] at hl
      exact h _ p l hl
  · simp only [hs, if_false] at hl
    exact h s p l hl

theorem WF_nonEmpty_onOrderAdded {b : OrderBook} (h : LevelsNonEmpty b) (o : Order) :
    LevelsNonEmpty (onOrderAdded b o) := by
  intro s p l hl
  rw [sideOf_onOrderAdded] at hl
  exact h s p l hl

/-! ## The check for a fill-and-kill residual -/

/-- Cancelling never brings an id into the locator, and it removes keys only. -/
theorem CancelOrder_spec {b : OrderBook} (h : WF b) (hne : LevelsNonEmpty b) (orderId : OrderId) :
    ∃ b', CancelOrder b orderId = .ok b' ∧ WF b' ∧ LevelsNonEmpty b' ∧
      (∀ s, ∀ x ∈ keys (sideOf b' s), x ∈ keys (sideOf b s)) ∧
      (∀ i, locate b i = none → locate b' i = none) ∧
      locate b' orderId = none := by
  unfold CancelOrder
  cases ho : find orderId b.orders_ with
  | none =>
    exact ⟨b, CancelOrderInternal_absent ho, h, hne, fun _ _ hx => hx, fun _ hi => hi, ho⟩
  | some o =>
    obtain ⟨b', hb', heff⟩ := CancelOrderInternal_resting h ho
    have hid : o.orderId_ = orderId := (h.consistent.orders_ok orderId o ho).1
    refine ⟨b', hb', heff.wf, heff.nonEmpty hne, heff.keys_subset, ?_, ?_⟩
    · intro i hi
      rw [heff.locate_eq, hi]; simp
    · rw [heff.locate_eq]; simp [hid]

theorem cancelFront_spec {b : OrderBook} (h : WF b) (hne : LevelsNonEmpty b) (s : Side) :
    ∃ b', cancelFrontFillAndKill b (sideOf b s) = .ok b' ∧ WF b' ∧ LevelsNonEmpty b' ∧
      (∀ s', ∀ x ∈ keys (sideOf b' s'), x ∈ keys (sideOf b s')) ∧
      (∀ i, locate b i = none → locate b' i = none) ∧
      (∀ s', s' ≠ s → sideOf b' s' = sideOf b s') ∧
      (∀ p o l tl, sideOf b s = (p, o :: l) :: tl → o.orderType_ = OrderType.FillAndKill →
        locate b' o.orderId_ = none) := by
  cases hs : sideOf b s with
  | nil =>
    refine ⟨b, rfl, h, hne, fun _ _ hx => hx, fun _ hi => hi, fun _ _ => rfl, ?_⟩
    intro p o l tl hcontra
    cases hcontra
  | cons e tl =>
    obtain ⟨p, l⟩ := e
    cases l with
    | nil =>
      exact absurd rfl (hne s p [] (by simp [hs]))
    | cons o l =>
      by_cases ht : o.orderType_ = OrderType.FillAndKill
      · have hlev : level b s p = o :: l := level_head hs
        obtain ⟨hos, hop, holoc⟩ := h.consistent.side_ok s p o (by rw [hlev]; simp)
        obtain ⟨b', hb', heff⟩ := CancelOrderInternal_resting h holoc
        refine ⟨b', ?_, heff.wf, heff.nonEmpty hne, heff.keys_subset, ?_, ?_, ?_⟩
        · simp only [cancelFrontFillAndKill, ht, if_true, CancelOrder]
          exact hb'
        · intro i hi
          rw [heff.locate_eq, hi]; simp
        · intro s' hs'
          exact heff.side_other s' (by rw [hos]; exact hs')
        · intro p' o' l' tl' heq _
          simp only [List.cons.injEq, Prod.mk.injEq] at heq
          obtain ⟨⟨_, ho', _⟩, _⟩ := heq
          subst ho'
          rw [heff.locate_eq]; simp
      · refine ⟨b, ?_, h, hne, fun _ _ hx => hx, fun _ hi => hi, fun _ _ => rfl, ?_⟩
        · simp only [cancelFrontFillAndKill, ht, if_false]
        · intro p' o' l' tl' heq ht'
          simp only [List.cons.injEq, Prod.mk.injEq] at heq
          obtain ⟨⟨_, ho', _⟩, _⟩ := heq
          subst ho'
          exact absurd ht' ht

/-! ## `MatchOrders` on a well-formed book -/

theorem MatchOrders_eq (b : OrderBook) :
    MatchOrders b =
      match matchLoop (b.bids_.length + b.asks_.length + 1) b with
      | .error e => .error e
      | .ok (trades, b1) =>
        match cancelFrontFillAndKill b1 (sideOf b1 Side.Buy) with
        | .error e => .error e
        | .ok b2 =>
          match cancelFrontFillAndKill b2 (sideOf b2 Side.Sell) with
          | .error e => .error e
          | .ok b3 => .ok (trades, b3) := rfl

theorem uncrossed_of_keys_subset {b b' : OrderBook} (h : Uncrossed b)
    (hk : ∀ s, ∀ x ∈ keys (sideOf b' s), x ∈ keys (sideOf b s)) : Uncrossed b' := by
  intro pb hpb pa hpa
  exact h pb (hk Side.Buy pb hpb) pa (hk Side.Sell pa hpa)

/-- The stages of `MatchOrders` on a well-formed book: the loop returns, the
two residual checks return, and the book is again well-formed and uncrossed. -/
theorem MatchOrders_stages {b : OrderBook} (h : WF b) (hne : LevelsNonEmpty b) :
    ∃ trades b1 b2 b3,
      matchLoop (b.bids_.length + b.asks_.length + 1) b = .ok (trades, b1) ∧
      cancelFrontFillAndKill b1 (sideOf b1 Side.Buy) = .ok b2 ∧
      cancelFrontFillAndKill b2 (sideOf b2 Side.Sell) = .ok b3 ∧
      MatchOrders b = .ok (trades, b3) ∧
      WF b1 ∧ LevelsNonEmpty b1 ∧ WF b2 ∧ LevelsNonEmpty b2 ∧ Inv b3 := by
  obtain ⟨r, hr⟩ := matchLoop_total (b.bids_.length + b.asks_.length + 1) b (by omega)
  obtain ⟨trades, b1⟩ := r
  obtain ⟨hwf1, hne1⟩ := matchLoop_WF hr h hne
  have hun1 : Uncrossed b1 :=
    uncrossed_of_not_crossing hwf1.side_sorted (matchLoop_exit _ _ _ _ hr)
  obtain ⟨b2, hb2, hwf2, hne2, hk2, _, _, _⟩ := cancelFront_spec hwf1 hne1 Side.Buy
  obtain ⟨b3, hb3, hwf3, hne3, hk3, _, _, _⟩ := cancelFront_spec hwf2 hne2 Side.Sell
  refine ⟨trades, b1, b2, b3, hr, hb2, hb3, ?_, hwf1, hne1, hwf2, hne2, hwf3, hne3, ?_⟩
  · rw [MatchOrders_eq, hr]
    simp only
    rw [hb2]
    simp only
    rw [hb3]
  · exact uncrossed_of_keys_subset (uncrossed_of_keys_subset hun1 hk2) hk3

theorem MatchOrders_ok {b : OrderBook} (h : WF b) (hne : LevelsNonEmpty b) :
    ∃ trades b', MatchOrders b = .ok (trades, b') ∧ Inv b' := by
  obtain ⟨trades, _, _, b3, _, _, _, hm, _, _, _, _, hinv⟩ := MatchOrders_stages h hne
  exact ⟨trades, b3, hm, hinv⟩

/-! ## The public operations keep the invariant -/

theorem insertAndMatch_ok {b : OrderBook} (h : Inv b) {o : Order}
    (hfresh : find o.orderId_ b.orders_ = none) :
    ∃ trades b', insertAndMatch b o = .ok (trades, b') ∧ Inv b' := by
  rw [insertAndMatch_eq]
  exact MatchOrders_ok (WF_onOrderAdded (inserted_WF h.wf hfresh) o)
    (WF_nonEmpty_onOrderAdded (inserted_nonEmpty h.nonEmpty o) o)

theorem checkAndInsert_ok {b : OrderBook} (h : Inv b) {o : Order}
    (hfresh : find o.orderId_ b.orders_ = none) :
    ∃ trades b', checkAndInsert b o = .ok (trades, b') ∧ Inv b' := by
  unfold checkAndInsert
  split_ifs
  · exact ⟨[], b, rfl, h⟩
  · exact ⟨[], b, rfl, h⟩
  · exact insertAndMatch_ok h hfresh

/-- The call `AddOrder` after the duplicate check, for an order that is not a market order. -/
theorem AddOrder_limit {b : OrderBook} {o : Order} (hfresh : find o.orderId_ b.orders_ = none)
    (ht : o.orderType_ ≠ OrderType.Market) : AddOrder b o = checkAndInsert b o := by
  unfold AddOrder
  simp [hfresh, ht]

/-- The call `AddOrder` of a market order: dropped when the opposite side is empty,
otherwise re-priced at the opposite best and treated as good-till-cancel. -/
theorem AddOrder_market {b : OrderBook} {o : Order} (hfresh : find o.orderId_ b.orders_ = none)
    (ht : o.orderType_ = OrderType.Market) :
    AddOrder b o =
      match sideOf b (if o.side_ = Side.Buy then Side.Sell else Side.Buy) with
      | [] => .ok ([], b)
      | (best, _) :: _ =>
        checkAndInsert b { o with price_ := best, orderType_ := OrderType.GoodTillCancel } := by
  unfold AddOrder
  simp only [hfresh, Option.isSome_none, Bool.false_eq_true, if_false, ht, if_true]
  cases hs : o.side_ with
  | Buy =>
    have h1 : sideOf b (if Side.Buy = Side.Buy then Side.Sell else Side.Buy) = b.asks_ := rfl
    rw [h1]
    cases ha : b.asks_ with
    | nil => rfl
    | cons e tl =>
      obtain ⟨p, l⟩ := e
      simp [Order.ToGoodTillCancel, ht, hs]
  | Sell =>
    have h1 : sideOf b (if Side.Sell = Side.Buy then Side.Sell else Side.Buy) = b.bids_ := rfl
    rw [h1]
    cases hb : b.bids_ with
    | nil => cases b.asks_ <;> rfl
    | cons e tl =>
      obtain ⟨p, l⟩ := e
      simp [Order.ToGoodTillCancel, ht, hs]

theorem AddOrder_duplicate {b : OrderBook} {o : Order} {x : Order}
    (h : find o.orderId_ b.orders_ = some x) : AddOrder b o = .ok ([], b) := by
  unfold AddOrder
  simp [h]

theorem AddOrder_ok {b : OrderBook} (h : Inv b) (o : Order) :
    ∃ trades b', AddOrder b o = .ok (trades, b') ∧ Inv b' := by
  cases hfind : find o.orderId_ b.orders_ with
  | some x => exact ⟨[], b, AddOrder_duplicate hfind, h⟩
  | none =>
    by_cases ht : o.orderType_ = OrderType.Market
    · rw [AddOrder_market hfind ht]
      split
      · exact ⟨[], b, rfl, h⟩
      · exact checkAndInsert_ok h (by simpa using hfind)
    · rw [AddOrder_limit hfind ht]
      exact checkAndInsert_ok h hfind

theorem CancelOrder_ok {b : OrderBook} (h : Inv b) (orderId : OrderId) :
    ∃ b', CancelOrder b orderId = .ok b' ∧ Inv b' := by
  obtain ⟨b', hb', hwf, hne, hk, _, _⟩ := CancelOrder_spec h.wf h.nonEmpty orderId
  exact ⟨b', hb', hwf, hne, uncrossed_of_keys_subset h.uncrossed hk⟩

theorem ModifyOrder_ok {b : OrderBook} (h : Inv b) (m : OrderModify) :
    ∃ trades b', ModifyOrder b m = .ok (trades, b') ∧ Inv b' := by
  unfold ModifyOrder
  cases hfind : find m.orderId_ b.orders_ with
  | none => exact ⟨[], b, rfl, h⟩
  | some x =>
    obtain ⟨b1, hb1, hinv1⟩ := CancelOrder_ok h m.orderId_
    simp only [hb1]
    exact AddOrder_ok hinv1 _

theorem Inv_empty : Inv OrderBook.empty := by
  refine ⟨⟨?_, ?_, ?_, ?_, ?_⟩, ?_, ?_⟩
  · intro s; cases s <;> exact List.Pairwise.nil
  · exact List.Pairwise.nil
  · intro s p o ho
    cases s <;> simp [level, sideOf, OrderBook.empty] at ho
  · intro s p
    cases s <;> simp [level, sideOf, OrderBook.empty]
  · intro i o ho
    simp [locate, OrderBook.empty] at ho
  · intro s p l hl
    cases s <;> simp [sideOf, OrderBook.empty] at hl
  · intro pb hpb
    simp [keys, OrderBook.empty] at hpb

/-- Every reachable book satisfies the invariant. -/
theorem Reachable.inv {b : OrderBook} (h : Reachable b) : Inv b := by
  induction h with
  | empty => exact Inv_empty
  | add _ hadd ih =>
    obtain ⟨t, b0, h0, hinv⟩ := AddOrder_ok ih _
    rw [h0] at hadd
    cases hadd
    exact hinv
  | cancel _ hc ih =>
    obtain ⟨b0, h0, hinv⟩ := CancelOrder_ok ih _
    rw [h0] at hc
    cases hc
    exact hinv
  | modify _ hm ih =>
    obtain ⟨t, b0, h0, hinv⟩ := ModifyOrder_ok ih _
    rw [h0] at hm
    cases hm
    exact hinv

/-! ## Tracking a fill-and-kill aggressor through `MatchOrders` -/

theorem locate_fillFront_none {b : OrderBook} {i : OrderId} (h : locate b i = none)
    (s : Side) (q : Quantity) : locate (fillFront s q b) i = none := by
  unfold fillFront
  split
  · dsimp only
    split_ifs
    · simp only [locate, setOrders_orders, find_erase]
      split_ifs
      · rfl
      · exact h
    · simp only [locate, setOrders_orders, find_replace]
      split_ifs with hi
      · subst hi
        simp only [locate] at h
        simp [h]
      · exact h
  · exact h

theorem fillFront_frontOrGone {b : OrderBook} {i : OrderId} {s : Side}
    (h : FrontOrGone i s b) (s' : Side) (q : Quantity) : FrontOrGone i s (fillFront s' q b) := by
  rcases h with h | ⟨p, o, tl, hs, hid, ht⟩
  · exact Or.inl (locate_fillFront_none h s' q)
  · by_cases hss : s' = s
    · subst hss
      by_cases hf : o.remainingQuantity_ - q = 0
      · left
        rw [fillFront_filled hs hf]
        simp only [locate, setOrders_orders, find_erase, hid, if_true]
      · right
        refine ⟨p, { o with remainingQuantity_ := o.remainingQuantity_ - q }, tl, ?_, hid, ht⟩
        rw [sideOf_fillFront_same q hs]
        simp [hf]
    · right
      refine ⟨p, o, tl, ?_, hid, ht⟩
      rw [sideOf_fillFront_other (fun h' => hss h'.symm)]
      exact hs

theorem frontOrGone_of_same {b b' : OrderBook} {i : OrderId} {s : Side}
    (h : FrontOrGone i s b) (hs : sideOf b' s = sideOf b s) (ho : b'.orders_ = b.orders_) :
    FrontOrGone i s b' := by
  unfold FrontOrGone at *
  simp only [locate, ho, hs]
  exact h

theorem afterRound_frontOrGone {b : OrderBook} {i : OrderId} {s : Side}
    (h : FrontOrGone i s b) : FrontOrGone i s (afterRound b) := by
  unfold afterRound
  split
  · rename_i bid _ _ _ ask _ _ _ _
    exact frontOrGone_of_same
      (fillFront_frontOrGone (fillFront_frontOrGone h Side.Buy
        (min bid.remainingQuantity_ ask.remainingQuantity_)) Side.Sell
        (min bid.remainingQuantity_ ask.remainingQuantity_))
      (by simp) (by simp)
  · exact h

theorem sweep_frontOrGone {b : OrderBook} {i : OrderId} {s : Side}
    (h : FrontOrGone i s b) : FrontOrGone i s (sweep b) := by
  rcases h with h | ⟨p, o, tl, hs, hid, ht⟩
  · exact Or.inl h
  · right
    refine ⟨p, o, tl, ?_, hid, ht⟩
    rw [sideOf_sweep, hs]
    rfl

theorem matchLoop_frontOrGone {fuel : Nat} {b b' : OrderBook} {trades : Trades} {i : OrderId}
    {s : Side} (h : matchLoop fuel b = .ok (trades, b')) (hP : FrontOrGone i s b) :
    FrontOrGone i s b' := by
  refine matchLoop_induct (FrontOrGone i s) ?_ fuel b trades b' h hP
  intro x f ts x1 hx hm
  exact sweep_frontOrGone
    (matchLevel_induct (FrontOrGone i s) (fun _ => afterRound_frontOrGone) f x ts x1 hm hx)

/-- After `MatchOrders`, an order that was at worst a lone fill-and-kill front
is no longer in the locator. -/
theorem MatchOrders_frontOrGone {b : OrderBook} (h : WF b) (hne : LevelsNonEmpty b)
    {i : OrderId} {s : Side} (hP : FrontOrGone i s b) :
    ∃ trades b', MatchOrders b = .ok (trades, b') ∧ Inv b' ∧ locate b' i = none := by
  obtain ⟨trades, b1, b2, b3, hr, hb2, hb3, hm, hwf1, hne1, hwf2, hne2, hinv⟩ :=
    MatchOrders_stages h hne
  refine ⟨trades, b3, hm, hinv, ?_⟩
  obtain ⟨c2, hc2, _, _, _, hmono2, hother2, hfak2⟩ := cancelFront_spec hwf1 hne1 Side.Buy
  rw [hb2] at hc2
  cases hc2
  obtain ⟨c3, hc3, _, _, _, hmono3, _, hfak3⟩ := cancelFront_spec hwf2 hne2 Side.Sell
  rw [hb3] at hc3
  cases hc3
  rcases matchLoop_frontOrGone hr hP with hgone | ⟨p, o, tl, hs, hid, ht⟩
  · exact hmono3 i (hmono2 i hgone)
  · cases s with
    | Buy =>
      apply hmono3
      rw [← hid]
      exact hfak2 p o [] tl hs ht
    | Sell =>
      rw [← hid]
      apply hfak3 p o [] tl _ ht
      rw [hother2 Side.Sell (by decide)]
      exact hs

/-- An order that can match is priced beyond every key of its own side. -/
theorem canMatch_front {b : OrderBook} (hun : Uncrossed b) {s : Side} {p : Price}
    (hc : canMatch b s p = true) : ∀ x ∈ keys (sideOf b s), sideRel s p x := by
  intro x hx
  cases s with
  | Buy =>
    simp only [canMatch, if_true] at hc
    cases ha : b.asks_ with
    | nil => rw [ha] at hc; simp at hc
    | cons e tl =>
      obtain ⟨best, l⟩ := e
      rw [ha] at hc
      simp only [decide_eq_true_eq] at hc
      have := hun x hx best (by rw [ha]; simp [keys])
      simp only [sideRel]
      exact lt_of_lt_of_le this hc
  | Sell =>
    simp only [canMatch] at hc
    cases hb : b.bids_ with
    | nil => rw [hb] at hc; simp at hc
    | cons e tl =>
      obtain ⟨best, l⟩ := e
      rw [hb] at hc
      simp only [reduceCtorEq, if_false, decide_eq_true_eq] at hc
      have := hun best (by rw [hb]; simp [keys]) x hx
      simp only [sideRel]
      exact lt_of_le_of_lt hc this

/-- An order that can match opens a new first level on its own side. -/
theorem sideOf_inserted_front {b : OrderBook} (hun : Uncrossed b) {o : Order}
    (hc : canMatch b o.side_ o.price_ = true) :
    sideOf (inserted b o) o.side_ = (o.price_, [o]) :: sideOf b o.side_ := by
  have hfront := canMatch_front hun hc
  have hnot : o.price_ ∉ keys (sideOf b o.side_) :=
    fun hmem => sideRel_irrefl _ _ (hfront _ hmem)
  have hlev : level b o.side_ o.price_ = [] := by
    simp only [level, (find_eq_none_iff _ _).mpr hnot, Option.getD_none]
  simp only [inserted, sideOf_setOrders, sideOf_setSide_same, hlev, List.nil_append]
  exact insert_front _ hfront

theorem sideOf_inserted_other (b : OrderBook) (o : Order) {s : Side} (h : s ≠ o.side_) :
    sideOf (inserted b o) s = sideOf b s := by
  simp [inserted, sideOf_setSide, h]

/-- A book in which an order that can match has just been inserted is crossing,
with a front order on both sides. -/
theorem inserted_crossing {b : OrderBook} (h : Inv b) {o : Order}
    (hc : canMatch b o.side_ o.price_ = true) :
    Crossing (onOrderAdded (inserted b o) o) ∧ BothFronts (onOrderAdded (inserted b o) o) := by
  have hown := sideOf_inserted_front h.uncrossed hc
  cases hs : o.side_ with
  | Buy =>
    rw [hs] at hown hc
    have hopp : sideOf (inserted b o) Side.Sell = sideOf b Side.Sell :=
      sideOf_inserted_other b o (by rw [hs]; decide)
    simp only [sideOf_buy, sideOf_sell] at hown hopp
    simp only [canMatch, if_true] at hc
    cases ha : b.asks_ with
    | nil => rw [ha] at hc; simp at hc
    | cons e tl =>
      obtain ⟨best, l⟩ := e
      rw [ha] at hc hopp
      simp only [decide_eq_true_eq] at hc
      cases l with
      | nil => exact absurd rfl (h.nonEmpty Side.Sell best [] (by simp [ha]))
      | cons ask asks =>
        refine ⟨⟨o.price_, [o], b.bids_, best, ask :: asks, tl, by simpa using hown,
          by simpa using hopp, not_lt.mpr hc⟩,
          ⟨o.price_, o, [], b.bids_, best, ask, asks, tl, by simpa using hown,
            by simpa using hopp⟩⟩
  | Sell =>
    rw [hs] at hown hc
    have hopp : sideOf (inserted b o) Side.Buy = sideOf b Side.Buy :=
      sideOf_inserted_other b o (by rw [hs]; decide)
    simp only [sideOf_buy, sideOf_sell] at hown hopp
    simp only [canMatch, reduceCtorEq, if_false] at hc
    cases hb : b.bids_ with
    | nil => rw [hb] at hc; simp at hc
    | cons e tl =>
      obtain ⟨best, l⟩ := e
      rw [hb] at hc hopp
      simp only [decide_eq_true_eq] at hc
      cases l with
      | nil => exact absurd rfl (h.nonEmpty Side.Buy best [] (by simp [hb]))
      | cons bid bids =>
        refine ⟨⟨best, bid :: bids, tl, o.price_, [o], b.asks_, by simpa using hopp,
          by simpa using hown, not_lt.mpr hc⟩,
          ⟨best, bid, bids, tl, o.price_, o, [], b.asks_, by simpa using hopp,
            by simpa using hown⟩⟩

/-- The outer loop on a crossing book with two front orders records a trade. -/
theorem matchLoop_trades_ne_nil {fuel : Nat} {b b' : OrderBook} {trades : Trades}
    (h : matchLoop fuel b = .ok (trades, b')) (hc : Crossing b) (hf : BothFronts b) :
    trades ≠ [] := by
  cases fuel with
  | zero => rw [matchLoop_zero hc] at h; cases h
  | succ fuel =>
    rw [matchLoop_succ fuel hc] at h
    cases hm : matchLevel (headLen b.bids_ + headLen b.asks_) b with
    | error e => rw [hm] at h; cases h
    | ok r =>
      obtain ⟨ts, b1⟩ := r
      rw [hm] at h
      simp only at h
      cases hl : matchLoop fuel (sweep b1) with
      | error e => rw [hl] at h; cases h
      | ok r' =>
        obtain ⟨ts', b''⟩ := r'
        rw [hl] at h
        cases h
        have := matchLevel_trades_ne_nil hm hf
        simp [this]

/-- A consistent book queues no order whose id the locator does not know. -/
theorem not_queued_of_locate_none {b : OrderBook} (h : WF b) {i : OrderId}
    (hi : locate b i = none) : ∀ s p, ∀ x ∈ level b s p, x.orderId_ ≠ i := by
  intro s p x hx hxi
  have := (h.consistent.side_ok s p x hx).2.2
  rw [hxi, hi] at this
  cases this

/-! ## The concrete books are reachable -/

theorem loneAsk_reachable : Reachable loneAsk :=
  @Reachable.add OrderBook.empty loneAsk (Order.new OrderType.GoodTillCancel 1 Side.Sell 100 10) []
    Reachable.empty rfl

theorem twoSided_reachable : Reachable twoSided :=
  @Reachable.add loneAsk twoSided (Order.new OrderType.GoodTillCancel 2 Side.Buy 99 10) []
    loneAsk_reachable rfl

theorem staleAggregate_reachable : Reachable staleAggregate :=
  @Reachable.add loneAsk staleAggregate (Order.new OrderType.GoodTillCancel 2 Side.Buy 101 5)
    [{ bidTrade_ := { orderId_ := 2, price_ := 101, quantity_ := 5 },
       askTrade_ := { orderId_ := 1, price_ := 100, quantity_ := 5 } }]
    loneAsk_reachable rfl

theorem negativeCount_reachable : Reachable negativeCount :=
  @Reachable.add loneAsk negativeCount (Order.new OrderType.GoodTillCancel 2 Side.Buy 101 10)
    [{ bidTrade_ := { orderId_ := 2, price_ := 101, quantity_ := 10 },
       askTrade_ := { orderId_ := 1, price_ := 100, quantity_ := 10 } }]
    loneAsk_reachable rfl

/-! ## Best prices -/

theorem bestBid_mem {b : OrderBook} {pb : Price} (h : bestBid b = some pb) : pb ∈ keys b.bids_ := by
  unfold bestBid at h
  cases hb : b.bids_ with
  | nil => rw [hb] at h; simp at h
  | cons e tl =>
    rw [hb] at h
    simp only [List.head?_cons, Option.map_some', Option.some.injEq] at h
    simp [keys, h]

theorem bestAsk_mem {b : OrderBook} {pa : Price} (h : bestAsk b = some pa) : pa ∈ keys b.asks_ := by
  unfold bestAsk at h
  cases hb : b.asks_ with
  | nil => rw [hb] at h; simp at h
  | cons e tl =>
    rw [hb] at h
    simp only [List.head?_cons, Option.map_some', Option.some.injEq] at h
    simp [keys, h]

/-- In a sorted side index the first key is the best one: every key is the
first key or comes after it in the side's order. -/
theorem head_is_best {s : Side} {m : List (Price × OrderPointers)} (hs : SortedBy s m)
    {best : Price} (hb : m.head?.map Prod.fst = some best) :
    ∀ p ∈ keys m, p = best ∨ sideRel s best p := by
  intro p hp
  cases m with
  | nil => simp at hb
  | cons e tl =>
    obtain ⟨k, l⟩ := e
    simp only [List.head?_cons, Option.map_some', Option.some.injEq] at hb
    subst hb
    simp only [keys, List.map_cons, List.mem_cons] at hp
    rcases hp with rfl | hp
    · exact Or.inl rfl
    · exact Or.inr ((sorted_cons_iff.mp hs).1 p hp)

theorem bestBid_highest {b : OrderBook} (h : WF b) {pb : Price} (hb : bestBid b = some pb) :
    ∀ p ∈ keys b.bids_, p ≤ pb := by
  intro p hp
  rcases head_is_best (h.side_sorted Side.Buy) hb p hp with rfl | hlt
  · exact le_rfl
  · exact le_of_lt hlt

theorem bestAsk_lowest {b : OrderBook} (h : WF b) {pa : Price} (hb : bestAsk b = some pa) :
    ∀ p ∈ keys b.asks_, pa ≤ p := by
  intro p hp
  rcases head_is_best (h.side_sorted Side.Sell) hb p hp with rfl | hlt
  · exact le_rfl
  · exact le_of_lt hlt

theorem Inv.best_lt {b : OrderBook} (h : Inv b) {pb pa : Price} (hb : bestBid b = some pb)
    (ha : bestAsk b = some pa) : pb < pa :=
  h.uncrossed pb (bestBid_mem hb) pa (bestAsk_mem ha)

/-! ## The claims -/

/-- C1: in every book reachable from the empty book by `AddOrder`, `CancelOrder`
and `ModifyOrder`, if both sides are non-empty then the best bid (the first and
highest bid key) is strictly below the best ask (the first and lowest ask key);
moreover every `AddOrder` on such a book returns, and the book it returns has
the same property. -/
theorem C1_best_bid_below_best_ask (b : OrderBook) (h : Reachable b) :
    (∀ pb pa, bestBid b = some pb → bestAsk b = some pa → pb < pa) ∧
    (∀ pb, bestBid b = some pb → ∀ p ∈ keys b.bids_, p ≤ pb) ∧
    (∀ pa, bestAsk b = some pa → ∀ p ∈ keys b.asks_, pa ≤ p) ∧
    (∀ order, ∃ trades b', AddOrder b order = .ok (trades, b') ∧
      ∀ pb pa, bestBid b' = some pb → bestAsk b' = some pa → pb < pa) := by
  have hinv := h.inv
  refine ⟨fun pb pa hb ha => hinv.best_lt hb ha, fun pb hb => bestBid_highest hinv.wf hb,
    fun pa ha => bestAsk_lowest hinv.wf ha, ?_⟩
  intro order
  obtain ⟨trades, b', hadd, hinv'⟩ := AddOrder_ok hinv order
  exact ⟨trades, b', hadd, fun pb pa hb ha => hinv'.best_lt hb ha⟩

/-- C1 at the book holding a bid at 99 and an ask at 100. -/
theorem C1_best_bid_below_best_ask_witness :
    Reachable twoSided ∧ bestBid twoSided = some 99 ∧ bestAsk twoSided = some 100 ∧
      (99 : Price) < 100 :=
  ⟨twoSided_reachable, rfl, rfl,
    (C1_best_bid_below_best_ask twoSided twoSided_reachable).1 99 100 rfl rfl⟩

/-- C2 fails on the code: in the reachable book `staleAggregate` order 1 has 5
left at price 100 while the level aggregate still reports 10 there (the ask's
match event was sent to the bid's price, 101).  A FillOrKill Buy of 10 at 100
with a fresh id therefore passes `canFullyFill`, trades only 5, and rests in
the book with 5 remaining. -/
theorem C2_fillOrKill_residual_rests :
    Reachable staleAggregate ∧
    find 3 staleAggregate.orders_ = none ∧
    canFullyFill staleAggregate Side.Buy 100 10 = true ∧
    ∃ b', AddOrder staleAggregate (Order.new OrderType.FillOrKill 3 Side.Buy 100 10) =
        .ok ([{ bidTrade_ := { orderId_ := 3, price_ := 100, quantity_ := 5 },
                askTrade_ := { orderId_ := 1, price_ := 100, quantity_ := 5 } }], b') ∧
      find 3 b'.orders_ =
        some { Order.new OrderType.FillOrKill 3 Side.Buy 100 10 with remainingQuantity_ := 5 } ∧
      b'.bids_ =
        [(100, [{ Order.new OrderType.FillOrKill 3 Side.Buy 100 10 with
                    remainingQuantity_ := 5 }])] :=
  ⟨staleAggregate_reachable, rfl, rfl, _, rfl, rfl, rfl⟩

/-- C3: on every reachable book, adding a FillAndKill order with a fresh id
whose price crosses the opposite best (`canMatch` is true) returns, the trade
list it returns is not empty, and in the returned book the order's id is
neither in the locator (hence not counted by `Size`) nor in any queue of either
side.  This holds for every quantity, positive or not. -/
theorem C3_fillAndKill_never_rests (b : OrderBook) (order : Order) (h : Reachable b)
    (ht : order.orderType_ = OrderType.FillAndKill)
    (hfresh : find order.orderId_ b.orders_ = none)
    (hc : canMatch b order.side_ order.price_ = true) :
    ∃ trades b', AddOrder b order = .ok (trades, b') ∧ trades ≠ [] ∧
      find order.orderId_ b'.orders_ = none ∧
      (∀ s p l, find p (sideOf b' s) = some l → ∀ x ∈ l, x.orderId_ ≠ order.orderId_) := by
  have hinv := h.inv
  have hadd : AddOrder b order = MatchOrders (onOrderAdded (inserted b order) order) := by
    rw [AddOrder_limit hfresh (by rw [ht]; decide), ← insertAndMatch_eq]
    unfold checkAndInsert
    simp [ht, hc]
  have hwf := WF_onOrderAdded (inserted_WF hinv.wf hfresh) order
  have hne := WF_nonEmpty_onOrderAdded (inserted_nonEmpty hinv.nonEmpty order) order
  obtain ⟨hcross, hfronts⟩ := inserted_crossing hinv hc
  have hP : FrontOrGone order.orderId_ order.side_ (onOrderAdded (inserted b order) order) := by
    right
    exact ⟨order.price_, order, sideOf b order.side_,
      by rw [sideOf_onOrderAdded]; exact sideOf_inserted_front hinv.uncrossed hc, rfl, ht⟩
  obtain ⟨trades, b1, b2, b3, hr, _, _, hm, _⟩ := MatchOrders_stages hwf hne
  obtain ⟨trades', b', hm', hinv', hgone⟩ := MatchOrders_frontOrGone hwf hne hP
  rw [hm] at hm'
  cases hm'
  refine ⟨trades, b3, by rw [hadd, hm], matchLoop_trades_ne_nil hr hcross hfronts, hgone, ?_⟩
  intro s p l hl x hx
  apply not_queued_of_locate_none hinv'.wf hgone s p x
  simp only [level, hl, Option.getD_some]
  exact hx

/-- C3 at the lone ask of 10 at 100 and a FillAndKill Buy of 15 at 100. -/
theorem C3_fillAndKill_never_rests_witness :
    ∃ trades b', AddOrder loneAsk (Order.new OrderType.FillAndKill 2 Side.Buy 100 15) =
        .ok (trades, b') ∧ trades ≠ [] ∧
      find 2 b'.orders_ = none ∧
      (∀ s p l, find p (sideOf b' s) = some l → ∀ x ∈ l, x.orderId_ ≠ 2) :=
  C3_fillAndKill_never_rests loneAsk (Order.new OrderType.FillAndKill 2 Side.Buy 100 15)
    loneAsk_reachable rfl rfl rfl

/-- C4: on a reachable book whose side opposite to a Market order starts with
the key `best`, that key is the best opposite price (lowest ask for a Buy,
highest bid for a Sell) and `AddOrder` of the Market order gives exactly the
result (trades and book) of `AddOrder` of the same order turned GoodTillCancel
at price `best`.  Example: a Market Buy of 10 on the lone ask of 10 at 100
returns one trade of 10 at 100 and leaves `Size = 0`. -/
theorem C4_market_is_gtc_at_best (b : OrderBook) (order : Order) (best : Price)
    (l : OrderPointers) (tl : List (Price × OrderPointers)) (h : Reachable b)
    (ht : order.orderType_ = OrderType.Market)
    (hopp : sideOf b (opposite order.side_) = (best, l) :: tl) :
    AddOrder b order =
      AddOrder b { order with orderType_ := OrderType.GoodTillCancel, price_ := best } ∧
    (∀ p ∈ keys (sideOf b (opposite order.side_)),
      p = best ∨ sideRel (opposite order.side_) best p) ∧
    ∃ b', AddOrder loneAsk (Order.new OrderType.Market 2 Side.Buy (-10) 10) =
        .ok ([{ bidTrade_ := { orderId_ := 2, price_ := 100, quantity_ := 10 },
                askTrade_ := { orderId_ := 1, price_ := 100, quantity_ := 10 } }], b') ∧
      Size b' = 0 := by
  refine ⟨?_, ?_, _, rfl, rfl⟩
  · cases hfind : find order.orderId_ b.orders_ with
    | some x =>
      have hgtc : AddOrder b { order with orderType_ := OrderType.GoodTillCancel, price_ := best } =
          .ok ([], b) := AddOrder_duplicate hfind
      rw [AddOrder_duplicate hfind, hgtc]
    | none =>
      rw [AddOrder_market hfind ht]
      have hside : sideOf b (if order.side_ = Side.Buy then Side.Sell else Side.Buy) =
          (best, l) :: tl := by
        rw [← hopp]
        cases order.side_ <;> rfl
      rw [hside]
      have hgtc : AddOrder b { order with orderType_ := OrderType.GoodTillCancel, price_ := best } =
          checkAndInsert b { order with orderType_ := OrderType.GoodTillCancel, price_ := best } :=
        AddOrder_limit hfind (by simp)
      rw [hgtc]
  · apply head_is_best (h.inv.wf.side_sorted _)
    rw [hopp]; rfl

/-- C4 at the lone ask of 10 at 100 and a Market Buy of 10. -/
theorem C4_market_is_gtc_at_best_witness :
    AddOrder loneAsk (Order.new OrderType.Market 2 Side.Buy (-10) 10) =
      AddOrder loneAsk (Order.new OrderType.GoodTillCancel 2 Side.Buy 100 10) :=
  (C4_market_is_gtc_at_best loneAsk (Order.new OrderType.Market 2 Side.Buy (-10) 10) 100
    [Order.new OrderType.GoodTillCancel 1 Side.Sell 100 10] [] loneAsk_reachable rfl rfl).1

/-- C5: on every book, `AddOrder` returns no trades and the unchanged book
(same side indices, locator and level aggregate) when the order is (i) a
Market order and the opposite side is empty, (ii) a FillAndKill order for
which `canMatch` is false, (iii) a FillOrKill order for which `canFullyFill`
is false.  Example: a FillOrKill Buy of 20 at 100 on the lone ask of 10 at 100
returns no trades and leaves the book, whose `Size` is 1, unchanged. -/
theorem C5_policy_reject_is_noop (b : OrderBook) (order : Order) :
    (order.orderType_ = OrderType.Market → sideOf b (opposite order.side_) = [] →
      AddOrder b order = .ok ([], b)) ∧
    (order.orderType_ = OrderType.FillAndKill → canMatch b order.side_ order.price_ = false →
      AddOrder b order = .ok ([], b)) ∧
    (order.orderType_ = OrderType.FillOrKill →
      canFullyFill b order.side_ order.price_ order.initialQuantity_ = false →
      AddOrder b order = .ok ([], b)) ∧
    (AddOrder loneAsk (Order.new OrderType.FillOrKill 2 Side.Buy 100 20) = .ok ([], loneAsk) ∧
      Size loneAsk = 1) := by
  refine ⟨?_, ?_, ?_, rfl, rfl⟩
  · intro ht hopp
    cases hfind : find order.orderId_ b.orders_ with
    | some x => exact AddOrder_duplicate hfind
    | none =>
      rw [AddOrder_market hfind ht]
      have hside : sideOf b (if order.side_ = Side.Buy then Side.Sell else Side.Buy) = [] := by
        rw [← hopp]
        cases order.side_ <;> rfl
      rw [hside]
  · intro ht hc
    cases hfind : find order.orderId_ b.orders_ with
    | some x => exact AddOrder_duplicate hfind
    | none =>
      rw [AddOrder_limit hfind (by rw [ht]; decide)]
      unfold checkAndInsert
      simp [ht, hc]
  · intro ht hc
    cases hfind : find order.orderId_ b.orders_ with
    | some x => exact AddOrder_duplicate hfind
    | none =>
      rw [AddOrder_limit hfind (by rw [ht]; decide)]
      unfold checkAndInsert
      simp [ht, hc]

/-- C5 at three concrete rejections: a Market Sell on the lone ask (no bids),
a FillAndKill Buy at 99 below the ask, and a FillOrKill Buy of 20 at 100. -/
theorem C5_policy_reject_is_noop_witness :
    AddOrder loneAsk (Order.new OrderType.Market 2 Side.Sell (-10) 10) = .ok ([], loneAsk) ∧
    AddOrder loneAsk (Order.new OrderType.FillAndKill 2 Side.Buy 99 10) = .ok ([], loneAsk) ∧
    AddOrder loneAsk (Order.new OrderType.FillOrKill 2 Side.Buy 100 20) = .ok ([], loneAsk) :=
  ⟨(C5_policy_reject_is_noop loneAsk (Order.new OrderType.Market 2 Side.Sell (-10) 10)).1 rfl rfl,
   (C5_policy_reject_is_noop loneAsk
      (Order.new OrderType.FillAndKill 2 Side.Buy 99 10)).2.1 rfl rfl,
   (C5_policy_reject_is_noop loneAsk
      (Order.new OrderType.FillOrKill 2 Side.Buy 100 20)).2.2.1 rfl rfl⟩

/-- C6: on every book, `AddOrder` of an order whose id the locator already
holds returns no trades and the unchanged book, whatever the type, side, price
and quantities of the new order. -/
theorem C6_duplicate_id_is_noop (b : OrderBook) (order existing : Order)
    (h : find order.orderId_ b.orders_ = some existing) :
    AddOrder b order = .ok ([], b) :=
  AddOrder_duplicate h

/-- C6 at the lone ask and a crossing Buy that reuses id 1. -/
theorem C6_duplicate_id_is_noop_witness :
    AddOrder loneAsk (Order.new OrderType.GoodTillCancel 1 Side.Buy 100 10) = .ok ([], loneAsk) :=
  C6_duplicate_id_is_noop loneAsk (Order.new OrderType.GoodTillCancel 1 Side.Buy 100 10)
    (Order.new OrderType.GoodTillCancel 1 Side.Sell 100 10) rfl

/-- C7: on every reachable book, cancelling an id the locator maps to `o`
returns a book in which `Size` is one less, the id is gone from the locator and
every other locator entry is as before, the queue at `o`'s side and price is
the old queue without the order of that id (the others keep their values and
their order), every other queue and the whole other side are as before, and a
price key of `o`'s side is present exactly when it was present before and, if
it is `o`'s price, its queue has not become empty. -/
theorem C7_cancel_removes_exactly_one (b : OrderBook) (orderId : OrderId) (o : Order)
    (h : Reachable b) (ho : find orderId b.orders_ = some o) :
    ∃ b', CancelOrder b orderId = .ok b' ∧
      Size b' + 1 = Size b ∧
      find orderId b'.orders_ = none ∧
      (∀ i, i ≠ orderId → find i b'.orders_ = find i b.orders_) ∧
      o ∈ level b o.side_ o.price_ ∧
      level b' o.side_ o.price_ =
        (level b o.side_ o.price_).filter (fun x => decide (x.orderId_ ≠ orderId)) ∧
      (∀ s p, ¬ (s = o.side_ ∧ p = o.price_) → level b' s p = level b s p) ∧
      sideOf b' (opposite o.side_) = sideOf b (opposite o.side_) ∧
      (∀ p, p ∈ keys (sideOf b' o.side_) ↔
        (p ∈ keys (sideOf b o.side_) ∧ (p = o.price_ → level b' o.side_ p ≠ []))) := by
  have hwf := h.inv.wf
  obtain ⟨hid, hin⟩ := hwf.consistent.orders_ok orderId o ho
  obtain ⟨b', hb', heff⟩ := CancelOrderInternal_resting hwf ho
  subst hid
  refine ⟨b', hb', ?_, ?_, ?_, hin, ?_, ?_, ?_, ?_⟩
  · simp only [Size, heff.orders_eq]
    exact length_erase_of_find hwf.orders_sorted ho
  · have := heff.locate_eq o.orderId_
    simpa [locate] using this
  · intro i hi
    have := heff.locate_eq i
    simpa [locate, hi] using this
  · rw [heff.level_eq]; simp
  · intro s p hsp
    rw [heff.level_eq]; simp [hsp]
  · apply heff.side_other
    cases o.side_ <;> simp [opposite]
  · intro p
    rw [heff.key_iff p]
    constructor
    · rintro ⟨hp, himp⟩
      refine ⟨hp, fun hpe => ?_⟩
      rw [heff.level_eq]
      simp only [hpe, and_self, if_true]
      rw [hpe] at himp
      exact himp rfl
    · rintro ⟨hp, himp⟩
      refine ⟨hp, fun hpe => ?_⟩
      have := himp hpe
      rw [heff.level_eq] at this
      simp only [hpe, and_self, if_true] at this
      rw [hpe]
      exact this

/-- C7 at the book with a bid at 99 and an ask at 100: cancelling the bid. -/
theorem C7_cancel_removes_exactly_one_witness :
    ∃ b', CancelOrder twoSided 2 = .ok b' ∧ Size b' + 1 = Size twoSided ∧
      find 2 b'.orders_ = none := by
  obtain ⟨b', h1, h2, h3, _⟩ := C7_cancel_removes_exactly_one twoSided 2
    (Order.new OrderType.GoodTillCancel 2 Side.Buy 99 10) twoSided_reachable rfl
  exact ⟨b', h1, h2, h3⟩

/-- C8: on every book, cancelling an id that the locator does not hold returns
without error and gives back the same book: side indices, locator (hence
`Size`) and level aggregate are unchanged. -/
theorem C8_cancel_unknown_is_noop (b : OrderBook) (orderId : OrderId)
    (h : find orderId b.orders_ = none) : CancelOrder b orderId = .ok b :=
  CancelOrderInternal_absent h

/-- C8 at the test's call: cancelling id 999 on the empty book. -/
theorem C8_cancel_unknown_is_noop_witness : CancelOrder OrderBook.empty 999 = .ok OrderBook.empty :=
  C8_cancel_unknown_is_noop OrderBook.empty 999 rfl

/-- C9 fails on the code: in the reachable book `negativeCount` nothing rests
but the level aggregate holds count -1, quantity -10 at price 101 (both match
events of the trade went to the bid's price).  Adding a GoodTillCancel Buy of
7 at 101 with a fresh id (no asks, so it does not cross) brings that count to
0, which erases the entry; cancelling the order then recreates it as count -1,
quantity -7.  Side indices and locator are restored, the level aggregate is
not. -/
theorem C9_add_then_cancel_changes_aggregate :
    Reachable negativeCount ∧
    find 3 negativeCount.orders_ = none ∧
    canMatch negativeCount Side.Buy 101 = false ∧
    ∃ b1 b2,
      AddOrder negativeCount (Order.new OrderType.GoodTillCancel 3 Side.Buy 101 7) =
        .ok ([], b1) ∧
      CancelOrder b1 3 = .ok b2 ∧
      b2.bids_ = negativeCount.bids_ ∧ b2.asks_ = negativeCount.asks_ ∧
      b2.orders_ = negativeCount.orders_ ∧
      find 101 negativeCount.data_ = some { quantity_ := -10, count_ := -1 } ∧
      find 101 b2.data_ = some { quantity_ := -7, count_ := -1 } ∧
      b2 ≠ negativeCount :=
  ⟨negativeCount_reachable, rfl, rfl, _, _, rfl, rfl, rfl, rfl, rfl, rfl, rfl, by decide⟩

/-- On every reachable book `ModifyOrder`, the call with the type copied before
the cancel, returns.  If the request's id
is in the locator with order `existing`, then `CancelOrder` of the id returns a
book `b1`, and `ModifyOrder` gives exactly the result (trades and book) of
`AddOrder` on `b1` of the order built by the five-argument constructor from
`existing`'s type and the request's id, side, price and quantity, whose
initial and remaining quantity both equal the requested quantity.  If the id is
not in the locator, `ModifyOrder` returns no trades and the unchanged book. -/
theorem ModifyOrder_cancel_then_add (b : OrderBook) (request : OrderModify)
    (h : Reachable b) :
    (∃ trades b', ModifyOrder b request = .ok (trades, b')) ∧
    (∀ existing, find request.orderId_ b.orders_ = some existing →
      ∃ b1, CancelOrder b request.orderId_ = .ok b1 ∧
        find request.orderId_ b1.orders_ = none ∧
        ModifyOrder b request =
          AddOrder b1 (Order.new existing.orderType_ request.orderId_ request.side_
            request.price_ request.quantity_) ∧
        (Order.new existing.orderType_ request.orderId_ request.side_
            request.price_ request.quantity_).initialQuantity_ = request.quantity_ ∧
        (Order.new existing.orderType_ request.orderId_ request.side_
            request.price_ request.quantity_).remainingQuantity_ = request.quantity_) ∧
    (find request.orderId_ b.orders_ = none → ModifyOrder b request = .ok ([], b)) := by
  refine ⟨?_, ?_, ?_⟩
  · obtain ⟨trades, b', hm, _⟩ := ModifyOrder_ok h.inv request
    exact ⟨trades, b', hm⟩
  · intro existing hfind
    obtain ⟨b1, hb1, _, _, _, _, hgone⟩ := CancelOrder_spec h.inv.wf h.inv.nonEmpty request.orderId_
    refine ⟨b1, hb1, hgone, ?_, rfl, rfl⟩
    unfold ModifyOrder
    rw [hfind]
    simp only [hb1]
    rfl
  · intro hfind
    unfold ModifyOrder
    rw [hfind]

/-- An example on the book with a bid at 99 (id 2) and an ask at 100: the bid
is modified to 10 at 100 and trades with the ask. -/
theorem ModifyOrder_cancel_then_add_example :
    ∃ b1, CancelOrder twoSided 2 = .ok b1 ∧
      ModifyOrder twoSided { orderId_ := 2, side_ := Side.Buy, price_ := 100, quantity_ := 10 } =
        AddOrder b1 (Order.new OrderType.GoodTillCancel 2 Side.Buy 100 10) := by
  obtain ⟨b1, h1, _, h2, _⟩ := (ModifyOrder_cancel_then_add twoSided
    { orderId_ := 2, side_ := Side.Buy, price_ := 100, quantity_ := 10 } twoSided_reachable).2.1
    (Order.new OrderType.GoodTillCancel 2 Side.Buy 99 10) rfl
  exact ⟨b1, h1, h2⟩

/-- A cancel that returns has erased the locator entry of its id, on any book. -/
theorem CancelOrder_erases {b b1 : OrderBook} {orderId : OrderId}
    (hc : CancelOrder b orderId = .ok b1) : find orderId b1.orders_ = none := by
  unfold CancelOrder at hc
  rw [CancelOrderInternal_eq] at hc
  cases hfind : find orderId b.orders_ with
  | none =>
    rw [hfind] at hc
    obtain rfl : b = b1 := by simpa using hc
    exact hfind
  | some existing =>
    rw [hfind] at hc
    simp only at hc
    cases hside : cancelInSide orderId existing.price_ (sideOf b existing.side_) with
    | error e => rw [hside] at hc; cases hc
    | ok m =>
      rw [hside] at hc
      obtain rfl : onOrderCancelled
          (setSide (setOrders b (erase orderId b.orders_)) existing.side_ m) existing = b1 := by
        simpa using hc
      simp only [onOrderCancelled_orders, setSide_orders, setOrders_orders, find_erase, if_true]

/-- The call `ModifyOrder` as written, for an id the locator holds: the cancel's
failure if the cancel fails, and otherwise the read through the reference into
the erased entry. -/
theorem ModifyOrderAsWritten_resting {b : OrderBook} {request : OrderModify} {existing : Order}
    (hfind : find request.orderId_ b.orders_ = some existing) :
    ModifyOrderAsWritten b request =
      match CancelOrder b request.orderId_ with
      | .error e => .error e
      | .ok _ => .error .undefined := by
  unfold ModifyOrderAsWritten
  rw [hfind]
  simp only
  cases hc : CancelOrder b request.orderId_ with
  | error e => rfl
  | ok b1 =>
    simp only
    rw [CancelOrder_erases hc]

/-- C10 fails on the code.  `ModifyOrder` binds `existingOrder` as a reference
into the locator entry of the request's id, has `CancelOrder` erase that entry,
and only then reads the order type through the reference.  On every reachable
book whose locator holds the id, the cancel returns a book `b1` without the
entry, so the call as written ends in undefined behaviour; the result the claim
describes, that of `AddOrder` on `b1` of the order built from the old type and
the request, exists, and is what the call returns when the type is copied
before the cancel.  On any book, reachable or not, the call as written returns
no result when the locator holds the id.  When the locator does not hold the
id, the call as written returns no trades and the unchanged book, as
claimed. -/
theorem C10_modify_reads_erased_entry (b : OrderBook) (request : OrderModify)
    (h : Reachable b) :
    (∀ existing, find request.orderId_ b.orders_ = some existing →
      ∃ b1, CancelOrder b request.orderId_ = .ok b1 ∧
        find request.orderId_ b1.orders_ = none ∧
        ModifyOrderAsWritten b request = .error .undefined ∧
        ∃ trades b', AddOrder b1 (Order.new existing.orderType_ request.orderId_ request.side_
            request.price_ request.quantity_) = .ok (trades, b') ∧
          ModifyOrder b request = .ok (trades, b') ∧
          ModifyOrderAsWritten b request ≠ .ok (trades, b')) ∧
    (find request.orderId_ b.orders_ = none → ModifyOrderAsWritten b request = .ok ([], b)) ∧
    (∀ (x : OrderBook) (existing : Order), find request.orderId_ x.orders_ = some existing →
      ∀ r, ModifyOrderAsWritten x request ≠ .ok r) := by
  refine ⟨?_, ?_, ?_⟩
  · intro existing hfind
    obtain ⟨_, hmod, _⟩ := ModifyOrder_cancel_then_add b request h
    obtain ⟨b1, hb1, hgone, heq, _, _⟩ := hmod existing hfind
    have hwritten : ModifyOrderAsWritten b request = .error .undefined := by
      rw [ModifyOrderAsWritten_resting hfind, hb1]
    obtain ⟨b1', hb1', hinv1⟩ := CancelOrder_ok h.inv request.orderId_
    rw [hb1] at hb1'
    obtain rfl : b1 = b1' := by simpa using hb1'
    obtain ⟨trades, b', hadd, _⟩ := AddOrder_ok hinv1
      (Order.new existing.orderType_ request.orderId_ request.side_ request.price_
        request.quantity_)
    refine ⟨b1, hb1, hgone, hwritten, trades, b', hadd, by rw [heq]; exact hadd, ?_⟩
    rw [hwritten]
    simp
  · intro hfind
    unfold ModifyOrderAsWritten
    rw [hfind]
  · intro x existing hfind r
    rw [ModifyOrderAsWritten_resting hfind]
    cases CancelOrder x request.orderId_ <;> simp

/-- C10 at the book with a bid at 99 (id 2) and an ask at 100, for the bid
modified to 10 at 100: the call as written is undefined, while cancel then add
gives one trade of 10 at 100 between orders 2 and 1. -/
theorem C10_modify_reads_erased_entry_witness :
    ModifyOrderAsWritten twoSided
        { orderId_ := 2, side_ := Side.Buy, price_ := 100, quantity_ := 10 } =
      .error .undefined ∧
    (ModifyOrder twoSided
        { orderId_ := 2, side_ := Side.Buy, price_ := 100, quantity_ := 10 }).map Prod.fst =
      .ok [{ bidTrade_ := { orderId_ := 2, price_ := 100, quantity_ := 10 },
             askTrade_ := { orderId_ := 1, price_ := 100, quantity_ := 10 } }] ∧
    ∃ b1, CancelOrder twoSided 2 = .ok b1 ∧ find 2 b1.orders_ = none ∧
      ∃ trades b', AddOrder b1 (Order.new OrderType.GoodTillCancel 2 Side.Buy 100 10) =
          .ok (trades, b') ∧
        ModifyOrderAsWritten twoSided
          { orderId_ := 2, side_ := Side.Buy, price_ := 100, quantity_ := 10 } ≠
            .ok (trades, b') := by
  obtain ⟨b1, h1, h2, h3, trades, b', h4, _, h6⟩ := (C10_modify_reads_erased_entry twoSided
    { orderId_ := 2, side_ := Side.Buy, price_ := 100, quantity_ := 10 } twoSided_reachable).1
    (Order.new OrderType.GoodTillCancel 2 Side.Buy 99 10) rfl
  exact ⟨h3, rfl, b1, h1, h2, trades, b', h4, h6⟩

/-! ## The snapshot, the order value, the pruner pass -/

theorem loneGoodForDay_reachable : Reachable loneGoodForDay :=
  @Reachable.add OrderBook.empty loneGoodForDay (Order.new OrderType.GoodForDay 1 Side.Buy 100 10)
    [] Reachable.empty rfl

/-- C15 fails on the code: with the shutdown flag not set, a pass whose wait
ends by timeout (the deadline was reached) returns from the function and
cancels nothing, and a pass whose wait ends without timeout (the thread was
notified) cancels the GoodForDay orders and goes round the loop again.  Shown
on the book holding one GoodForDay order. -/
theorem C15_pruner_pass_is_reversed :
    Reachable loneGoodForDay ∧
    goodForDayIds loneGoodForDay = [1] ∧
    PruneGoodForDayOrdersPass loneGoodForDay false cv_status.timeout = .ok none ∧
    ∃ b', PruneGoodForDayOrdersPass loneGoodForDay false cv_status.no_timeout = .ok (some b') ∧
      Size b' = 0 ∧ b'.bids_ = [] :=
  ⟨loneGoodForDay_reachable, rfl, rfl, _, rfl, rfl, rfl⟩

/-- C16 fails on the code: the three-argument constructor assigns no member,
so the order it yields is whatever the storage held, whatever the arguments.
On zero-filled storage the order is GoodTillCancel with id 0, side Buy, price 0
and quantity 0; added to the lone ask of 10 at 100 it does not trade (the test
expects one trade and `Size = 0`) and rests, giving `Size = 2`. -/
theorem C16_market_constructor_assigns_nothing :
    (∀ storage orderId side quantity, Order.newMarket storage orderId side quantity = storage) ∧
    (Order.newMarket zeroStorage 2 Side.Buy 10).orderType_ = OrderType.GoodTillCancel ∧
    (Order.newMarket zeroStorage 2 Side.Buy 10).orderId_ = 0 ∧
    (Order.newMarket zeroStorage 2 Side.Buy 10).initialQuantity_ = 0 ∧
    ∃ b', AddOrder loneAsk (Order.newMarket zeroStorage 2 Side.Buy 10) = .ok ([], b') ∧
      Size b' = 2 :=
  ⟨fun _ _ _ _ => rfl, rfl, rfl, rfl, _, rfl, rfl⟩

/-- C17 fails on the code.  In the reachable book `staleAggregate` the only
resting order is order 1 at price 100 with initial quantity 10, of which 5 have
been matched, yet the level aggregate at 100 holds quantity 10, not 5.  In the
reachable book `negativeCount` no order rests at all, yet the level aggregate
has an entry at 100 (count 1, quantity 10) and one at 101 (count -1,
quantity -10).  Both come from the one trade of each history, whose two events
were both sent to the bid's price 101 and none to the ask's price 100. -/
theorem C17_aggregate_is_off :
    Reachable staleAggregate ∧
    level staleAggregate Side.Sell 100 =
      [{ Order.new OrderType.GoodTillCancel 1 Side.Sell 100 10 with remainingQuantity_ := 5 }] ∧
    level staleAggregate Side.Buy 100 = [] ∧
    find 100 staleAggregate.data_ = some { quantity_ := 10, count_ := 1 } ∧
    Reachable negativeCount ∧
    negativeCount.bids_ = [] ∧ negativeCount.asks_ = [] ∧ Size negativeCount = 0 ∧
    find 100 negativeCount.data_ = some { quantity_ := 10, count_ := 1 } ∧
    find 101 negativeCount.data_ = some { quantity_ := -10, count_ := -1 } :=
  ⟨staleAggregate_reachable, rfl, rfl, rfl, negativeCount_reachable, rfl, rfl, rfl, rfl, rfl⟩

/-! ## Counting the resting orders -/

theorem mem_queued {m : List (Price × OrderPointers)} {x : Order} :
    x ∈ queued m ↔ ∃ p l, (p, l) ∈ m ∧ x ∈ l := by
  induction m with
  | nil => simp [queued]
  | cons e m ih =>
    obtain ⟨k, q⟩ := e
    simp only [queued, List.mem_append, ih, List.mem_cons, Prod.mk.injEq]
    constructor
    · rintro (hx | ⟨p, l, hm, hx⟩)
      · exact ⟨k, q, Or.inl ⟨rfl, rfl⟩, hx⟩
      · exact ⟨p, l, Or.inr hm, hx⟩
    · rintro ⟨p, l, (⟨rfl, rfl⟩ | hm), hx⟩
      · exact Or.inl hx
      · exact Or.inr ⟨p, l, hm, hx⟩

/-- In a map with ordered keys an entry is what `find` returns for its key. -/
theorem find_of_mem {V : Type} {s : Side} {m : List (Int × V)} (hs : SortedBy s m) {k : Int}
    {v : V} (h : (k, v) ∈ m) : find k m = some v := by
  induction m with
  | nil => simp at h
  | cons e m ih =>
    obtain ⟨a, w⟩ := e
    rcases List.mem_cons.mp h with heq | hm
    · simp only [Prod.mk.injEq] at heq
      obtain ⟨rfl, rfl⟩ := heq
      simp
    · have hk : k ∈ keys m := List.mem_map_of_mem Prod.fst hm
      have hne : a ≠ k := fun hak => sorted_head_not_mem hs (hak ▸ hk)
      simp only [find_cons, hne, if_false]
      exact ih (sorted_tail hs) hm

theorem mem_side_iff_find {b : OrderBook} (h : WF b) {s : Side} {p : Price} {l : OrderPointers} :
    (p, l) ∈ sideOf b s ↔ find p (sideOf b s) = some l :=
  ⟨find_of_mem (h.side_sorted s), mem_of_find⟩

theorem level_of_mem_side {b : OrderBook} (h : WF b) {s : Side} {p : Price} {l : OrderPointers}
    (hm : (p, l) ∈ sideOf b s) : level b s p = l := by
  simp [level, (mem_side_iff_find h).mp hm]

theorem mem_side_of_mem_level {b : OrderBook} {s : Side} {p : Price} {x : Order}
    (hx : x ∈ level b s p) : (p, level b s p) ∈ sideOf b s := by
  unfold level at hx ⊢
  cases hf : find p (sideOf b s) with
  | none => rw [hf] at hx; simp at hx
  | some l => exact mem_of_find hf

theorem mem_queued_iff_level {b : OrderBook} (h : WF b) {s : Side} {x : Order} :
    x ∈ queued (sideOf b s) ↔ ∃ p, x ∈ level b s p := by
  rw [mem_queued]
  constructor
  · rintro ⟨p, l, hm, hx⟩
    exact ⟨p, by rw [level_of_mem_side h hm]; exact hx⟩
  · rintro ⟨p, hx⟩
    exact ⟨p, level b s p, mem_side_of_mem_level hx, hx⟩

/-- The queues of a side with ordered keys, whose orders carry their level's
price and do not repeat inside a queue, hold no order twice. -/
theorem nodup_queued {s : Side} {m : List (Price × OrderPointers)} (hs : SortedBy s m)
    (h : ∀ p l, (p, l) ∈ m → (∀ x ∈ l, x.price_ = p) ∧ l.Nodup) : (queued m).Nodup := by
  induction m with
  | nil => simp [queued]
  | cons e m ih =>
    obtain ⟨k, q⟩ := e
    simp only [queued]
    rw [List.nodup_append]
    refine ⟨(h k q (List.mem_cons_self _ _)).2,
      ih (sorted_tail hs) (fun p l hm => h p l (List.mem_cons_of_mem _ hm)), ?_⟩
    intro x hx1 hx2
    obtain ⟨p, l, hm, hxl⟩ := mem_queued.mp hx2
    have h1 := (h k q (List.mem_cons_self _ _)).1 x hx1
    have h2 := (h p l (List.mem_cons_of_mem _ hm)).1 x hxl
    have hk : k ∈ keys m := by
      rw [← h1, h2]
      exact List.mem_map_of_mem Prod.fst hm
    exact sorted_head_not_mem hs hk

theorem WF.queued_nodup {b : OrderBook} (h : WF b) (s : Side) : (queued (sideOf b s)).Nodup := by
  apply nodup_queued (h.side_sorted s)
  intro p l hm
  have hl := level_of_mem_side h hm
  constructor
  · intro x hx
    exact (h.consistent.side_ok s p x (by rw [hl]; exact hx)).2.1
  · have := h.consistent.side_nodup s p
    rw [hl] at this
    exact List.Nodup.of_map _ this

theorem WF.queued_side {b : OrderBook} (h : WF b) {s : Side} {x : Order}
    (hx : x ∈ queued (sideOf b s)) : x.side_ = s ∧ locate b x.orderId_ = some x := by
  obtain ⟨p, hp⟩ := (mem_queued_iff_level h).mp hx
  have := h.consistent.side_ok s p x hp
  exact ⟨this.1, this.2.2⟩

/-- In a well-formed book the ids of the queued orders are, up to order, the
keys of the locator. -/
theorem WF.queued_ids_perm {b : OrderBook} (h : WF b) :
    List.Perm ((queued b.bids_ ++ queued b.asks_).map Order.orderId_) (keys b.orders_) := by
  have hall : ∀ x ∈ queued b.bids_ ++ queued b.asks_, locate b x.orderId_ = some x := by
    intro x hx
    rcases List.mem_append.mp hx with hx | hx
    · exact (h.queued_side (s := Side.Buy) hx).2
    · exact (h.queued_side (s := Side.Sell) hx).2
  have hnd : (queued b.bids_ ++ queued b.asks_).Nodup := by
    rw [List.nodup_append]
    refine ⟨h.queued_nodup Side.Buy, h.queued_nodup Side.Sell, ?_⟩
    intro x hx1 hx2
    have h1 := (h.queued_side (s := Side.Buy) hx1).1
    have h2 := (h.queued_side (s := Side.Sell) hx2).1
    rw [h1] at h2
    cases h2
  have hndid : ((queued b.bids_ ++ queued b.asks_).map Order.orderId_).Nodup := by
    apply List.Nodup.map_on _ hnd
    intro x hx y hy hxy
    have h1 := hall x hx
    have h2 := hall y hy
    rw [hxy, h2] at h1
    exact (Option.some.inj h1).symm
  have hkeys : (keys b.orders_).Nodup := by
    have : IsIrrefl Int (sideRel Side.Sell) := ⟨sideRel_irrefl Side.Sell⟩
    exact List.Pairwise.nodup h.orders_sorted
  rw [List.perm_ext_iff_of_nodup hndid hkeys]
  intro i
  constructor
  · intro hi
    obtain ⟨x, hx, rfl⟩ := List.mem_map.mp hi
    exact mem_keys_of_find (hall x hx)
  · intro hi
    rw [← find_isSome_iff] at hi
    cases hf : find i b.orders_ with
    | none => rw [hf] at hi; simp at hi
    | some o =>
      obtain ⟨hid, hin⟩ := h.consistent.orders_ok i o hf
      refine List.mem_map.mpr ⟨o, ?_, hid⟩
      have hq : o ∈ queued (sideOf b o.side_) := (mem_queued_iff_level h).mpr ⟨_, hin⟩
      cases hs : o.side_ with
      | Buy => rw [hs] at hq; exact List.mem_append_left _ hq
      | Sell => rw [hs] at hq; exact List.mem_append_right _ hq

/-- C18: in every reachable book the locator's ids are pairwise distinct,
`Size` is the number of orders queued over all price levels of both sides, every
price level present in a side index has a non-empty queue, and every locator
entry is keyed by its order's id and its order occurs exactly once in the queue
present on its own side under its own price, and in no queue present under
another side or price. -/
theorem C18_locator_and_sides_agree (b : OrderBook) (h : Reachable b) :
    (keys b.orders_).Nodup ∧
    Size b = (queued b.bids_).length + (queued b.asks_).length ∧
    (∀ s p l, (p, l) ∈ sideOf b s → l ≠ []) ∧
    (∀ orderId o, find orderId b.orders_ = some o →
      o.orderId_ = orderId ∧
      (∃ l, (o.price_, l) ∈ sideOf b o.side_ ∧ l.count o = 1) ∧
      (∀ s p l, (p, l) ∈ sideOf b s → o ∈ l → s = o.side_ ∧ p = o.price_)) := by
  have hinv := h.inv
  have hwf := hinv.wf
  refine ⟨?_, ?_, ?_, ?_⟩
  · have : IsIrrefl Int (sideRel Side.Sell) := ⟨sideRel_irrefl Side.Sell⟩
    exact List.Pairwise.nodup hwf.orders_sorted
  · have hp := hwf.queued_ids_perm.length_eq
    simp only [List.length_map, List.length_append, keys] at hp
    simp only [Size]
    exact hp.symm
  · intro s p l hm
    exact hinv.nonEmpty s p l ((mem_side_iff_find hwf).mp hm)
  · intro orderId o ho
    obtain ⟨hid, hin⟩ := hwf.consistent.orders_ok orderId o ho
    refine ⟨hid, ⟨level b o.side_ o.price_, mem_side_of_mem_level hin, ?_⟩, ?_⟩
    · have hnd := List.Nodup.of_map _ (hwf.consistent.side_nodup o.side_ o.price_)
      exact List.count_eq_one_of_mem hnd hin
    · intro s p l hm hol
      have := hwf.consistent.side_ok s p o (by rw [level_of_mem_side hwf hm]; exact hol)
      exact ⟨this.1.symm, this.2.1.symm⟩

/-- C18 at the book with a bid at 99 and an ask at 100. -/
theorem C18_locator_and_sides_agree_witness :
    Size twoSided = (queued twoSided.bids_).length + (queued twoSided.asks_).length ∧
    (keys twoSided.orders_).Nodup :=
  ⟨(C18_locator_and_sides_agree twoSided twoSided_reachable).2.1,
   (C18_locator_and_sides_agree twoSided twoSided_reachable).1⟩

/-! ## Predicates carried through `MatchOrders` and `AddOrder` -/

theorem cancelFront_cases {x x' : OrderBook} {m : List (Price × OrderPointers)}
    (h : cancelFrontFillAndKill x m = .ok x') : x' = x ∨ ∃ i, CancelOrder x i = .ok x' := by
  unfold cancelFrontFillAndKill at h
  split at h
  · cases h; exact Or.inl rfl
  · cases h
  · split_ifs at h
    · exact Or.inr ⟨_, h⟩
    · cases h; exact Or.inl rfl

/-- Whatever holds before `MatchOrders` on a well-formed book and survives a
round of the inner loop, a sweep and a cancel holds after it. -/
theorem MatchOrders_induct (P : OrderBook → Prop)
    (hround : ∀ x, P x → P (afterRound x)) (hsweep : ∀ x, P x → P (sweep x))
    (hcancel : ∀ x i x', WF x → P x → CancelOrder x i = .ok x' → P x')
    {b b' : OrderBook} {trades : Trades} (hwf : WF b) (hne : LevelsNonEmpty b)
    (h : MatchOrders b = .ok (trades, b')) (hP : P b) : P b' := by
  obtain ⟨ts, b1, b2, b3, hr, hb2, hb3, hm, hwf1, _, hwf2, _, _⟩ := MatchOrders_stages hwf hne
  rw [hm] at h
  have hb' : b' = b3 := (Prod.mk.inj (Except.ok.inj h)).2.symm
  rw [hb']
  have h1 : P b1 := by
    refine matchLoop_induct P ?_ _ b ts b1 hr hP
    intro x f t x1 hx hlev
    exact hsweep _ (matchLevel_induct P hround f x t x1 hlev hx)
  have h2 : P b2 := by
    rcases cancelFront_cases hb2 with rfl | ⟨i, hi⟩
    · exact h1
    · exact hcancel b1 i b2 hwf1 h1 hi
  rcases cancelFront_cases hb3 with rfl | ⟨i, hi⟩
  · exact h2
  · exact hcancel b2 i _ hwf2 h2 hi

/-- The ways `AddOrder` can go for an order with a fresh id: it is dropped, or
an order with the same id, side and quantities (the order itself, or its
good-till-cancel rewrite when it is a market order) is inserted and matched. -/
theorem AddOrder_cases {b b' : OrderBook} {o : Order} {trades : Trades}
    (h : AddOrder b o = .ok (trades, b')) :
    (trades = [] ∧ b' = b) ∨
    ∃ o', find o'.orderId_ b.orders_ = none ∧ o'.orderId_ = o.orderId_ ∧ o'.side_ = o.side_ ∧
      o'.initialQuantity_ = o.initialQuantity_ ∧ o'.remainingQuantity_ = o.remainingQuantity_ ∧
      (o' = o ∨ (o.orderType_ = OrderType.Market ∧
        o'.orderType_ = OrderType.GoodTillCancel ∧
        (sideOf b (opposite o.side_)).head?.map Prod.fst = some o'.price_)) ∧
      o'.orderType_ ≠ OrderType.Market ∧
      (o'.orderType_ = OrderType.FillAndKill → canMatch b o'.side_ o'.price_ = true) ∧
      (o'.orderType_ = OrderType.FillOrKill →
        canFullyFill b o'.side_ o'.price_ o'.initialQuantity_ = true) ∧
      insertAndMatch b o' = .ok (trades, b') := by
  have hgate : ∀ o' : Order, checkAndInsert b o' = .ok (trades, b') →
      (trades = [] ∧ b' = b) ∨
      ((o'.orderType_ = OrderType.FillAndKill → canMatch b o'.side_ o'.price_ = true) ∧
       (o'.orderType_ = OrderType.FillOrKill →
          canFullyFill b o'.side_ o'.price_ o'.initialQuantity_ = true) ∧
       insertAndMatch b o' = .ok (trades, b')) := by
    intro o' hg
    unfold checkAndInsert at hg
    split_ifs at hg with h1 h2
    · cases hg; exact Or.inl ⟨rfl, rfl⟩
    · cases hg; exact Or.inl ⟨rfl, rfl⟩
    · right
      refine ⟨fun ht => ?_, fun ht => ?_, hg⟩
      · by_contra hc
        exact h1 ⟨ht, hc⟩
      · by_contra hc
        exact h2 ⟨ht, hc⟩
  cases hfind : find o.orderId_ b.orders_ with
  | some x =>
    rw [AddOrder_duplicate hfind] at h
    cases h; exact Or.inl ⟨rfl, rfl⟩
  | none =>
    by_cases ht : o.orderType_ = OrderType.Market
    · rw [AddOrder_market hfind ht] at h
      have hside : sideOf b (if o.side_ = Side.Buy then Side.Sell else Side.Buy) =
          sideOf b (opposite o.side_) := by
        cases o.side_ <;> rfl
      rw [hside] at h
      cases hopp : sideOf b (opposite o.side_) with
      | nil =>
        rw [hopp] at h
        cases h; exact Or.inl ⟨rfl, rfl⟩
      | cons e tl =>
        obtain ⟨best, l⟩ := e
        rw [hopp] at h
        simp only at h
        rcases hgate _ h with hdrop | ⟨hf1, hf2, hins⟩
        · exact Or.inl hdrop
        · exact Or.inr ⟨{ o with price_ := best, orderType_ := OrderType.GoodTillCancel },
            hfind, rfl, rfl, rfl, rfl, Or.inr ⟨ht, rfl, rfl⟩, by simp, hf1, hf2, hins⟩
    · rw [AddOrder_limit hfind ht] at h
      rcases hgate _ h with hdrop | ⟨hf1, hf2, hins⟩
      · exact Or.inl hdrop
      · exact Or.inr ⟨o, hfind, rfl, rfl, rfl, rfl, Or.inl rfl, ht, hf1, hf2, hins⟩

/-! ## Positive remaining quantities -/

@[simp] theorem level_onOrderMatched (b : OrderBook) (p : Price) (q : Quantity) (f : Bool) :
    level (onOrderMatched b p q f) = level b := by
  funext s p'; simp [level]

@[simp] theorem level_onOrderAdded (b : OrderBook) (o : Order) :
    level (onOrderAdded b o) = level b := by
  funext s p'; simp [level]

/-- The orders queued after a front fill are the orders queued before it,
except that the front order, if it stays, has its remaining quantity lowered. -/
theorem mem_level_fillFront {b : OrderBook} {s s' : Side} {q : Quantity} {p' : Price} {y : Order}
    (hy : y ∈ level (fillFront s q b) s' p') :
    y ∈ level b s' p' ∨
      ∃ p o rest tl, sideOf b s = (p, o :: rest) :: tl ∧ o.remainingQuantity_ - q ≠ 0 ∧
        y = { o with remainingQuantity_ := o.remainingQuantity_ - q } := by
  by_cases hshape : ∃ p o rest tl, sideOf b s = (p, o :: rest) :: tl
  · obtain ⟨p, o, rest, tl, hs⟩ := hshape
    by_cases hss : s' = s
    · subst hss
      have hside := sideOf_fillFront_same q hs
      simp only [level, hside, hs, find_cons] at hy ⊢
      by_cases hp : p = p'
      · subst hp
        simp only [if_true, Option.getD_some] at hy ⊢
        split_ifs at hy with hf
        · exact Or.inl (List.mem_cons_of_mem _ hy)
        · rcases List.mem_cons.mp hy with rfl | hy
          · exact Or.inr ⟨p, o, rest, tl, rfl, hf, rfl⟩
          · exact Or.inl (List.mem_cons_of_mem _ hy)
      · simp only [hp, if_false] at hy ⊢
        exact Or.inl hy
    · simp only [level, sideOf_fillFront_other hss] at hy
      exact Or.inl hy
  · rw [fillFront_none (fun p o rest tl hs => hshape ⟨p, o, rest, tl, hs⟩)] at hy
    exact Or.inl hy

theorem positive_lower {o : Order} {q : Quantity}
    (ho : 0 < o.remainingQuantity_ ∧ o.remainingQuantity_ ≤ o.initialQuantity_)
    (hq : 0 < q) (hle : q ≤ o.remainingQuantity_) (hne : o.remainingQuantity_ - q ≠ 0) :
    0 < o.remainingQuantity_ - q ∧ o.remainingQuantity_ - q ≤ o.initialQuantity_ :=
  ⟨lt_of_le_of_ne (sub_nonneg.mpr hle) (Ne.symm hne),
   le_trans (sub_le_self _ (le_of_lt hq)) ho.2⟩

theorem afterRound_positive {b : OrderBook} (h : Positive b) : Positive (afterRound b) := by
  by_cases hf : BothFronts b
  · obtain ⟨bidPrice, bid, bids, restBids, askPrice, ask, asks, restAsks, hb, ha⟩ := hf
    have hround : afterRound b =
        onOrderMatched (onOrderMatched
          (fillFront Side.Sell (min bid.remainingQuantity_ ask.remainingQuantity_)
            (fillFront Side.Buy (min bid.remainingQuantity_ ask.remainingQuantity_) b))
          bid.price_ (min bid.remainingQuantity_ ask.remainingQuantity_)
          (decide (bid.remainingQuantity_ - min bid.remainingQuantity_ ask.remainingQuantity_ = 0)))
          bid.price_ (min bid.remainingQuantity_ ask.remainingQuantity_)
          (decide (ask.remainingQuantity_ - min bid.remainingQuantity_ ask.remainingQuantity_ = 0)) := by
      unfold afterRound; rw [hb, ha]
    have hbid := h Side.Buy bidPrice bid (by simp [level, hb])
    have hask := h Side.Sell askPrice ask (by simp [level, ha])
    have hq : 0 < min bid.remainingQuantity_ ask.remainingQuantity_ := lt_min hbid.1 hask.1
    intro s p y hy
    rw [hround, level_onOrderMatched, level_onOrderMatched] at hy
    rcases mem_level_fillFront hy with hy | ⟨p0, o, rest, tl, hs, hne, rfl⟩
    · rcases mem_level_fillFront hy with hy | ⟨p0, o, rest, tl, hs, hne, rfl⟩
      · exact h s p y hy
      · simp only [sideOf_buy, hb, List.cons.injEq, Prod.mk.injEq] at hs
        obtain ⟨⟨_, rfl, _⟩, _⟩ := hs
        exact positive_lower hbid hq (min_le_left _ _) hne
    · rw [sideOf_fillFront_other (by decide)] at hs
      simp only [sideOf_sell, ha, List.cons.injEq, Prod.mk.injEq] at hs
      obtain ⟨⟨_, rfl, _⟩, _⟩ := hs
      exact positive_lower hask hq (min_le_right _ _) hne
  · rw [afterRound_of_not hf]; exact h

theorem sweep_positive {b : OrderBook} (h : Positive b) : Positive (sweep b) := by
  unfold Positive
  rw [level_sweep]
  exact h

theorem cancel_positive {b b' : OrderBook} {i : OrderId} (hwf : WF b) (h : Positive b)
    (hc : CancelOrder b i = .ok b') : Positive b' := by
  unfold CancelOrder at hc
  cases ho : find i b.orders_ with
  | none =>
    rw [CancelOrderInternal_absent ho] at hc
    cases hc; exact h
  | some o =>
    obtain ⟨b0, hb0, heff⟩ := CancelOrderInternal_resting hwf ho
    rw [hb0] at hc
    cases hc
    intro s p y hy
    rw [heff.level_eq] at hy
    split_ifs at hy
    · exact h s p y (List.mem_filter.mp hy).1
    · exact h s p y hy

theorem inserted_positive {b : OrderBook} (h : Positive b) {o : Order}
    (ho : 0 < o.remainingQuantity_ ∧ o.remainingQuantity_ ≤ o.initialQuantity_) :
    Positive (inserted b o) := by
  intro s p y hy
  rw [level_inserted] at hy
  split_ifs at hy
  · rcases List.mem_append.mp hy with hy | hy
    · exact h s p y hy
    · have : y = o := by simpa using hy
      rw [this]; exact ho
  · exact h s p y hy

theorem AddOrder_positive {b b' : OrderBook} {o : Order} {trades : Trades} (hinv : Inv b)
    (h : Positive b) (ho : 0 < o.remainingQuantity_ ∧ o.remainingQuantity_ ≤ o.initialQuantity_)
    (hadd : AddOrder b o = .ok (trades, b')) : Positive b' := by
  rcases AddOrder_cases hadd with ⟨_, rfl⟩ | ⟨o', hfresh, _, _, hi, hr, _, _, _, _, hins⟩
  · exact h
  · rw [insertAndMatch_eq] at hins
    have ho' : 0 < o'.remainingQuantity_ ∧ o'.remainingQuantity_ ≤ o'.initialQuantity_ := by
      rw [hi, hr]; exact ho
    have hP : Positive (onOrderAdded (inserted b o') o') := by
      unfold Positive
      rw [level_onOrderAdded]
      exact inserted_positive h ho'
    exact MatchOrders_induct Positive (fun _ => afterRound_positive) (fun _ => sweep_positive)
      (fun x i x' hwf hx hc => cancel_positive hwf hx hc)
      (WF_onOrderAdded (inserted_WF hinv.wf hfresh) o')
      (WF_nonEmpty_onOrderAdded (inserted_nonEmpty hinv.nonEmpty o') o') hins hP

theorem ReachablePositive.reachable {b : OrderBook} (h : ReachablePositive b) : Reachable b := by
  induction h with
  | empty => exact Reachable.empty
  | add _ _ _ hadd ih => exact Reachable.add ih hadd
  | cancel _ hc ih => exact Reachable.cancel ih hc
  | modify _ _ hm ih => exact Reachable.modify ih hm

theorem ReachablePositive.positive {b : OrderBook} (h : ReachablePositive b) : Positive b := by
  induction h with
  | empty =>
    intro s p y hy
    cases s <;> simp [level, sideOf, OrderBook.empty] at hy
  | add hb hpos hle hadd ih => exact AddOrder_positive hb.reachable.inv ih ⟨hpos, hle⟩ hadd
  | cancel hb hc ih => exact cancel_positive hb.reachable.inv.wf ih hc
  | @modify b b' m trades hb hq hm ih =>
    unfold ModifyOrder at hm
    cases hfind : find m.orderId_ b.orders_ with
    | none =>
      rw [hfind] at hm
      cases hm; exact ih
    | some x =>
      rw [hfind] at hm
      simp only at hm
      obtain ⟨b1, hb1, hinv1⟩ := CancelOrder_ok hb.reachable.inv m.orderId_
      rw [hb1] at hm
      simp only at hm
      exact AddOrder_positive hinv1 (cancel_positive hb.reachable.inv.wf ih hb1)
        ⟨hq, le_refl _⟩ hm

/-- C20: in every book reachable by `AddOrder`, `CancelOrder` and `ModifyOrder`
calls whose orders all have a positive quantity, every order queued in a side
index and every order held by the locator has `0 < remaining ≤ initial`; so no
order with remaining quantity 0 is in the locator or in a queue. -/
theorem C20_resting_orders_are_open (b : OrderBook) (h : ReachablePositive b) :
    (∀ s p l, (p, l) ∈ sideOf b s → ∀ y ∈ l,
      0 < y.remainingQuantity_ ∧ y.remainingQuantity_ ≤ y.initialQuantity_) ∧
    (∀ orderId y, find orderId b.orders_ = some y →
      0 < y.remainingQuantity_ ∧ y.remainingQuantity_ ≤ y.initialQuantity_) ∧
    (∀ s p l, (p, l) ∈ sideOf b s → ∀ y ∈ l, y.remainingQuantity_ ≠ 0) ∧
    (∀ orderId y, find orderId b.orders_ = some y → y.remainingQuantity_ ≠ 0) := by
  have hwf := h.reachable.inv.wf
  have hpos := h.positive
  have h1 : ∀ s p l, (p, l) ∈ sideOf b s → ∀ y ∈ l,
      0 < y.remainingQuantity_ ∧ y.remainingQuantity_ ≤ y.initialQuantity_ := by
    intro s p l hm y hy
    exact hpos s p y (by rw [level_of_mem_side hwf hm]; exact hy)
  have h2 : ∀ orderId y, find orderId b.orders_ = some y →
      0 < y.remainingQuantity_ ∧ y.remainingQuantity_ ≤ y.initialQuantity_ := by
    intro orderId y hy
    exact hpos _ _ y (hwf.consistent.orders_ok orderId y hy).2
  exact ⟨h1, h2, fun s p l hm y hy => ne_of_gt (h1 s p l hm y hy).1,
    fun orderId y hy => ne_of_gt (h2 orderId y hy).1⟩

theorem staleAggregate_positive : ReachablePositive staleAggregate :=
  @ReachablePositive.add loneAsk staleAggregate (Order.new OrderType.GoodTillCancel 2 Side.Buy 101 5)
    [{ bidTrade_ := { orderId_ := 2, price_ := 101, quantity_ := 5 },
       askTrade_ := { orderId_ := 1, price_ := 100, quantity_ := 5 } }]
    (@ReachablePositive.add OrderBook.empty loneAsk
      (Order.new OrderType.GoodTillCancel 1 Side.Sell 100 10) []
      ReachablePositive.empty (by decide) (by decide) rfl)
    (by decide) (by decide) rfl

/-- C20 at the book after Sell GoodTillCancel id 1 (10 at 100) and Buy
GoodTillCancel id 2 (5 at 101): order 1 rests with 5 of 10, and order 2, whose
remaining quantity reached 0, is in no index. -/
theorem C20_resting_orders_are_open_witness :
    ((∀ s p l, (p, l) ∈ sideOf staleAggregate s → ∀ y ∈ l,
      0 < y.remainingQuantity_ ∧ y.remainingQuantity_ ≤ y.initialQuantity_) ∧
    (∀ orderId y, find orderId staleAggregate.orders_ = some y →
      0 < y.remainingQuantity_ ∧ y.remainingQuantity_ ≤ y.initialQuantity_) ∧
    (∀ s p l, (p, l) ∈ sideOf staleAggregate s → ∀ y ∈ l, y.remainingQuantity_ ≠ 0) ∧
    (∀ orderId y, find orderId staleAggregate.orders_ = some y → y.remainingQuantity_ ≠ 0)) ∧
    find 2 staleAggregate.orders_ = none ∧ staleAggregate.bids_ = [] :=
  ⟨C20_resting_orders_are_open staleAggregate staleAggregate_positive, rfl, rfl⟩

/-! ## What `canFullyFill` computes -/

theorem Reachable.afterAdd {b : OrderBook} (h : Reachable b) (o : Order) :
    Reachable (afterAdd b o) := by
  unfold OrderBook.afterAdd
  cases hadd : AddOrder b o with
  | error e => exact h
  | ok r =>
    obtain ⟨t, b'⟩ := r
    exact Reachable.add h hadd

theorem Reachable.afterCancel {b : OrderBook} (h : Reachable b) (i : OrderId) :
    Reachable (afterCancel b i) := by
  unfold OrderBook.afterCancel
  cases hc : CancelOrder b i with
  | error e => exact h
  | ok b' => exact Reachable.cancel h hc

theorem underCounted_reachable : Reachable underCounted :=
  (((loneAsk_reachable.afterAdd (Order.new OrderType.GoodTillCancel 2 Side.Sell 100 10)).afterAdd
    (Order.new OrderType.GoodTillCancel 3 Side.Buy 100 4)).afterCancel 1 :)

/-- The range of `canFullyFill`, spelled out: between the opposite best and the
limit price, both included. -/
theorem inRange_iff (side : Side) (price t levelPrice : Price) :
    inRange side price (some t) levelPrice = true ↔
      (side = Side.Buy ∧ t ≤ levelPrice ∧ levelPrice ≤ price) ∨
      (side = Side.Sell ∧ price ≤ levelPrice ∧ levelPrice ≤ t) := by
  cases side <;> simp [inRange, not_lt]
  tauto

/-- The walk of `canFullyFill` over entries whose quantities are non-negative
where it does not skip them: it succeeds exactly when their sum covers the
requested quantity. -/
theorem canFullyFillWalk_eq (side : Side) (price : Price) (threshold : Option Price) :
    ∀ (data : List (Price × LevelData)) (quantity : Quantity), 0 < quantity →
      (∀ e ∈ data, inRange side price threshold e.1 = true → 0 ≤ e.2.quantity_) →
      (canFullyFillWalk side price threshold quantity data = true ↔
        quantity ≤ ((data.filter (fun e => inRange side price threshold e.1)).map
          (fun e => e.2.quantity_)).sum) := by
  intro data
  induction data with
  | nil =>
    intro quantity hq _
    simp only [canFullyFillWalk, List.filter_nil, List.map_nil, List.sum_nil]
    constructor
    · intro h; cases h
    · intro h; exact absurd hq (not_lt.mpr h)
  | cons e data ih =>
    intro quantity hq hnn
    obtain ⟨levelPrice, levelData⟩ := e
    have hnn' : ∀ e ∈ data, inRange side price threshold e.1 = true → 0 ≤ e.2.quantity_ :=
      fun e he => hnn e (List.mem_cons_of_mem _ he)
    by_cases h1 : (threshold.isSome ∧ (side = Side.Buy ∧ threshold.getD 0 > levelPrice)) ∨
        (side = Side.Sell ∧ threshold.getD 0 < levelPrice)
    · have hr : inRange side price threshold levelPrice = false := by
        simp only [inRange, h1, decide_True, Bool.not_true, Bool.false_and]
      rw [canFullyFillWalk, if_pos h1, List.filter_cons, hr]
      exact ih quantity hq hnn'
    · by_cases h2 : (side = Side.Buy ∧ levelPrice > price) ∨ (side = Side.Sell ∧ levelPrice < price)
      · have hr : inRange side price threshold levelPrice = false := by
          simp only [inRange, h2, decide_True, Bool.not_true, Bool.and_false]
        rw [canFullyFillWalk, if_neg h1, if_pos h2, List.filter_cons, hr]
        exact ih quantity hq hnn'
      · have hr : inRange side price threshold levelPrice = true := by
          simp only [inRange, h1, h2, decide_False, Bool.not_false, Bool.and_self]
        have hv : 0 ≤ levelData.quantity_ := hnn (levelPrice, levelData) (List.mem_cons_self _ _) hr
        have hrest : 0 ≤ ((data.filter (fun e => inRange side price threshold e.1)).map
            (fun e => e.2.quantity_)).sum := by
          apply List.sum_nonneg
          intro x hx
          obtain ⟨e, he, rfl⟩ := List.mem_map.mp hx
          exact hnn' e (List.mem_filter.mp he).1 (List.mem_filter.mp he).2
        rw [canFullyFillWalk, if_neg h1, if_neg h2, List.filter_cons, hr]
        simp only [if_true, List.map_cons, List.sum_cons]
        by_cases h3 : quantity ≤ levelData.quantity_
        · rw [if_pos h3]
          simp only [true_iff]
          exact le_trans h3 (le_add_of_nonneg_right hrest)
        · rw [if_neg h3, ih (quantity - levelData.quantity_) (sub_pos.mpr (not_le.mp h3)) hnn']
          exact sub_le_iff_le_add'

theorem canFullyFill_eq (b : OrderBook) (side : Side) (price : Price) (quantity : Quantity) :
    canFullyFill b side price quantity =
      (canMatch b side price &&
        canFullyFillWalk side price (oppositeBest b side) quantity b.data_) := by
  unfold canFullyFill oppositeBest
  cases canMatch b side price <;> simp

/-- C19 as the code has it: on every book, for a positive quantity, when the
level-aggregate entries priced between the opposite best and the limit price
(both included) have non-negative quantities, `canFullyFill` is true exactly
when `canMatch` holds and the sum of those level-aggregate quantities is at
least the quantity; in particular it is false when that sum is the quantity
minus one. -/
theorem C19_canFullyFill_reads_aggregate (b : OrderBook) (side : Side) (price : Price)
    (quantity : Quantity) (hq : 0 < quantity)
    (hnn : ∀ e ∈ b.data_, inRange side price (oppositeBest b side) e.1 = true →
      0 ≤ e.2.quantity_) :
    (canFullyFill b side price quantity = true ↔
      (canMatch b side price = true ∧ quantity ≤ aggregateInRange b side price)) ∧
    (aggregateInRange b side price = quantity - 1 → canFullyFill b side price quantity = false) ∧
    (∀ t levelPrice, oppositeBest b side = some t →
      (inRange side price (oppositeBest b side) levelPrice = true ↔
        (side = Side.Buy ∧ t ≤ levelPrice ∧ levelPrice ≤ price) ∨
        (side = Side.Sell ∧ price ≤ levelPrice ∧ levelPrice ≤ t))) := by
  have hiff : canFullyFill b side price quantity = true ↔
      (canMatch b side price = true ∧ quantity ≤ aggregateInRange b side price) := by
    rw [canFullyFill_eq, Bool.and_eq_true,
      canFullyFillWalk_eq side price (oppositeBest b side) b.data_ quantity hq hnn]
    rfl
  refine ⟨hiff, ?_, ?_⟩
  · intro hsum
    cases hc : canFullyFill b side price quantity with
    | false => rfl
    | true =>
      have := (hiff.mp hc).2
      rw [hsum] at this
      exact absurd this (not_le.mpr (sub_one_lt quantity))
  · intro t levelPrice ht
    rw [ht]
    exact inRange_iff side price t levelPrice

/-- C19 as the code has it, at the lone ask of 10 at 100 (aggregate 10 at 100):
a Buy of 10 at 100 can be fully filled, a Buy of 11 at 100 cannot. -/
theorem C19_canFullyFill_reads_aggregate_witness :
    canFullyFill loneAsk Side.Buy 100 10 = true ∧ canFullyFill loneAsk Side.Buy 100 11 = false :=
  ⟨(C19_canFullyFill_reads_aggregate loneAsk Side.Buy 100 10 (by decide) (by decide)).1.mpr
      ⟨rfl, by decide⟩,
   (C19_canFullyFill_reads_aggregate loneAsk Side.Buy 100 11 (by decide) (by decide)).2.1 rfl⟩

/-- C19 as stated fails: in the reachable book `underCounted` the asks at or
below 100 have 10 remaining in total, which covers a Buy of 8 at 100, yet
`canFullyFill` is false, because the level aggregate at 100 holds 6. -/
theorem C19_canFullyFill_not_remaining :
    Reachable underCounted ∧
    availableRemaining underCounted Side.Buy 100 = 10 ∧
    find 100 underCounted.data_ = some { quantity_ := 6, count_ := 1 } ∧
    ¬ (canFullyFill underCounted Side.Buy 100 8 = true ↔
        (8 : Quantity) ≤ availableRemaining underCounted Side.Buy 100) := by
  refine ⟨underCounted_reachable, rfl, rfl, ?_⟩
  decide

/-! ## Legs of trades -/

theorem LegsOf.nil : LegsOf [] [] := ⟨rfl, rfl⟩

theorem LegsOf.single (r : Order) (q : Quantity) :
    LegsOf [r] [{ orderId_ := r.orderId_, price_ := r.price_, quantity_ := q }] := ⟨rfl, rfl⟩

theorem LegsOf.length_eq {R : OrderPointers} {legs : List TradeInfo} (h : LegsOf R legs) :
    legs.length = R.length := by
  have := congrArg List.length h.1
  simpa using this

theorem LegsOf.cons_full {R : OrderPointers} {legs : List TradeInfo} (h : LegsOf R legs)
    (r : Order) : LegsOf (r :: R) (fullLeg r :: legs) := by
  have hlen := h.length_eq
  obtain ⟨h1, h2⟩ := h
  refine ⟨by simp [fullLeg, h1], ?_⟩
  cases legs with
  | nil =>
    cases R with
    | nil => rfl
    | cons r2 R => simp at hlen
  | cons l legs =>
    cases R with
    | nil => simp at hlen
    | cons r2 R =>
      simp only [List.dropLast_cons₂, List.map_cons] at h2 ⊢
      rw [h2]

theorem LegsOf.of_full (R : OrderPointers) : LegsOf R (R.map fullLeg) := by
  induction R with
  | nil => exact LegsOf.nil
  | cons r R ih => exact ih.cons_full r

theorem LegsOf.append_full {R : OrderPointers} {legs : List TradeInfo} (h : LegsOf R legs)
    (F : OrderPointers) : LegsOf (F ++ R) (F.map fullLeg ++ legs) := by
  induction F with
  | nil => exact h
  | cons r F ih => exact ih.cons_full r

/-! ## A round of the inner loop seen from the incoming order's side -/

@[simp] theorem opposite_buy : opposite Side.Buy = Side.Sell := rfl
@[simp] theorem opposite_sell : opposite Side.Sell = Side.Buy := rfl

theorem opposite_ne (s : Side) : opposite s ≠ s := by
  cases s <;> simp

/-- One round of the inner loop when side `s` has front order `a` and the
opposite side has front order `r`: the trade's two legs, the unfolding of the
loop, and the two first levels afterwards. -/
theorem round_of_side {x : OrderBook} {s : Side} {p pr : Price} {a r : Order}
    {al rl : OrderPointers} {B T : List (Price × OrderPointers)}
    (hown : sideOf x s = (p, a :: al) :: B)
    (hopp : sideOf x (opposite s) = (pr, r :: rl) :: T) :
    ∃ tr : Trade,
      restingLeg s tr = { orderId_ := r.orderId_, price_ := r.price_,
                          quantity_ := min a.remainingQuantity_ r.remainingQuantity_ } ∧
      incomingLeg s tr = { orderId_ := a.orderId_, price_ := a.price_,
                           quantity_ := min a.remainingQuantity_ r.remainingQuantity_ } ∧
      (∀ fuel, matchLevel (fuel + 1) x =
        match matchLevel fuel (afterRound x) with
        | .error e => .error e
        | .ok (ts, x') => .ok (tr :: ts, x')) ∧
      sideOf (afterRound x) s =
        (p, if a.remainingQuantity_ - min a.remainingQuantity_ r.remainingQuantity_ = 0 then al
            else { a with remainingQuantity_ :=
                    (a.remainingQuantity_ - min a.remainingQuantity_ r.remainingQuantity_) } :: al)
          :: B ∧
      sideOf (afterRound x) (opposite s) =
        (pr, if r.remainingQuantity_ - min a.remainingQuantity_ r.remainingQuantity_ = 0 then rl
             else { r with remainingQuantity_ :=
                    (r.remainingQuantity_ - min a.remainingQuantity_ r.remainingQuantity_) } :: rl)
          :: T := by
  cases s with
  | Buy =>
    simp only [sideOf_buy, opposite_buy, sideOf_sell] at hown hopp ⊢
    exact ⟨roundTrade a r, rfl, rfl, fun fuel => matchLevel_succ fuel x hown hopp,
      afterRound_bids hown hopp, afterRound_asks hown hopp⟩
  | Sell =>
    simp only [sideOf_buy, opposite_sell, sideOf_sell] at hown hopp ⊢
    refine ⟨roundTrade r a, ?_, ?_, fun fuel => matchLevel_succ fuel x hopp hown, ?_, ?_⟩
    · simp only [restingLeg, roundTrade, min_comm]
    · simp only [incomingLeg, roundTrade, min_comm]
    · rw [afterRound_asks hopp hown, min_comm]
    · rw [afterRound_bids hopp hown, min_comm]

theorem not_bothFronts_of_empty {x : OrderBook} {s : Side} {p : Price}
    {B : List (Price × OrderPointers)} (h : sideOf x s = (p, []) :: B) : ¬ BothFronts x := by
  rintro ⟨bidPrice, bid, bids, restBids, askPrice, ask, asks, restAsks, hb, ha⟩
  cases s with
  | Buy => simp only [sideOf_buy] at h; rw [hb] at h; simp at h
  | Sell => simp only [sideOf_sell] at h; rw [ha] at h; simp at h

/-- The inner loop when the incoming order `a` is alone at the first level of
its side and the first level of the opposite side queues `rl`.  Either the
incoming order outlasts the level, every order of `rl` being filled completely
in turn, or the incoming order is used up, the legs being those of a beginning
of `rl` with every order but the last filled completely.  Every trade has the
incoming order as its other leg. -/
theorem matchLevel_incoming {s : Side} {p pr : Price} {B T : List (Price × OrderPointers)} :
    ∀ (fuel : Nat) (rl : OrderPointers) (x : OrderBook) (a : Order) (ts : Trades)
      (x1 : OrderBook),
      sideOf x s = (p, [a]) :: B → sideOf x (opposite s) = (pr, rl) :: T →
      matchLevel fuel x = .ok (ts, x1) →
      (∀ t ∈ ts, (incomingLeg s t).orderId_ = a.orderId_ ∧ (incomingLeg s t).price_ = a.price_) ∧
      ((∃ a', a'.orderId_ = a.orderId_ ∧ a'.price_ = a.price_ ∧
          sideOf x1 s = (p, [a']) :: B ∧ sideOf x1 (opposite s) = (pr, []) :: T ∧
          ts.map (restingLeg s) = rl.map fullLeg) ∨
       (sideOf x1 s = (p, []) :: B ∧ (∃ rl', sideOf x1 (opposite s) = (pr, rl') :: T) ∧
          ∃ R1 R2, rl = R1 ++ R2 ∧ LegsOf R1 (ts.map (restingLeg s)))) := by
  intro fuel
  induction fuel with
  | zero =>
    intro rl x a ts x1 hown hopp hm
    cases rl with
    | nil =>
      have hnf : ¬ BothFronts x := not_bothFronts_of_empty hopp
      rw [matchLevel_done hnf] at hm
      cases hm
      exact ⟨by simp, Or.inl ⟨a, rfl, rfl, hown, hopp, rfl⟩⟩
    | cons r rl =>
      obtain ⟨tr, _, _, hstep, _, _⟩ := round_of_side hown hopp
      have hbf : BothFronts x := by
        by_contra hnf
        have h1 := hstep 0
        rw [matchLevel_done hnf, matchLevel_done (by rw [afterRound_of_not hnf]; exact hnf)] at h1
        cases h1
      rw [matchLevel_zero hbf] at hm
      cases hm
  | succ fuel ih =>
    intro rl x a ts x1 hown hopp hm
    cases rl with
    | nil =>
      have hnf : ¬ BothFronts x := not_bothFronts_of_empty hopp
      rw [matchLevel_done hnf] at hm
      cases hm
      exact ⟨by simp, Or.inl ⟨a, rfl, rfl, hown, hopp, rfl⟩⟩
    | cons r rl =>
      obtain ⟨tr, hrest, hinc, hstep, hown', hopp'⟩ := round_of_side hown hopp
      rw [hstep fuel] at hm
      cases hlev : matchLevel fuel (afterRound x) with
      | error e => rw [hlev] at hm; cases hm
      | ok res =>
        obtain ⟨ts2, x2⟩ := res
        rw [hlev] at hm
        obtain ⟨rfl, rfl⟩ : tr :: ts2 = ts ∧ x2 = x1 := by simpa using hm
        by_cases hfa : a.remainingQuantity_ - min a.remainingQuantity_ r.remainingQuantity_ = 0
        · rw [if_pos hfa] at hown'
          have hnf : ¬ BothFronts (afterRound x) := not_bothFronts_of_empty hown'
          rw [matchLevel_done hnf] at hlev
          obtain ⟨rfl, rfl⟩ : [] = ts2 ∧ afterRound x = x2 := by simpa using hlev
          refine ⟨?_, Or.inr ⟨hown', ⟨_, hopp'⟩, [r], rl, rfl, ?_⟩⟩
          · intro t ht
            simp only [List.mem_singleton] at ht
            subst ht
            rw [hinc]; exact ⟨rfl, rfl⟩
          · simp only [List.map_cons, List.map_nil, hrest]
            exact LegsOf.single r _
        · rw [if_neg hfa] at hown'
          have hq : min a.remainingQuantity_ r.remainingQuantity_ = r.remainingQuantity_ := by
            rcases min_choice a.remainingQuantity_ r.remainingQuantity_ with h | h
            · rw [h] at hfa; exact absurd (sub_self _) hfa
            · exact h
          have hfr : r.remainingQuantity_ - min a.remainingQuantity_ r.remainingQuantity_ = 0 := by
            rw [hq]; exact sub_self _
          rw [if_pos hfr] at hopp'
          have hfull : restingLeg s tr = fullLeg r := by rw [hrest, hq]; rfl
          obtain ⟨hinc2, hcase⟩ := ih rl (afterRound x) _ ts2 x2 hown' hopp' hlev
          refine ⟨?_, ?_⟩
          · intro t ht
            rcases List.mem_cons.mp ht with rfl | ht
            · rw [hinc]; exact ⟨rfl, rfl⟩
            · exact hinc2 t ht
          · rcases hcase with ⟨a', hid, hpr, h1, h2, h3⟩ | ⟨h1, h2, R1, R2, hsplit, hlegs⟩
            · exact Or.inl ⟨a', hid, hpr, h1, h2, by simp only [List.map_cons, hfull, h3]⟩
            · refine Or.inr ⟨h1, h2, r :: R1, R2, by rw [hsplit]; rfl, ?_⟩
              simp only [List.map_cons, hfull]
              exact hlegs.cons_full r

/-! ## The outer loop with an incoming order -/

theorem not_crossing_of_apart {y : OrderBook} {s : Side}
    (h : Apart s (sideOf y s) (sideOf y (opposite s))) : ¬ Crossing y := by
  rintro ⟨bidPrice, bids, restBids, askPrice, asks, restAsks, hb, ha, hlt⟩
  have hkb : bidPrice ∈ keys y.bids_ := by rw [hb]; simp [keys]
  have hka : askPrice ∈ keys y.asks_ := by rw [ha]; simp [keys]
  cases s with
  | Buy => exact hlt (h bidPrice hkb askPrice hka)
  | Sell => exact hlt (h askPrice hka bidPrice hkb)

theorem apart_of_uncrossed {b : OrderBook} (h : Uncrossed b) (s : Side) :
    Apart s (sideOf b s) (sideOf b (opposite s)) := by
  intro ko hko kp hkp
  cases s with
  | Buy => exact h ko hko kp hkp
  | Sell => exact h kp hkp ko hko

theorem side_ne_nil_of_crossing {x : OrderBook} (h : Crossing x) (s : Side) : sideOf x s ≠ [] := by
  obtain ⟨bidPrice, bids, restBids, askPrice, asks, restAsks, hb, ha, _⟩ := h
  cases s with
  | Buy => simp [hb]
  | Sell => simp [ha]

theorem sorted_of_keys_eq {V : Type} {s : Side} {m m' : List (Int × V)} (h : SortedBy s m)
    (hk : keys m' = keys m) : SortedBy s m' := by
  unfold SortedBy; rw [hk]; exact h

/-- The outer loop when the incoming order `a` is alone at the first level of
its side, the rest `B` of its side is apart from the opposite side `O`, and
both sides are ordered: every trade has the incoming order as one leg, and the
other legs are those of a beginning of the queue order of `O`, each order but
the last being filled completely. -/
theorem matchLoop_incoming {s : Side} {p : Price} {B : List (Price × OrderPointers)} :
    ∀ (fuel : Nat) (O : List (Price × OrderPointers)) (x : OrderBook) (a : Order)
      (trades : Trades) (x1 : OrderBook),
      sideOf x s = (p, [a]) :: B → sideOf x (opposite s) = O →
      SortedBy s ((p, [a]) :: B) → SortedBy (opposite s) O → Apart s B O →
      matchLoop fuel x = .ok (trades, x1) →
      (∀ t ∈ trades,
        (incomingLeg s t).orderId_ = a.orderId_ ∧ (incomingLeg s t).price_ = a.price_) ∧
      ∃ R1 R2, queued O = R1 ++ R2 ∧ LegsOf R1 (trades.map (restingLeg s)) := by
  intro fuel
  induction fuel with
  | zero =>
    intro O x a trades x1 hown hopp hsB hsO hap hm
    by_cases hc : Crossing x
    · rw [matchLoop_zero hc] at hm; cases hm
    · rw [matchLoop_done hc] at hm
      obtain ⟨rfl, rfl⟩ : [] = trades ∧ x = x1 := by simpa using hm
      exact ⟨by simp, [], queued O, rfl, LegsOf.nil⟩
  | succ fuel ih =>
    intro O x a trades x1 hown hopp hsB hsO hap hm
    by_cases hc : Crossing x
    · rw [matchLoop_succ fuel hc] at hm
      cases hlev : matchLevel (headLen x.bids_ + headLen x.asks_) x with
      | error e => rw [hlev] at hm; cases hm
      | ok res =>
        obtain ⟨ts, xm⟩ := res
        rw [hlev] at hm
        simp only at hm
        cases hloop : matchLoop fuel (sweep xm) with
        | error e => rw [hloop] at hm; cases hm
        | ok res2 =>
          obtain ⟨ts', x2⟩ := res2
          rw [hloop] at hm
          obtain ⟨rfl, rfl⟩ : ts ++ ts' = trades ∧ x2 = x1 := by simpa using hm
          cases hO : O with
          | nil => exact absurd (by rw [hopp, hO]) (side_ne_nil_of_crossing hc (opposite s))
          | cons e T =>
            obtain ⟨pr, rl⟩ := e
            rw [hO] at hopp hsO hap
            obtain ⟨hinc, hcase⟩ := matchLevel_incoming _ rl x a ts xm hown hopp hlev
            rcases hcase with ⟨a', hid, hpr, h1, h2, h3⟩ | ⟨h1, ⟨rl', h2⟩, R1, R2, hsplit, hlegs⟩
            · have hown2 : sideOf (sweep xm) s = (p, [a']) :: B := by
                rw [sideOf_sweep, h1]; rfl
              have hsT : SortedBy (opposite s) ((pr, ([] : OrderPointers)) :: T) :=
                sorted_of_keys_eq hsO rfl
              have hopp2 : sideOf (sweep xm) (opposite s) = T := by
                rw [sideOf_sweep, h2, eraseIfEmpty_empty, sorted_erase_head hsT]
              have hap2 : Apart s B T := fun ko hko kp hkp =>
                hap ko hko kp (by simp only [keys, List.map_cons, List.mem_cons]; exact Or.inr hkp)
              obtain ⟨hinc2, R1', R2', hq, hlegs'⟩ := ih T (sweep xm) a' ts' x2 hown2 hopp2
                (sorted_of_keys_eq hsB rfl) (sorted_tail hsO) hap2 hloop
              refine ⟨?_, rl ++ R1', R2', ?_, ?_⟩
              · intro t ht
                rcases List.mem_append.mp ht with ht | ht
                · exact hinc t ht
                · rw [← hid, ← hpr]; exact hinc2 t ht
              · simp only [queued, hq, List.append_assoc]
              · rw [List.map_append, h3]
                exact hlegs'.append_full rl
            · have hsB0 : SortedBy s ((p, ([] : OrderPointers)) :: B) := sorted_of_keys_eq hsB rfl
              have hown2 : sideOf (sweep xm) s = B := by
                rw [sideOf_sweep, h1, eraseIfEmpty_empty, sorted_erase_head hsB0]
              have hap2 : Apart s (sideOf (sweep xm) s) (sideOf (sweep xm) (opposite s)) := by
                rw [hown2]
                intro ko hko kp hkp
                rw [sideOf_sweep, h2] at hkp
                have hkp' := keys_eraseIfEmpty_subset _ kp hkp
                exact hap ko hko kp hkp'
              rw [matchLoop_done (not_crossing_of_apart hap2)] at hloop
              obtain ⟨rfl, rfl⟩ : [] = ts' ∧ sweep xm = x2 := by simpa using hloop
              refine ⟨?_, R1, R2 ++ queued T, ?_, ?_⟩
              · intro t ht
                rw [List.append_nil] at ht
                exact hinc t ht
              · simp only [queued, hsplit, List.append_assoc]
              · rw [List.append_nil]; exact hlegs
    · rw [matchLoop_done hc] at hm
      obtain ⟨rfl, rfl⟩ : [] = trades ∧ x = x1 := by simpa using hm
      exact ⟨by simp, [], queued O, rfl, LegsOf.nil⟩

/-- The queue order of a side index lists prices best first: of two queued
orders, the earlier has the same price as the later or a better one. -/
theorem queued_prices_sorted {s : Side} {m : List (Price × OrderPointers)} (hs : SortedBy s m)
    (h : ∀ p l, (p, l) ∈ m → ∀ x ∈ l, x.price_ = p) :
    (queued m).Pairwise (fun x y => x.price_ = y.price_ ∨ sideRel s x.price_ y.price_) := by
  induction m with
  | nil => exact List.Pairwise.nil
  | cons e m ih =>
    obtain ⟨k, l⟩ := e
    simp only [queued]
    rw [List.pairwise_append]
    refine ⟨?_, ih (sorted_tail hs) (fun p l' hm => h p l' (List.mem_cons_of_mem _ hm)), ?_⟩
    · rw [List.pairwise_iff_forall_sublist]
      intro x y hxy
      left
      have hx := h k l (List.mem_cons_self _ _) x (hxy.subset (by simp))
      have hy := h k l (List.mem_cons_self _ _) y (hxy.subset (by simp))
      rw [hx, hy]
    · intro x hx y hy
      right
      obtain ⟨p', l', hm, hyl⟩ := mem_queued.mp hy
      rw [h k l (List.mem_cons_self _ _) x hx, h p' l' (List.mem_cons_of_mem _ hm) y hyl]
      exact (sorted_cons_iff.mp hs).1 p' (List.mem_map_of_mem Prod.fst hm)

/-- A book in which an order that cannot match has just been inserted is not
crossing. -/
theorem inserted_not_crossing {b : OrderBook} (h : Inv b) {o : Order}
    (hc : canMatch b o.side_ o.price_ = false) :
    ¬ Crossing (onOrderAdded (inserted b o) o) := by
  apply not_crossing_of_apart (s := o.side_)
  rw [sideOf_onOrderAdded, sideOf_onOrderAdded, sideOf_inserted_other b o (opposite_ne o.side_)]
  intro ko hko kp hkp
  simp only [inserted, sideOf_setOrders, sideOf_setSide_same] at hko
  rcases (mem_keys_insert _ _ _ _ _).mp hko with rfl | hko
  · cases hs : o.side_ with
    | Buy =>
      rw [hs] at hc hkp
      simp only [opposite_buy, sideOf_sell] at hkp
      simp only [canMatch, if_true] at hc
      cases ha : b.asks_ with
      | nil => rw [ha] at hkp; simp [keys] at hkp
      | cons e tl =>
        obtain ⟨best, l⟩ := e
        rw [ha] at hc
        simp only [decide_eq_false_iff_not, not_le] at hc
        have hbest : bestAsk b = some best := by simp [bestAsk, ha]
        have := bestAsk_lowest h.wf hbest kp hkp
        simp only [sideRel]
        exact lt_of_lt_of_le hc this
    | Sell =>
      rw [hs] at hc hkp
      simp only [opposite_sell, sideOf_buy] at hkp
      simp only [canMatch, reduceCtorEq, if_false] at hc
      cases hb : b.bids_ with
      | nil => rw [hb] at hkp; simp [keys] at hkp
      | cons e tl =>
        obtain ⟨best, l⟩ := e
        rw [hb] at hc
        simp only [decide_eq_false_iff_not, not_le] at hc
        have hbest : bestBid b = some best := by simp [bestBid, hb]
        have := bestBid_highest h.wf hbest kp hkp
        simp only [sideRel]
        exact lt_of_le_of_lt this hc
  · exact apart_of_uncrossed h.uncrossed o.side_ ko hko kp hkp

/-! ## Arrival order inside a level -/

/-- A front fill removes the front order of a level or leaves the sequence of
ids at every level as it is. -/
theorem ids_fillFront (b : OrderBook) (s s' : Side) (q : Quantity) (p' : Price) :
    ((level (fillFront s q b) s' p').map Order.orderId_).Sublist
      ((level b s' p').map Order.orderId_) := by
  by_cases hshape : ∃ p o rest tl, sideOf b s = (p, o :: rest) :: tl
  · obtain ⟨p, o, rest, tl, hs⟩ := hshape
    by_cases hss : s' = s
    · subst hss
      have hside := sideOf_fillFront_same q hs
      simp only [level, hside, hs, find_cons]
      by_cases hp : p = p'
      · subst hp
        simp only [if_true, Option.getD_some]
        split_ifs with hf
        · simp only [List.map_cons]
          exact List.sublist_cons_self _ _
        · simp only [List.map_cons]
          exact List.Sublist.refl _
      · simp only [hp, if_false]
        exact List.Sublist.refl _
    · simp only [level, sideOf_fillFront_other hss]
      exact List.Sublist.refl _
  · rw [fillFront_none (fun p o rest tl hs => hshape ⟨p, o, rest, tl, hs⟩)]

theorem ids_afterRound (b : OrderBook) (s : Side) (p : Price) :
    ((level (afterRound b) s p).map Order.orderId_).Sublist ((level b s p).map Order.orderId_) := by
  by_cases hf : BothFronts b
  · obtain ⟨bidPrice, bid, bids, restBids, askPrice, ask, asks, restAsks, hb, ha⟩ := hf
    have hround : afterRound b =
        onOrderMatched (onOrderMatched
          (fillFront Side.Sell (min bid.remainingQuantity_ ask.remainingQuantity_)
            (fillFront Side.Buy (min bid.remainingQuantity_ ask.remainingQuantity_) b))
          bid.price_ (min bid.remainingQuantity_ ask.remainingQuantity_)
          (decide (bid.remainingQuantity_ - min bid.remainingQuantity_ ask.remainingQuantity_ = 0)))
          bid.price_ (min bid.remainingQuantity_ ask.remainingQuantity_)
          (decide (ask.remainingQuantity_ - min bid.remainingQuantity_ ask.remainingQuantity_ = 0)) := by
      unfold afterRound; rw [hb, ha]
    rw [hround, level_onOrderMatched, level_onOrderMatched]
    exact (ids_fillFront _ _ _ _ _).trans (ids_fillFront _ _ _ _ _)
  · rw [afterRound_of_not hf]

theorem ids_cancel {b b' : OrderBook} {i : OrderId} (hwf : WF b)
    (hc : CancelOrder b i = .ok b') (s : Side) (p : Price) :
    ((level b' s p).map Order.orderId_).Sublist ((level b s p).map Order.orderId_) := by
  unfold CancelOrder at hc
  cases ho : find i b.orders_ with
  | none =>
    rw [CancelOrderInternal_absent ho] at hc
    cases hc; exact List.Sublist.refl _
  | some o =>
    obtain ⟨b0, hb0, heff⟩ := CancelOrderInternal_resting hwf ho
    rw [hb0] at hc
    cases hc
    rw [heff.level_eq]
    split_ifs
    · exact List.Sublist.map _ (List.filter_sublist _)
    · exact List.Sublist.refl _

/-- The sequence of ids at every level after `MatchOrders` is a subsequence of
the one before: orders leave, none is added or moved. -/
theorem ids_MatchOrders {b b' : OrderBook} {trades : Trades} (hwf : WF b)
    (hne : LevelsNonEmpty b) (h : MatchOrders b = .ok (trades, b')) (s : Side) (p : Price) :
    ((level b' s p).map Order.orderId_).Sublist ((level b s p).map Order.orderId_) :=
  MatchOrders_induct
    (fun x => ((level x s p).map Order.orderId_).Sublist ((level b s p).map Order.orderId_))
    (fun x hx => (ids_afterRound x s p).trans hx)
    (fun x hx => by simp only [level_sweep]; exact hx)
    (fun x i x' hwfx hx hc => (ids_cancel hwfx hc s p).trans hx)
    hwf hne h (List.Sublist.refl _)

/-- The sequence of ids at every level after `AddOrder` is a subsequence of the
one before followed by the id of the added order: the orders that stay keep
their relative order and a new order goes behind all of them. -/
theorem ids_AddOrder {b b' : OrderBook} {o : Order} {trades : Trades} (hinv : Inv b)
    (hadd : AddOrder b o = .ok (trades, b')) (s : Side) (p : Price) :
    ((level b' s p).map Order.orderId_).Sublist
      ((level b s p).map Order.orderId_ ++ [o.orderId_]) := by
  rcases AddOrder_cases hadd with ⟨_, rfl⟩ | ⟨o', hfresh, hid, _, _, _, _, _, _, _, hins⟩
  · exact List.sublist_append_left _ _
  · rw [insertAndMatch_eq] at hins
    refine (ids_MatchOrders (WF_onOrderAdded (inserted_WF hinv.wf hfresh) o')
      (WF_nonEmpty_onOrderAdded (inserted_nonEmpty hinv.nonEmpty o') o') hins s p).trans ?_
    rw [level_onOrderAdded, level_inserted]
    split_ifs
    · rw [List.map_append, List.map_singleton, hid]
    · exact List.sublist_append_left _ _

theorem askAt101_reachable : Reachable askAt101 :=
  @Reachable.add OrderBook.empty askAt101 (Order.new OrderType.GoodTillCancel 1 Side.Sell 101 10) []
    Reachable.empty rfl

theorem twoAsks_reachable : Reachable twoAsks :=
  @Reachable.add askAt101 twoAsks (Order.new OrderType.GoodTillCancel 2 Side.Sell 100 5) []
    askAt101_reachable rfl

theorem threeAsks_reachable : Reachable threeAsks :=
  @Reachable.add twoAsks threeAsks (Order.new OrderType.GoodTillCancel 3 Side.Sell 100 5) []
    twoAsks_reachable rfl

/-- What `AddOrder` returns on a book that satisfies the invariant are trades
whose resting legs follow the queue order of the opposite side. -/
theorem AddOrder_legs {b b' : OrderBook} {o : Order} {trades : Trades} (hinv : Inv b)
    (hadd : AddOrder b o = .ok (trades, b')) :
    (∀ t ∈ trades, (incomingLeg o.side_ t).orderId_ = o.orderId_) ∧
    ∃ R1 R2, queued (sideOf b (opposite o.side_)) = R1 ++ R2 ∧
      LegsOf R1 (trades.map (restingLeg o.side_)) := by
  rcases AddOrder_cases hadd with ⟨rfl, _⟩ | ⟨o', hfresh, hid, hside, _, _, _, _, _, _, hins⟩
  · exact ⟨by simp, [], _, rfl, LegsOf.nil⟩
  · rw [insertAndMatch_eq] at hins
    have hwf := WF_onOrderAdded (inserted_WF hinv.wf hfresh) o'
    have hne := WF_nonEmpty_onOrderAdded (inserted_nonEmpty hinv.nonEmpty o') o'
    obtain ⟨ts, b1, b2, b3, hr, _, _, hm, _⟩ := MatchOrders_stages hwf hne
    rw [hm] at hins
    obtain ⟨rfl, rfl⟩ : ts = trades ∧ b3 = b' := by simpa using hins
    rw [← hside, ← hid]
    cases hc : canMatch b o'.side_ o'.price_ with
    | false =>
      rw [matchLoop_done (inserted_not_crossing hinv hc)] at hr
      obtain ⟨rfl, _⟩ : [] = ts ∧ _ = b1 := by simpa using hr
      exact ⟨by simp, [], _, rfl, LegsOf.nil⟩
    | true =>
      have hown : sideOf (onOrderAdded (inserted b o') o') o'.side_ =
          (o'.price_, [o']) :: sideOf b o'.side_ := by
        rw [sideOf_onOrderAdded]; exact sideOf_inserted_front hinv.uncrossed hc
      have hopp : sideOf (onOrderAdded (inserted b o') o') (opposite o'.side_) =
          sideOf b (opposite o'.side_) := by
        rw [sideOf_onOrderAdded]; exact sideOf_inserted_other b o' (opposite_ne _)
      have hsown : SortedBy o'.side_ ((o'.price_, [o']) :: sideOf b o'.side_) := by
        rw [← hown]; exact hwf.side_sorted _
      obtain ⟨hinc, hlegs⟩ := matchLoop_incoming _ _ _ o' ts b1 hown hopp hsown
        (hinv.wf.side_sorted _) (apart_of_uncrossed hinv.uncrossed _) hr
      exact ⟨fun t ht => (hinc t ht).1, hlegs⟩

/-! ## Price-time priority -/

/-- C13: on every reachable book `AddOrder` returns, and the trades it returns
follow price-time priority.  Let `R` be the orders resting on the side opposite
to the incoming order, read best level first and, inside a level, from the front
of its sequence.  (1) Every trade has the incoming order on its own side's leg.
(2) The resting legs of the trades are, one leg per order and in the same
sequence, those of a beginning `R1` of `R` (same id, same price), and every leg
but the last has the whole remaining quantity of its order: an order trades only
after every order ahead of it is completely filled.  (3) `R` lists prices best
first: of two orders of `R`, the earlier has the same price as the later or a
better one (lower for asks, higher for bids).  (4) The sequence of a level is in
arrival order: after the call the ids queued at any level are a subsequence of
the ids queued there before followed by the id of the incoming order, and a
`CancelOrder` leaves a subsequence too, so orders only leave a sequence or join
it at the back. -/
theorem C13_price_time_priority (b : OrderBook) (order : Order) (h : Reachable b) :
    ∃ trades b', AddOrder b order = .ok (trades, b') ∧
      (∀ t ∈ trades, (incomingLeg order.side_ t).orderId_ = order.orderId_) ∧
      (∃ R1 R2, queued (sideOf b (opposite order.side_)) = R1 ++ R2 ∧
        (trades.map (restingLeg order.side_)).map (fun t => (t.orderId_, t.price_)) =
          R1.map (fun r => (r.orderId_, r.price_)) ∧
        (trades.map (restingLeg order.side_)).dropLast = R1.dropLast.map fullLeg) ∧
      (queued (sideOf b (opposite order.side_))).Pairwise
        (fun x y => x.price_ = y.price_ ∨ sideRel (opposite order.side_) x.price_ y.price_) ∧
      (∀ s p, ((level b' s p).map Order.orderId_).Sublist
        ((level b s p).map Order.orderId_ ++ [order.orderId_])) ∧
      (∀ orderId b2, CancelOrder b orderId = .ok b2 →
        ∀ s p, ((level b2 s p).map Order.orderId_).Sublist ((level b s p).map Order.orderId_)) := by
  have hinv := h.inv
  obtain ⟨trades, b', hres, _⟩ := AddOrder_ok hinv order
  obtain ⟨hinc, R1, R2, hsplit, hlegs⟩ := AddOrder_legs hinv hres
  refine ⟨trades, b', hres, hinc, ⟨R1, R2, hsplit, hlegs.1, hlegs.2⟩, ?_, ids_AddOrder hinv hres, ?_⟩
  · apply queued_prices_sorted (hinv.wf.side_sorted _)
    intro p l hm x hx
    have hl := level_of_mem_side hinv.wf hm
    exact (hinv.wf.consistent.side_ok _ p x (by rw [hl]; exact hx)).2.1
  · intro orderId b2 hc s p
    exact ids_cancel hinv.wf hc s p

/-- C13 at the book with asks 2 and 3 (5 each at 100, 2 first) and ask 1 (10 at
101, the earliest order), for a Buy of 12 at 101: the trades are with 2, then
3, then 1, for 5, 5 and 2. -/
theorem C13_price_time_priority_witness :
    (AddOrder threeAsks (Order.new OrderType.GoodTillCancel 4 Side.Buy 101 12)).map Prod.fst =
      .ok [{ bidTrade_ := { orderId_ := 4, price_ := 101, quantity_ := 5 },
             askTrade_ := { orderId_ := 2, price_ := 100, quantity_ := 5 } },
           { bidTrade_ := { orderId_ := 4, price_ := 101, quantity_ := 5 },
             askTrade_ := { orderId_ := 3, price_ := 100, quantity_ := 5 } },
           { bidTrade_ := { orderId_ := 4, price_ := 101, quantity_ := 2 },
             askTrade_ := { orderId_ := 1, price_ := 101, quantity_ := 2 } }] ∧
    ∃ trades b', AddOrder threeAsks (Order.new OrderType.GoodTillCancel 4 Side.Buy 101 12) =
        .ok (trades, b') ∧
      (∀ t ∈ trades, (incomingLeg Side.Buy t).orderId_ = 4) ∧
      (∃ R1 R2, queued (sideOf threeAsks Side.Sell) = R1 ++ R2 ∧
        (trades.map (restingLeg Side.Buy)).map (fun t => (t.orderId_, t.price_)) =
          R1.map (fun r => (r.orderId_, r.price_)) ∧
        (trades.map (restingLeg Side.Buy)).dropLast = R1.dropLast.map fullLeg) ∧
      (queued (sideOf threeAsks Side.Sell)).Pairwise
        (fun x y => x.price_ = y.price_ ∨ sideRel Side.Sell x.price_ y.price_) ∧
      (∀ s p, ((level b' s p).map Order.orderId_).Sublist
        ((level threeAsks s p).map Order.orderId_ ++ [4])) ∧
      (∀ orderId b2, CancelOrder threeAsks orderId = .ok b2 →
        ∀ s p, ((level b2 s p).map Order.orderId_).Sublist
          ((level threeAsks s p).map Order.orderId_)) :=
  ⟨rfl, C13_price_time_priority threeAsks (Order.new OrderType.GoodTillCancel 4 Side.Buy 101 12)
    threeAsks_reachable⟩

/-! ## A book with a single resting order -/

theorem sideOf_singleBook (d : List (Price × LevelData)) (r : Order) (s : Side) :
    sideOf (singleBook d r) s = if s = r.side_ then [(r.price_, [r])] else [] := by
  unfold singleBook
  rw [sideOf_setSide]
  split_ifs
  · rfl
  · cases s <;> rfl

theorem singleBook_orders (d : List (Price × LevelData)) (r : Order) :
    (singleBook d r).orders_ = [(r.orderId_, r)] := by
  unfold singleBook; cases r.side_ <;> rfl

theorem opposite_opposite (s : Side) : opposite (opposite s) = s := by
  cases s <;> rfl

theorem side_cases (s s' : Side) : s' = s ∨ s' = opposite s := by
  cases s <;> cases s' <;> simp

theorem singleBook_inv (d : List (Price × LevelData)) (r : Order) : Inv (singleBook d r) := by
  refine ⟨⟨?_, ?_, ⟨?_, ?_, ?_⟩⟩, ?_, ?_⟩
  · intro s; rw [sideOf_singleBook]; split_ifs <;> simp [SortedBy, keys]
  · rw [singleBook_orders]; simp [SortedBy, keys]
  · intro s p o ho
    simp only [level, sideOf_singleBook] at ho
    split_ifs at ho with hs
    · simp only [find] at ho
      split_ifs at ho with hp
      · simp only [Option.getD_some, List.mem_singleton] at ho
        subst ho
        exact ⟨hs.symm, hp, by simp [locate, singleBook_orders, find]⟩
      · simp at ho
    · simp [find] at ho
  · intro s p
    simp only [level, sideOf_singleBook]
    split_ifs
    · simp only [find]; split_ifs <;> simp
    · simp [find]
  · intro i o hl
    simp only [locate, singleBook_orders, find] at hl
    split_ifs at hl with hi
    · simp only [Option.some.injEq] at hl
      subst hl
      exact ⟨hi, by simp [level, sideOf_singleBook, find]⟩
  · intro s p l hf
    rw [sideOf_singleBook] at hf
    split_ifs at hf
    · simp only [find] at hf
      split_ifs at hf
      · simp only [Option.some.injEq] at hf
        subst hf; simp
    · simp [find] at hf
  · intro pb hpb pa hpa
    have hb := sideOf_singleBook d r Side.Buy
    have ha := sideOf_singleBook d r Side.Sell
    simp only [sideOf_buy, sideOf_sell] at hb ha
    rw [hb] at hpb; rw [ha] at hpa
    cases hs : r.side_ <;> simp [hs, keys] at hpb hpa

theorem size_eq_sides {b : OrderBook} (h : WF b) (s : Side) :
    Size b = (queued (sideOf b s)).length + (queued (sideOf b (opposite s))).length := by
  have hp := h.queued_ids_perm.length_eq
  simp only [List.length_map, List.length_append, keys] at hp
  cases s
  · simp only [Size, sideOf_buy, opposite_buy, sideOf_sell]; exact hp.symm
  · simp only [Size, sideOf_buy, opposite_sell, sideOf_sell]; rw [add_comm]; exact hp.symm

theorem sub_min_left (a r : Quantity) : a - min a r = 0 ↔ a ≤ r :=
  sub_eq_zero.trans (eq_comm.trans min_eq_left_iff)

theorem sub_min_right (a r : Quantity) : r - min a r = 0 ↔ r ≤ a :=
  sub_eq_zero.trans (eq_comm.trans min_eq_right_iff)

/-- `MatchOrders` on a crossing book that holds one order `a` on side `s` and
one order `r` on the opposite side, neither of them fill-and-kill: one round,
one trade for the smaller remaining quantity, and an order stays exactly when
it has quantity left. -/
theorem MatchOrders_pair {x : OrderBook} {s : Side} {a r : Order} {p pr : Price}
    (hwf : WF x) (hne : LevelsNonEmpty x)
    (hown : sideOf x s = [(p, [a])]) (hopp : sideOf x (opposite s) = [(pr, [r])])
    (hc : Crossing x) (ha : a.orderType_ ≠ OrderType.FillAndKill)
    (hr : r.orderType_ ≠ OrderType.FillAndKill) :
    ∃ tr b', MatchOrders x = .ok ([tr], b') ∧ Inv b' ∧
      restingLeg s tr = legOf r (min a.remainingQuantity_ r.remainingQuantity_) ∧
      incomingLeg s tr = legOf a (min a.remainingQuantity_ r.remainingQuantity_) ∧
      sideOf b' s =
        (if a.remainingQuantity_ ≤ r.remainingQuantity_ then []
         else [(p, [{ a with remainingQuantity_ :=
                  a.remainingQuantity_ - min a.remainingQuantity_ r.remainingQuantity_ }])]) ∧
      sideOf b' (opposite s) =
        (if r.remainingQuantity_ ≤ a.remainingQuantity_ then []
         else [(pr, [{ r with remainingQuantity_ :=
                  r.remainingQuantity_ - min a.remainingQuantity_ r.remainingQuantity_ }])]) := by
  obtain ⟨tr, hrest, hinc, hstep, hown1, hopp1⟩ := round_of_side hown hopp
  simp only [sub_min_left, sub_min_right] at hown1 hopp1
  have hnot : ¬ BothFronts (afterRound x) := by
    rcases le_total a.remainingQuantity_ r.remainingQuantity_ with hle | hle
    · rw [if_pos hle] at hown1
      exact not_bothFronts_of_empty hown1
    · rw [if_pos hle] at hopp1
      exact not_bothFronts_of_empty hopp1
  have hlev : matchLevel (headLen x.bids_ + headLen x.asks_) x = .ok ([tr], afterRound x) := by
    have h2 : headLen x.bids_ + headLen x.asks_ = 1 + 1 := by
      cases s
      · simp only [sideOf_buy, opposite_buy, sideOf_sell] at hown hopp
        rw [hown, hopp]; rfl
      · simp only [sideOf_buy, opposite_sell, sideOf_sell] at hown hopp
        rw [hown, hopp]; rfl
    rw [h2, hstep 1, matchLevel_done hnot]
  have hown2 : sideOf (sweep (afterRound x)) s =
      (if a.remainingQuantity_ ≤ r.remainingQuantity_ then []
       else [(p, [{ a with remainingQuantity_ :=
                a.remainingQuantity_ - min a.remainingQuantity_ r.remainingQuantity_ }])]) := by
    rw [sideOf_sweep, hown1]
    split_ifs
    · simp [eraseIfEmpty, erase]
    · rfl
  have hopp2 : sideOf (sweep (afterRound x)) (opposite s) =
      (if r.remainingQuantity_ ≤ a.remainingQuantity_ then []
       else [(pr, [{ r with remainingQuantity_ :=
                r.remainingQuantity_ - min a.remainingQuantity_ r.remainingQuantity_ }])]) := by
    rw [sideOf_sweep, hopp1]
    split_ifs
    · simp [eraseIfEmpty, erase]
    · rfl
  have hnc : ¬ Crossing (sweep (afterRound x)) := by
    intro hcr
    rcases le_total a.remainingQuantity_ r.remainingQuantity_ with hle | hle
    · rw [if_pos hle] at hown2
      exact side_ne_nil_of_crossing hcr s hown2
    · rw [if_pos hle] at hopp2
      exact side_ne_nil_of_crossing hcr (opposite s) hopp2
  have hloop : matchLoop (x.bids_.length + x.asks_.length + 1) x =
      .ok ([tr], sweep (afterRound x)) := by
    rw [matchLoop_succ _ hc, hlev]
    simp only
    rw [matchLoop_done hnc]
    rfl
  have hcf : ∀ s', cancelFrontFillAndKill (sweep (afterRound x))
      (sideOf (sweep (afterRound x)) s') = .ok (sweep (afterRound x)) := by
    intro s'
    rcases side_cases s s' with rfl | rfl
    · rw [hown2]
      split_ifs
      · rfl
      · simp [cancelFrontFillAndKill, ha]
    · rw [hopp2]
      split_ifs
      · rfl
      · simp [cancelFrontFillAndKill, hr]
  have hm : MatchOrders x = .ok ([tr], sweep (afterRound x)) := by
    rw [MatchOrders_eq, hloop]
    simp only
    rw [hcf Side.Buy]
    simp only
    rw [hcf Side.Sell]
  obtain ⟨ts, b1, b2, b3, _, _, _, hm3, _, _, _, _, hinv3⟩ := MatchOrders_stages hwf hne
  rw [hm] at hm3
  obtain ⟨_, rfl⟩ : [tr] = ts ∧ sweep (afterRound x) = b3 := by simpa using hm3
  exact ⟨tr, _, hm, hinv3, hrest, hinc, hown2, hopp2⟩

theorem gone_of_not_queued {b : OrderBook} (h : WF b) {i : OrderId}
    (hq : ∀ s, ∀ z ∈ queued (sideOf b s), z.orderId_ ≠ i) : find i b.orders_ = none := by
  cases hf : find i b.orders_ with
  | none => rfl
  | some z =>
    obtain ⟨hzi, hz⟩ := h.consistent.orders_ok i z hf
    exact absurd hzi (hq z.side_ z ((mem_queued_iff_level h).mpr ⟨z.price_, hz⟩))

theorem queued_eq_nil {m : List (Price × OrderPointers)} (hne : ∀ e ∈ m, e.2 ≠ [])
    (h : queued m = []) : m = [] := by
  cases m with
  | nil => rfl
  | cons e tl =>
    obtain ⟨p, l⟩ := e
    simp only [queued, List.append_eq_nil] at h
    exact absurd h.1 (hne (p, l) (List.mem_cons_self _ _))

theorem queued_length_one {m : List (Price × OrderPointers)} (hne : ∀ e ∈ m, e.2 ≠ [])
    (h : (queued m).length = 1) : ∃ p x, m = [(p, [x])] := by
  cases m with
  | nil => simp [queued] at h
  | cons e tl =>
    obtain ⟨p, l⟩ := e
    cases l with
    | nil => exact absurd rfl (hne (p, []) (List.mem_cons_self _ _))
    | cons x l' =>
      simp only [queued, List.length_append, List.length_cons] at h
      have hl' : l' = [] := List.length_eq_zero.mp (by omega)
      have htl : queued tl = [] := List.length_eq_zero.mp (by omega)
      rw [hl', queued_eq_nil (fun e he => hne e (List.mem_cons_of_mem _ he)) htl]
      exact ⟨p, x, rfl⟩

/-- A reachable book that holds exactly one order is the single-order book of
that order, whatever its level aggregate holds. -/
theorem reachable_single {b : OrderBook} (h : Reachable b) (hsize : Size b = 1) :
    ∃ r, b = singleBook b.data_ r := by
  have hinv := h.inv
  have hwf := hinv.wf
  obtain ⟨e, he⟩ := List.length_eq_one.mp hsize
  obtain ⟨i, r⟩ := e
  have hloc : locate b i = some r := by simp [locate, he, find]
  obtain ⟨hri, hrl⟩ := hwf.consistent.orders_ok i r hloc
  have hrq : r ∈ queued (sideOf b r.side_) := (mem_queued_iff_level hwf).mpr ⟨r.price_, hrl⟩
  have hne : ∀ s, ∀ e ∈ sideOf b s, e.2 ≠ [] := by
    intro s e hm
    obtain ⟨p, l⟩ := e
    exact hinv.nonEmpty s p l ((mem_side_iff_find hwf).mp hm)
  have hlen := size_eq_sides hwf r.side_
  have hpos : 0 < (queued (sideOf b r.side_)).length := List.length_pos_of_mem hrq
  obtain ⟨p, x, hown⟩ := queued_length_one (hne r.side_) (by omega)
  have hopp : sideOf b (opposite r.side_) = [] :=
    queued_eq_nil (hne _) (List.length_eq_zero.mp (by omega))
  rw [hown] at hrq
  simp only [queued, List.append_nil, List.mem_singleton] at hrq
  subst hrq
  have hp : r.price_ = p :=
    (hwf.consistent.side_ok r.side_ p r (by rw [level_head hown]; simp)).2.1
  subst hp
  refine ⟨r, ?_⟩
  obtain ⟨data, bids, asks, orders⟩ := b
  simp only at he hown hopp
  subst he
  unfold singleBook
  rw [hri]
  cases hs : r.side_ with
  | Buy =>
    rw [hs] at hown hopp
    simp only [sideOf_buy, opposite_buy, sideOf_sell] at hown hopp
    rw [hown, hopp]; rfl
  | Sell =>
    rw [hs] at hown hopp
    simp only [sideOf_sell, opposite_sell, sideOf_buy] at hown hopp
    rw [hown, hopp]; rfl

/-! ## One resting order and one crossing order -/

/-- C12: let the book hold the single resting order `r`, a GoodTillCancel order
with remaining quantity `n`, whatever the level aggregate `d` is, and let `o`
be a GoodTillCancel order of the opposite side with another id, remaining
quantity `k` and a price that crosses the price of `r` (at least that price for
a Buy, at most that price for a Sell).  Then `AddOrder` returns exactly one
trade; its bid leg carries the id and price of the buy order and its ask leg
those of the sell order, both with quantity `min n k`; `Size` is then 0 if
`n = k` and 1 otherwise; the order with the smaller or equal quantity is gone
from its side and from the locator, and the order with the larger quantity is
alone on its side and in the locator, its remaining quantity lowered by the
other order's quantity, which is `min n k`.  Neither `n` nor `k` has to be
positive for this. -/
theorem C12_single_resting_cross (d : List (Price × LevelData)) (r o : Order)
    (hr : r.orderType_ = OrderType.GoodTillCancel) (ho : o.orderType_ = OrderType.GoodTillCancel)
    (hside : o.side_ = opposite r.side_) (hid : o.orderId_ ≠ r.orderId_)
    (hcross : if o.side_ = Side.Buy then r.price_ ≤ o.price_ else o.price_ ≤ r.price_) :
    ∃ t b', AddOrder (singleBook d r) o = .ok ([t], b') ∧
      t.bidTrade_ =
        (if o.side_ = Side.Buy then legOf o (min r.remainingQuantity_ o.remainingQuantity_)
         else legOf r (min r.remainingQuantity_ o.remainingQuantity_)) ∧
      t.askTrade_ =
        (if o.side_ = Side.Buy then legOf r (min r.remainingQuantity_ o.remainingQuantity_)
         else legOf o (min r.remainingQuantity_ o.remainingQuantity_)) ∧
      Size b' = (if r.remainingQuantity_ = o.remainingQuantity_ then 0 else 1) ∧
      sideOf b' r.side_ =
        (if r.remainingQuantity_ ≤ o.remainingQuantity_ then []
         else [(r.price_, [{ r with remainingQuantity_ :=
                  r.remainingQuantity_ - o.remainingQuantity_ }])]) ∧
      sideOf b' o.side_ =
        (if o.remainingQuantity_ ≤ r.remainingQuantity_ then []
         else [(o.price_, [{ o with remainingQuantity_ :=
                  o.remainingQuantity_ - r.remainingQuantity_ }])]) ∧
      find r.orderId_ b'.orders_ =
        (if r.remainingQuantity_ ≤ o.remainingQuantity_ then none
         else some { r with remainingQuantity_ := r.remainingQuantity_ - o.remainingQuantity_ }) ∧
      find o.orderId_ b'.orders_ =
        (if o.remainingQuantity_ ≤ r.remainingQuantity_ then none
         else some { o with remainingQuantity_ := o.remainingQuantity_ - r.remainingQuantity_ }) := by
  have hinv := singleBook_inv d r
  have hrs : r.side_ = opposite o.side_ := by rw [hside, opposite_opposite]
  have hfresh : find o.orderId_ (singleBook d r).orders_ = none := by
    rw [singleBook_orders]; simp [find, Ne.symm hid]
  have hadd : AddOrder (singleBook d r) o =
      MatchOrders (onOrderAdded (inserted (singleBook d r) o) o) := by
    rw [AddOrder_limit hfresh (by rw [ho]; decide), ← insertAndMatch_eq]
    unfold checkAndInsert
    simp [ho]
  have hsb_own : sideOf (singleBook d r) o.side_ = [] := by
    rw [sideOf_singleBook, if_neg]
    rw [hrs]; exact (opposite_ne _).symm
  have hsb_opp : sideOf (singleBook d r) (opposite o.side_) = [(r.price_, [r])] := by
    rw [sideOf_singleBook, if_pos hrs.symm]
  have hcm : canMatch (singleBook d r) o.side_ o.price_ = true := by
    cases hs : o.side_ with
    | Buy =>
      rw [hs] at hsb_opp hcross
      simp only [opposite_buy, sideOf_sell] at hsb_opp
      simp only [if_true] at hcross
      simp [canMatch, hsb_opp, hcross]
    | Sell =>
      rw [hs] at hsb_opp hcross
      simp only [opposite_sell, sideOf_buy] at hsb_opp
      simp only [reduceCtorEq, if_false] at hcross
      simp [canMatch, hsb_opp, hcross]
  have hown : sideOf (onOrderAdded (inserted (singleBook d r) o) o) o.side_ =
      [(o.price_, [o])] := by
    rw [sideOf_onOrderAdded, sideOf_inserted_front hinv.uncrossed hcm, hsb_own]
  have hopp : sideOf (onOrderAdded (inserted (singleBook d r) o) o) (opposite o.side_) =
      [(r.price_, [r])] := by
    rw [sideOf_onOrderAdded, sideOf_inserted_other _ o (opposite_ne _), hsb_opp]
  have hwf := WF_onOrderAdded (inserted_WF hinv.wf hfresh) o
  have hne := WF_nonEmpty_onOrderAdded (inserted_nonEmpty hinv.nonEmpty o) o
  obtain ⟨tr, b', hm, hinv', hrest, hinc, hs1, hs2⟩ :=
    MatchOrders_pair hwf hne hown hopp (inserted_crossing hinv hcm).1
      (by rw [ho]; decide) (by rw [hr]; decide)
  have hs1' : sideOf b' o.side_ =
      (if o.remainingQuantity_ ≤ r.remainingQuantity_ then []
       else [(o.price_, [{ o with remainingQuantity_ :=
                o.remainingQuantity_ - r.remainingQuantity_ }])]) := by
    rw [hs1]
    split_ifs with h
    · rfl
    · rw [min_eq_right (le_of_not_le h)]
  have hs2' : sideOf b' r.side_ =
      (if r.remainingQuantity_ ≤ o.remainingQuantity_ then []
       else [(r.price_, [{ r with remainingQuantity_ :=
                r.remainingQuantity_ - o.remainingQuantity_ }])]) := by
    have hs2r := hs2
    rw [← hrs] at hs2r
    rw [hs2r]
    split_ifs with h
    · rfl
    · rw [min_eq_left (le_of_not_le h)]
  have hsides : ∀ s, ∀ z ∈ queued (sideOf b' s),
      (z.orderId_ = o.orderId_ ∧ ¬ o.remainingQuantity_ ≤ r.remainingQuantity_ ∧
        z = { o with remainingQuantity_ := o.remainingQuantity_ - r.remainingQuantity_ }) ∨
      (z.orderId_ = r.orderId_ ∧ ¬ r.remainingQuantity_ ≤ o.remainingQuantity_ ∧
        z = { r with remainingQuantity_ := r.remainingQuantity_ - o.remainingQuantity_ }) := by
    intro s z hz
    rcases side_cases o.side_ s with rfl | rfl
    · rw [hs1'] at hz
      split_ifs at hz with h
      · simp [queued] at hz
      · simp only [queued, List.append_nil, List.mem_singleton] at hz
        subst hz
        exact Or.inl ⟨rfl, h, rfl⟩
    · rw [← hrs, hs2'] at hz
      split_ifs at hz with h
      · simp [queued] at hz
      · simp only [queued, List.append_nil, List.mem_singleton] at hz
        subst hz
        exact Or.inr ⟨rfl, h, rfl⟩
  refine ⟨tr, b', by rw [hadd, hm], ?_, ?_, ?_, hs2', hs1', ?_, ?_⟩
  · cases hs : o.side_ with
    | Buy =>
      rw [hs] at hinc
      rw [if_pos rfl, min_comm]
      exact hinc
    | Sell =>
      rw [hs] at hrest
      rw [if_neg (by decide), min_comm]
      exact hrest
  · cases hs : o.side_ with
    | Buy =>
      rw [hs] at hrest
      rw [if_pos rfl, min_comm]
      exact hrest
    | Sell =>
      rw [hs] at hinc
      rw [if_neg (by decide), min_comm]
      exact hinc
  · rw [size_eq_sides hinv'.wf o.side_, hs1, hs2]
    rcases lt_trichotomy o.remainingQuantity_ r.remainingQuantity_ with hlt | heq | hgt
    · simp [hlt.le, not_le.mpr hlt, hlt.ne', queued]
    · simp [heq, queued]
    · simp [hgt.le, not_le.mpr hgt, hgt.ne, queued]
  · split_ifs with h
    · apply gone_of_not_queued hinv'.wf
      intro s z hz
      rcases hsides s z hz with ⟨hzi, _, _⟩ | ⟨_, hn, _⟩
      · rw [hzi]; exact hid
      · exact absurd h hn
    · have hmem : ({ r with remainingQuantity_ := r.remainingQuantity_ - o.remainingQuantity_ } :
          Order) ∈ queued (sideOf b' r.side_) := by
        rw [hs2', if_neg h]; simp [queued]
      exact (hinv'.wf.queued_side hmem).2
  · split_ifs with h
    · apply gone_of_not_queued hinv'.wf
      intro s z hz
      rcases hsides s z hz with ⟨_, hn, _⟩ | ⟨hzi, _, _⟩
      · exact absurd h hn
      · rw [hzi]; exact Ne.symm hid
    · have hmem : ({ o with remainingQuantity_ := o.remainingQuantity_ - r.remainingQuantity_ } :
          Order) ∈ queued (sideOf b' o.side_) := by
        rw [hs1', if_neg h]; simp [queued]
      exact (hinv'.wf.queued_side hmem).2

/-- C12 at the example of the specification: Buy GoodTillCancel id 1 (10 at
100) rests, Sell GoodTillCancel id 2 (5 at 100) is added: one trade of 5,
`Size` 1, order 1 left with 5. -/
theorem C12_single_resting_cross_witness :
    AddOrder OrderBook.empty (Order.new OrderType.GoodTillCancel 1 Side.Buy 100 10) =
      .ok ([], singleBook [(100, { quantity_ := 10, count_ := 1 })]
                (Order.new OrderType.GoodTillCancel 1 Side.Buy 100 10)) ∧
    ∃ t b', AddOrder (singleBook [(100, { quantity_ := 10, count_ := 1 })]
                (Order.new OrderType.GoodTillCancel 1 Side.Buy 100 10))
              (Order.new OrderType.GoodTillCancel 2 Side.Sell 100 5) = .ok ([t], b') ∧
      t.bidTrade_ = { orderId_ := 1, price_ := 100, quantity_ := 5 } ∧
      t.askTrade_ = { orderId_ := 2, price_ := 100, quantity_ := 5 } ∧
      Size b' = 1 ∧
      sideOf b' Side.Buy =
        [(100, [{ Order.new OrderType.GoodTillCancel 1 Side.Buy 100 10 with
                    remainingQuantity_ := 5 }])] ∧
      sideOf b' Side.Sell = [] ∧
      find 1 b'.orders_ = some { Order.new OrderType.GoodTillCancel 1 Side.Buy 100 10 with
                                   remainingQuantity_ := 5 } ∧
      find 2 b'.orders_ = none :=
  ⟨rfl, C12_single_resting_cross [(100, { quantity_ := 10, count_ := 1 })]
    (Order.new OrderType.GoodTillCancel 1 Side.Buy 100 10)
    (Order.new OrderType.GoodTillCancel 2 Side.Sell 100 5) rfl rfl rfl (by decide) (by decide)⟩

/-! ## No invalid fill -/

/-- What one `CancelOrder` does to the queues and to the locator of a
well-formed book: the order with that id, if any, is taken out, and nothing
else changes or moves. -/
theorem CancelOrder_filter {b b0 : OrderBook} {i : OrderId} (hwf : WF b)
    (hc : CancelOrder b i = .ok b0) :
    (∀ s p, level b0 s p = (level b s p).filter (fun x => decide (x.orderId_ ≠ i))) ∧
    b0.orders_ = b.orders_.filter (fun e => decide (e.1 ≠ i)) := by
  unfold CancelOrder at hc
  cases ho : find i b.orders_ with
  | none =>
    rw [CancelOrderInternal_absent ho] at hc
    obtain rfl : b = b0 := by simpa using hc
    constructor
    · intro s p
      symm
      rw [List.filter_eq_self]
      intro x hx
      have hloc := (hwf.consistent.side_ok s p x hx).2.2
      simp only [decide_eq_true_eq]
      intro hxi
      rw [hxi] at hloc
      simp only [locate] at hloc
      rw [ho] at hloc
      cases hloc
    · have := erase_of_not_mem ((find_eq_none_iff i b.orders_).mp ho)
      unfold erase at this
      exact this.symm
  | some o =>
    obtain ⟨b1, hb1, heff⟩ := CancelOrderInternal_resting hwf ho
    rw [hb1] at hc
    obtain rfl : b1 = b0 := by simpa using hc
    have hid : o.orderId_ = i := (hwf.consistent.orders_ok i o ho).1
    constructor
    · intro s p
      rw [heff.level_eq, hid]
      split_ifs with hsp
      · rfl
      · symm
        rw [List.filter_eq_self]
        intro x hx
        obtain ⟨hxs, hxp, hloc⟩ := hwf.consistent.side_ok s p x hx
        simp only [decide_eq_true_eq]
        intro hxi
        rw [hxi] at hloc
        simp only [locate] at hloc
        rw [ho] at hloc
        obtain rfl : o = x := by simpa using hloc
        exact hsp ⟨hxs.symm, hxp.symm⟩
    · rw [heff.orders_eq, hid]; rfl

/-- The batch cancel on a book that satisfies the invariant: it returns, and
the queues and the locator are those of the book without the orders whose ids
are in the batch. -/
theorem CancelOrders_spec : ∀ (ids : List OrderId) (b : OrderBook), Inv b →
    ∃ b', CancelOrders b ids = .ok b' ∧ Inv b' ∧
      (∀ s p, level b' s p = (level b s p).filter (fun x => decide (x.orderId_ ∉ ids))) ∧
      b'.orders_ = b.orders_.filter (fun e => decide (e.1 ∉ ids)) ∧
      (Reachable b → Reachable b') := by
  intro ids
  induction ids with
  | nil =>
    intro b hinv
    exact ⟨b, rfl, hinv, by simp, by simp, id⟩
  | cons i rest ih =>
    intro b hinv
    obtain ⟨b0, hb0, hinv0⟩ := CancelOrder_ok hinv i
    obtain ⟨hlev0, hord0⟩ := CancelOrder_filter hinv.wf hb0
    obtain ⟨b', hb', hinv', hlev, hord, hreach⟩ := ih b0 hinv0
    have hb0' : CancelOrderInternal b i = .ok b0 := hb0
    refine ⟨b', ?_, hinv', ?_, ?_, fun hr => hreach (Reachable.cancel hr hb0)⟩
    · simp only [CancelOrders, hb0']; exact hb'
    · intro s p
      rw [hlev, hlev0, List.filter_filter]
      apply List.filter_congr
      intro x _
      simp only [List.mem_cons, not_or, Bool.decide_and, Bool.and_comm]
    · rw [hord, hord0, List.filter_filter]
      apply List.filter_congr
      intro x _
      simp only [List.mem_cons, not_or, Bool.decide_and, Bool.and_comm]

/-- In a well-formed book the queued orders are, up to order, the orders the
locator holds. -/
theorem WF.queued_perm_orders {b : OrderBook} (h : WF b) :
    List.Perm (queued b.bids_ ++ queued b.asks_) (b.orders_.map Prod.snd) := by
  have hnd1 : (queued b.bids_ ++ queued b.asks_).Nodup :=
    List.Nodup.of_map Order.orderId_ (h.queued_ids_perm.nodup_iff.mpr
      (by
        have : IsIrrefl Int (sideRel Side.Sell) := ⟨sideRel_irrefl Side.Sell⟩
        exact List.Pairwise.nodup h.orders_sorted))
  have hk : (keys b.orders_).Nodup := by
    have : IsIrrefl Int (sideRel Side.Sell) := ⟨sideRel_irrefl Side.Sell⟩
    exact List.Pairwise.nodup h.orders_sorted
  have hid : ∀ e ∈ b.orders_, e.2.orderId_ = e.1 := by
    intro e he
    exact (h.consistent.orders_ok e.1 e.2 (find_of_mem h.orders_sorted he)).1
  have hnd2 : (b.orders_.map Prod.snd).Nodup := by
    apply List.Nodup.of_map Order.orderId_
    rw [List.map_map]
    have : b.orders_.map (Order.orderId_ ∘ Prod.snd) = keys b.orders_ := by
      apply List.map_congr_left
      intro e he
      exact hid e he
    rw [this]; exact hk
  rw [List.perm_ext_iff_of_nodup hnd1 hnd2]
  intro x
  constructor
  · intro hx
    have hloc : locate b x.orderId_ = some x := by
      rcases List.mem_append.mp hx with hx | hx
      · exact (h.queued_side (s := Side.Buy) hx).2
      · exact (h.queued_side (s := Side.Sell) hx).2
    exact List.mem_map.mpr ⟨(x.orderId_, x), mem_of_find hloc, rfl⟩
  · intro hx
    obtain ⟨e, he, rfl⟩ := List.mem_map.mp hx
    have hf := find_of_mem h.orders_sorted he
    have hl := (h.consistent.orders_ok e.1 e.2 hf).2
    have hq := (mem_queued_iff_level h).mpr ⟨e.2.price_, hl⟩
    cases hs : e.2.side_ with
    | Buy => rw [hs] at hq; exact List.mem_append_left _ hq
    | Sell => rw [hs] at hq; exact List.mem_append_right _ hq

theorem mixedDay_reachable : Reachable mixedDay :=
  ((loneGoodForDay_reachable.afterAdd (Order.new OrderType.GoodTillCancel 2 Side.Buy 100 5)).afterAdd
    (Order.new OrderType.GoodForDay 3 Side.Sell 101 7) :)

/-- C22: on every reachable book the prune step, run on the GoodForDay ids of
the locator in any visiting order, returns a reachable book in which every
queue is the old queue without its GoodForDay orders (the other orders are
there unchanged, remaining quantity included, and in the same relative order),
the locator is the old locator without its GoodForDay entries, no queued order
is GoodForDay, and `Size` has gone down by the number of GoodForDay orders that
were queued.  With the flag not set and a wait that ends without timeout,
`PruneGoodForDayOrdersPass` is this step on `goodForDayIds`. -/
theorem C22_prune_step (b : OrderBook) (h : Reachable b) (ids : List OrderId)
    (hp : ids.Perm (goodForDayIds b)) :
    ∃ b', CancelOrders b ids = .ok b' ∧ Reachable b' ∧
      (∀ s p, level b' s p =
        (level b s p).filter (fun x => decide (x.orderType_ ≠ OrderType.GoodForDay))) ∧
      b'.orders_ =
        b.orders_.filter (fun e => decide (e.2.orderType_ ≠ OrderType.GoodForDay)) ∧
      (∀ s, ∀ x ∈ queued (sideOf b' s), x.orderType_ ≠ OrderType.GoodForDay) ∧
      Size b' + ((queued b.bids_ ++ queued b.asks_).filter
        (fun x => decide (x.orderType_ = OrderType.GoodForDay))).length = Size b ∧
      PruneGoodForDayOrdersPass b false cv_status.no_timeout =
        (CancelOrders b (goodForDayIds b)).map some := by
  have hinv := h.inv
  have hwf := hinv.wf
  obtain ⟨b', hb', hinv', hlev, hord, hreach⟩ := CancelOrders_spec ids b hinv
  have hmem : ∀ i, i ∈ ids ↔ ∃ o, find i b.orders_ = some o ∧
      o.orderType_ = OrderType.GoodForDay := by
    intro i
    rw [hp.mem_iff]
    simp only [goodForDayIds, List.mem_map, List.mem_filter, decide_eq_true_eq]
    constructor
    · rintro ⟨e, ⟨he, ht⟩, hi⟩
      have hf := find_of_mem hwf.orders_sorted he
      have hid := (hwf.consistent.orders_ok e.1 e.2 hf).1
      rw [hid] at hi
      rw [← hi]
      exact ⟨e.2, hf, ht⟩
    · rintro ⟨o, hf, ht⟩
      exact ⟨(i, o), ⟨mem_of_find hf, ht⟩, (hwf.consistent.orders_ok i o hf).1⟩
  have hlev' : ∀ s p, level b' s p =
      (level b s p).filter (fun x => decide (x.orderType_ ≠ OrderType.GoodForDay)) := by
    intro s p
    rw [hlev]
    apply List.filter_congr
    intro x hx
    have hloc : find x.orderId_ b.orders_ = some x := (hwf.consistent.side_ok s p x hx).2.2
    have : x.orderId_ ∈ ids ↔ x.orderType_ = OrderType.GoodForDay := by
      rw [hmem]
      constructor
      · rintro ⟨o, hf, ht⟩
        rw [hloc] at hf
        obtain rfl : x = o := by simpa using hf
        exact ht
      · intro ht; exact ⟨x, hloc, ht⟩
    simp only [this]
  have hord' : b'.orders_ =
      b.orders_.filter (fun e => decide (e.2.orderType_ ≠ OrderType.GoodForDay)) := by
    rw [hord]
    apply List.filter_congr
    intro e he
    have hf := find_of_mem hwf.orders_sorted he
    have : e.1 ∈ ids ↔ e.2.orderType_ = OrderType.GoodForDay := by
      rw [hmem]
      constructor
      · rintro ⟨o, hf', ht⟩
        rw [hf] at hf'
        obtain rfl : e.2 = o := by simpa using hf'
        exact ht
      · intro ht; exact ⟨e.2, hf, ht⟩
    simp only [this]
  refine ⟨b', hb', hreach h, hlev', hord', ?_, ?_, ?_⟩
  · intro s x hx
    obtain ⟨p, hxl⟩ := (mem_queued_iff_level hinv'.wf).mp hx
    rw [hlev'] at hxl
    simpa using (List.mem_filter.mp hxl).2
  · have hperm := hwf.queued_perm_orders
    have hcount : ((queued b.bids_ ++ queued b.asks_).filter
        (fun x => decide (x.orderType_ = OrderType.GoodForDay))).length =
        (b.orders_.filter (fun e => decide (e.2.orderType_ = OrderType.GoodForDay))).length := by
      rw [(hperm.filter _).length_eq, List.filter_map, List.length_map]
      rfl
    rw [hcount]
    simp only [Size, hord']
    rw [b.orders_.length_eq_length_filter_add
      (fun e => decide (e.2.orderType_ ≠ OrderType.GoodForDay))]
    congr 2
    apply List.filter_congr
    intro e _
    simp
  · unfold PruneGoodForDayOrdersPass
    simp only [Bool.false_eq_true, reduceCtorEq, or_self, if_false]
    cases CancelOrders b (goodForDayIds b) <;> rfl

/-- C22 at the book with bids GoodForDay 1 and GoodTillCancel 2 at 100 and ask
GoodForDay 3 at 101: orders 1 and 3 are pruned, order 2 stays with its 5. -/
theorem C22_prune_step_witness :
    goodForDayIds mixedDay = [1, 3] ∧
    ∃ b', CancelOrders mixedDay [1, 3] = .ok b' ∧ Reachable b' ∧
      (∀ s p, level b' s p =
        (level mixedDay s p).filter (fun x => decide (x.orderType_ ≠ OrderType.GoodForDay))) ∧
      b'.orders_ = [(2, Order.new OrderType.GoodTillCancel 2 Side.Buy 100 5)] ∧
      (∀ s, ∀ x ∈ queued (sideOf b' s), x.orderType_ ≠ OrderType.GoodForDay) ∧
      Size b' + 2 = 3 ∧
      PruneGoodForDayOrdersPass mixedDay false cv_status.no_timeout =
        (CancelOrders mixedDay [1, 3]).map some :=
  ⟨rfl, C22_prune_step mixedDay mixedDay_reachable [1, 3] (List.Perm.refl _)⟩

/-! ## Prices of the two legs of a trade -/

/-- What `AddOrder` returns on a book that satisfies the invariant: no trade,
or the trades of an inserted order `o'` with a fresh id that can match, which
is the order itself or the re-priced order when the order is a market order;
every trade has `o'` as the leg of its own side, and the other legs follow the
queue order of the opposite side. -/
theorem AddOrder_matched {b b' : OrderBook} {o : Order} {trades : Trades} (hinv : Inv b)
    (hadd : AddOrder b o = .ok (trades, b')) :
    trades = [] ∨
    ∃ o', find o.orderId_ b.orders_ = none ∧ o'.orderId_ = o.orderId_ ∧ o'.side_ = o.side_ ∧
      (o' = o ∨ o.orderType_ = OrderType.Market) ∧
      (∀ t ∈ trades, (incomingLeg o.side_ t).orderId_ = o.orderId_ ∧
        (incomingLeg o.side_ t).price_ = o'.price_) ∧
      ∃ R1 R2, queued (sideOf b (opposite o.side_)) = R1 ++ R2 ∧
        LegsOf R1 (trades.map (restingLeg o.side_)) := by
  rcases AddOrder_cases hadd with ⟨rfl, _⟩ | ⟨o', hfresh, hid, hside, _, _, hor, _, _, _, hins⟩
  · exact Or.inl rfl
  · rw [insertAndMatch_eq] at hins
    have hwf := WF_onOrderAdded (inserted_WF hinv.wf hfresh) o'
    have hne := WF_nonEmpty_onOrderAdded (inserted_nonEmpty hinv.nonEmpty o') o'
    obtain ⟨ts, b1, b2, b3, hr, _, _, hm, _⟩ := MatchOrders_stages hwf hne
    rw [hm] at hins
    obtain ⟨rfl, rfl⟩ : ts = trades ∧ b3 = b' := by simpa using hins
    cases hc : canMatch b o'.side_ o'.price_ with
    | false =>
      rw [matchLoop_done (inserted_not_crossing hinv hc)] at hr
      obtain ⟨rfl, _⟩ : [] = ts ∧ _ = b1 := by simpa using hr
      exact Or.inl rfl
    | true =>
      right
      have hown : sideOf (onOrderAdded (inserted b o') o') o'.side_ =
          (o'.price_, [o']) :: sideOf b o'.side_ := by
        rw [sideOf_onOrderAdded]; exact sideOf_inserted_front hinv.uncrossed hc
      have hopp : sideOf (onOrderAdded (inserted b o') o') (opposite o'.side_) =
          sideOf b (opposite o'.side_) := by
        rw [sideOf_onOrderAdded]; exact sideOf_inserted_other b o' (opposite_ne _)
      have hsown : SortedBy o'.side_ ((o'.price_, [o']) :: sideOf b o'.side_) := by
        rw [← hown]; exact hwf.side_sorted _
      obtain ⟨hinc, hlegs⟩ := matchLoop_incoming _ _ _ o' ts b1 hown hopp hsown
        (hinv.wf.side_sorted _) (apart_of_uncrossed hinv.uncrossed _) hr
      rw [hside] at hinc hlegs
      refine ⟨o', by rw [← hid]; exact hfresh, hid, hside, ?_, ?_, hlegs⟩
      · rcases hor with h | ⟨h, _⟩
        · exact Or.inl h
        · exact Or.inr h
      · intro t ht
        rw [← hid]
        exact hinc t ht

/-! ## No resting market order -/

/-- C23: on every reachable book `AddOrder` returns, and every trade it
returns has the incoming order on the leg of its own side (the bid leg for a
Buy, the ask leg for a Sell), the id of the incoming order was not in the
locator before the call, and the other leg carries the id and the price of an
order that was resting on the opposite side before the call: no trade is
between two orders that were both resting. -/
theorem C23_incoming_is_a_leg (b : OrderBook) (order : Order) (h : Reachable b) :
    ∃ trades b', AddOrder b order = .ok (trades, b') ∧
      ∀ t ∈ trades,
        (order.side_ = Side.Buy → t.bidTrade_.orderId_ = order.orderId_) ∧
        (order.side_ = Side.Sell → t.askTrade_.orderId_ = order.orderId_) ∧
        find order.orderId_ b.orders_ = none ∧
        ∃ r, find (restingLeg order.side_ t).orderId_ b.orders_ = some r ∧
          r.side_ = opposite order.side_ ∧
          r.orderId_ = (restingLeg order.side_ t).orderId_ ∧
          r.price_ = (restingLeg order.side_ t).price_ := by
  have hinv := h.inv
  obtain ⟨trades, b', hres, _⟩ := AddOrder_ok hinv order
  refine ⟨trades, b', hres, ?_⟩
  rcases AddOrder_matched hinv hres with rfl | ⟨o', hfresh, _, _, _, hinc, R1, R2, hsplit, hlegs⟩
  · simp
  · intro t ht
    have hid := (hinc t ht).1
    refine ⟨?_, ?_, hfresh, ?_⟩
    · intro hs
      rw [hs] at hid
      exact hid
    · intro hs
      rw [hs] at hid
      exact hid
    · have hmem : ((restingLeg order.side_ t).orderId_, (restingLeg order.side_ t).price_) ∈
          (trades.map (restingLeg order.side_)).map (fun t => (t.orderId_, t.price_)) :=
        List.mem_map.mpr ⟨restingLeg order.side_ t, List.mem_map_of_mem _ ht, rfl⟩
      rw [hlegs.1] at hmem
      obtain ⟨r, hr, heq⟩ := List.mem_map.mp hmem
      simp only [Prod.mk.injEq] at heq
      have hq : r ∈ queued (sideOf b (opposite order.side_)) := by
        rw [hsplit]; exact List.mem_append_left _ hr
      obtain ⟨hrs, hloc⟩ := hinv.wf.queued_side hq
      refine ⟨r, ?_, hrs, heq.1, heq.2⟩
      rw [← heq.1]
      exact hloc

/-- C23 at the book with asks 2 and 3 (5 each at 100) and ask 1 (10 at 101),
for a Buy of 12 at 101 with id 4. -/
theorem C23_incoming_is_a_leg_witness :
    ∃ trades b', AddOrder threeAsks (Order.new OrderType.GoodTillCancel 4 Side.Buy 101 12) =
        .ok (trades, b') ∧
      ∀ t ∈ trades,
        (Side.Buy = Side.Buy → t.bidTrade_.orderId_ = 4) ∧
        (Side.Buy = Side.Sell → t.askTrade_.orderId_ = 4) ∧
        find 4 threeAsks.orders_ = none ∧
        ∃ r, find (restingLeg Side.Buy t).orderId_ threeAsks.orders_ = some r ∧
          r.side_ = Side.Sell ∧
          r.orderId_ = (restingLeg Side.Buy t).orderId_ ∧
          r.price_ = (restingLeg Side.Buy t).price_ :=
  C23_incoming_is_a_leg threeAsks (Order.new OrderType.GoodTillCancel 4 Side.Buy 101 12)
    threeAsks_reachable

/-! ## The bid leg is not priced below the ask leg -/

theorem size_fillFront_le (s : Side) (q : Quantity) (b : OrderBook) :
    Size (fillFront s q b) ≤ Size b := by
  by_cases hshape : ∃ p o rest tl, sideOf b s = (p, o :: rest) :: tl
  · obtain ⟨p, o, rest, tl, hs⟩ := hshape
    by_cases hf : o.remainingQuantity_ - q = 0
    · rw [fillFront_filled hs hf]
      simp only [Size, setOrders_orders]
      exact length_erase_le _ _
    · rw [fillFront_open hs hf]
      simp only [Size, setOrders_orders, replace, List.length_map]
      exact le_refl _
  · rw [fillFront_none (fun p o rest tl hs => hshape ⟨p, o, rest, tl, hs⟩)]

/-- A front fill that uses up the front order of a well-formed book takes one
entry off the locator. -/
theorem size_fillFront_filled {b : OrderBook} (hwf : WF b) {s : Side} {q : Quantity} {p : Price}
    {o : Order} {rest : OrderPointers} {tl : List (Price × OrderPointers)}
    (hs : sideOf b s = (p, o :: rest) :: tl) (hf : o.remainingQuantity_ - q = 0) :
    Size (fillFront s q b) + 1 = Size b := by
  have hloc : find o.orderId_ b.orders_ = some o :=
    (hwf.consistent.side_ok s p o (by rw [level_head hs]; simp)).2.2
  rw [fillFront_filled hs hf]
  simp only [Size, setOrders_orders]
  exact length_erase_of_find hwf.orders_sorted hloc

/-- Every round of the inner loop on a well-formed book removes at least one
order from the locator: the front order with the smaller remaining quantity is
filled completely. -/
theorem size_afterRound {b : OrderBook} (hwf : WF b) (hf : BothFronts b) :
    Size (afterRound b) + 1 ≤ Size b := by
  obtain ⟨bidPrice, bid, bids, restBids, askPrice, ask, asks, restAsks, hb, ha⟩ := hf
  have hround : afterRound b =
      onOrderMatched (onOrderMatched
        (fillFront Side.Sell (min bid.remainingQuantity_ ask.remainingQuantity_)
          (fillFront Side.Buy (min bid.remainingQuantity_ ask.remainingQuantity_) b))
        bid.price_ (min bid.remainingQuantity_ ask.remainingQuantity_)
        (decide (bid.remainingQuantity_ - min bid.remainingQuantity_ ask.remainingQuantity_ = 0)))
        bid.price_ (min bid.remainingQuantity_ ask.remainingQuantity_)
        (decide (ask.remainingQuantity_ - min bid.remainingQuantity_ ask.remainingQuantity_ = 0)) := by
    unfold afterRound; rw [hb, ha]
  have hsize : Size (afterRound b) =
      Size (fillFront Side.Sell (min bid.remainingQuantity_ ask.remainingQuantity_)
        (fillFront Side.Buy (min bid.remainingQuantity_ ask.remainingQuantity_) b)) := by
    rw [hround]; simp only [Size, onOrderMatched_orders]
  rw [hsize]
  rcases le_total bid.remainingQuantity_ ask.remainingQuantity_ with hle | hle
  · have h1 := size_fillFront_filled hwf (s := Side.Buy) hb ((sub_min_left _ _).mpr hle)
    have h2 := size_fillFront_le Side.Sell (min bid.remainingQuantity_ ask.remainingQuantity_)
      (fillFront Side.Buy (min bid.remainingQuantity_ ask.remainingQuantity_) b)
    omega
  · have hwf1 := fillFront_WF hwf Side.Buy (min bid.remainingQuantity_ ask.remainingQuantity_)
    have ha1 : sideOf (fillFront Side.Buy (min bid.remainingQuantity_ ask.remainingQuantity_) b)
        Side.Sell = (askPrice, ask :: asks) :: restAsks := by
      rw [sideOf_fillFront_other (by decide)]; exact ha
    have h1 := size_fillFront_filled hwf1 ha1 ((sub_min_right _ _).mpr hle)
    have h2 := size_fillFront_le Side.Buy (min bid.remainingQuantity_ ask.remainingQuantity_) b
    omega

theorem matchLevel_size : ∀ (fuel : Nat) (x : OrderBook) (ts : Trades) (x1 : OrderBook),
    WF x → matchLevel fuel x = .ok (ts, x1) → ts.length + Size x1 ≤ Size x := by
  intro fuel
  induction fuel with
  | zero =>
    intro x ts x1 _ hm
    by_cases hf : BothFronts x
    · rw [matchLevel_zero hf] at hm; cases hm
    · rw [matchLevel_done hf] at hm
      obtain ⟨rfl, rfl⟩ : [] = ts ∧ x = x1 := by simpa using hm
      simp
  | succ fuel ih =>
    intro x ts x1 hwf hm
    by_cases hf : BothFronts x
    · have hs := size_afterRound hwf hf
      obtain ⟨bidPrice, bid, bids, restBids, askPrice, ask, asks, restAsks, hb, ha⟩ := hf
      rw [matchLevel_succ fuel x hb ha] at hm
      cases hlev : matchLevel fuel (afterRound x) with
      | error e => rw [hlev] at hm; cases hm
      | ok res =>
        obtain ⟨ts2, x2⟩ := res
        rw [hlev] at hm
        obtain ⟨rfl, rfl⟩ : roundTrade bid ask :: ts2 = ts ∧ x2 = x1 := by simpa using hm
        have := ih (afterRound x) ts2 x2 (afterRound_WF hwf) hlev
        simp only [List.length_cons]
        omega
    · rw [matchLevel_done hf] at hm
      obtain ⟨rfl, rfl⟩ : [] = ts ∧ x = x1 := by simpa using hm
      simp

theorem matchLoop_size : ∀ (fuel : Nat) (x : OrderBook) (ts : Trades) (x1 : OrderBook),
    WF x → matchLoop fuel x = .ok (ts, x1) → ts.length + Size x1 ≤ Size x := by
  intro fuel
  induction fuel with
  | zero =>
    intro x ts x1 _ hm
    by_cases hc : Crossing x
    · rw [matchLoop_zero hc] at hm; cases hm
    · rw [matchLoop_done hc] at hm
      obtain ⟨rfl, rfl⟩ : [] = ts ∧ x = x1 := by simpa using hm
      simp
  | succ fuel ih =>
    intro x ts x1 hwf hm
    by_cases hc : Crossing x
    · rw [matchLoop_succ fuel hc] at hm
      cases hlev : matchLevel (headLen x.bids_ + headLen x.asks_) x with
      | error e => rw [hlev] at hm; cases hm
      | ok res =>
        obtain ⟨ts1, xm⟩ := res
        rw [hlev] at hm
        simp only at hm
        cases hloop : matchLoop fuel (sweep xm) with
        | error e => rw [hloop] at hm; cases hm
        | ok res2 =>
          obtain ⟨ts2, x2⟩ := res2
          rw [hloop] at hm
          obtain ⟨rfl, rfl⟩ : ts1 ++ ts2 = ts ∧ x2 = x1 := by simpa using hm
          have h1 := matchLevel_size _ x ts1 xm hwf hlev
          have h2 := ih (sweep xm) ts2 x2 (sweep_WF (matchLevel_WF hlev hwf)) hloop
          have h3 : Size (sweep xm) = Size xm := rfl
          simp only [List.length_append]
          omega
    · rw [matchLoop_done hc] at hm
      obtain ⟨rfl, rfl⟩ : [] = ts ∧ x = x1 := by simpa using hm
      simp

theorem size_cancelFront_le {x x' : OrderBook} {m : List (Price × OrderPointers)} (hwf : WF x)
    (h : cancelFrontFillAndKill x m = .ok x') : Size x' ≤ Size x := by
  rcases cancelFront_cases h with rfl | ⟨i, hi⟩
  · exact le_refl _
  · simp only [Size, (CancelOrder_filter hwf hi).2]
    exact List.length_filter_le _ _

/-- The trades of `MatchOrders` on a well-formed book are paid for by orders
that leave the locator: at least one per trade. -/
theorem MatchOrders_size {x x1 : OrderBook} {ts : Trades} (hwf : WF x) (hne : LevelsNonEmpty x)
    (hm : MatchOrders x = .ok (ts, x1)) : ts.length + Size x1 ≤ Size x := by
  obtain ⟨ts', b1, b2, b3, hr, hc2, hc3, hm', hwf1, _, hwf2, _, _⟩ := MatchOrders_stages hwf hne
  rw [hm'] at hm
  obtain ⟨rfl, rfl⟩ : ts' = ts ∧ b3 = x1 := by simpa using hm
  have h1 := matchLoop_size _ x ts' b1 hwf hr
  have h2 := size_cancelFront_le hwf1 hc2
  have h3 := size_cancelFront_le hwf2 hc3
  omega

theorem cancelInSide_error {orderId : OrderId} {price : Price}
    {side : List (Price × OrderPointers)} {e : Error}
    (h : cancelInSide orderId price side = .error e) :
    e = Error.out_of_range ∨ e = Error.undefined := by
  unfold cancelInSide at h
  split at h
  · left; exact (Except.error.inj h).symm
  · split_ifs at h with h1
    · simp only at h
      split_ifs at h
    · right; exact (Except.error.inj h).symm

theorem CancelOrder_error {b : OrderBook} {orderId : OrderId} {e : Error}
    (h : CancelOrder b orderId = .error e) : e = Error.out_of_range ∨ e = Error.undefined := by
  unfold CancelOrder at h
  rw [CancelOrderInternal_eq] at h
  cases hf : find orderId b.orders_ with
  | none => rw [hf] at h; cases h
  | some order =>
    rw [hf] at h
    simp only at h
    cases hc : cancelInSide orderId order.price_ (sideOf b order.side_) with
    | error e' =>
      rw [hc] at h
      obtain rfl : e' = e := by simpa using h
      exact cancelInSide_error hc
    | ok m => rw [hc] at h; cases h

theorem cancelFront_error {b : OrderBook} {m : List (Price × OrderPointers)} {e : Error}
    (h : cancelFrontFillAndKill b m = .error e) :
    e = Error.out_of_range ∨ e = Error.undefined := by
  unfold cancelFrontFillAndKill at h
  split at h
  · cases h
  · right; exact (Except.error.inj h).symm
  · split_ifs at h
    exact CancelOrder_error h

/-- On every book `MatchOrders` comes to an end: the result is never the
failure that stands for a loop running past its bound. -/
theorem MatchOrders_terminates (b : OrderBook) : MatchOrders b ≠ .error .nontermination := by
  obtain ⟨r, hr⟩ := matchLoop_total (b.bids_.length + b.asks_.length + 1) b (by omega)
  obtain ⟨trades, b1⟩ := r
  rw [MatchOrders_eq, hr]
  simp only
  cases h2 : cancelFrontFillAndKill b1 (sideOf b1 Side.Buy) with
  | error e =>
    simp only
    intro h
    obtain rfl : e = Error.nontermination := by simpa using h
    rcases cancelFront_error h2 with h | h <;> cases h
  | ok b2 =>
    simp only
    cases h3 : cancelFrontFillAndKill b2 (sideOf b2 Side.Sell) with
    | error e =>
      simp only
      intro h
      obtain rfl : e = Error.nontermination := by simpa using h
      rcases cancelFront_error h3 with h | h <;> cases h
    | ok b3 => simp

theorem size_inserted {b : OrderBook} {o : Order} (hfresh : find o.orderId_ b.orders_ = none) :
    Size (onOrderAdded (inserted b o) o) = Size b + 1 := by
  simp only [Size, onOrderAdded_orders, inserted, setOrders_orders]
  exact length_insert_of_not_mem less o hfresh

/-- The trades of one `AddOrder` on a book that satisfies the invariant: one
per resting order of the opposite side at most, and each paid for by an order
that leaves the locator. -/
theorem AddOrder_count {b b' : OrderBook} {o : Order} {trades : Trades} (hinv : Inv b)
    (hadd : AddOrder b o = .ok (trades, b')) :
    trades.length ≤ (queued (sideOf b (opposite o.side_))).length ∧
    trades.length ≤ Size b ∧ trades.length + Size b' ≤ Size b + 1 := by
  have h1 : trades.length ≤ (queued (sideOf b (opposite o.side_))).length := by
    obtain ⟨_, R1, R2, hsplit, hlegs⟩ := AddOrder_legs hinv hadd
    have hlen := hlegs.length_eq
    rw [hsplit, List.length_append]
    simp only [List.length_map] at hlen
    omega
  have h2 := size_eq_sides hinv.wf o.side_
  refine ⟨h1, by omega, ?_⟩
  rcases AddOrder_cases hadd with ⟨rfl, rfl⟩ | ⟨o', hfresh, _, _, _, _, _, _, _, _, hins⟩
  · simp
  · rw [insertAndMatch_eq] at hins
    have := MatchOrders_size (WF_onOrderAdded (inserted_WF hinv.wf hfresh) o')
      (WF_nonEmpty_onOrderAdded (inserted_nonEmpty hinv.nonEmpty o') o') hins
    rw [size_inserted hfresh] at this
    exact this

/-- C25: on every book the two loops of `MatchOrders` end within their
iteration bounds (the inner loop within the number of orders queued at the two
first levels, the outer loop within the number of levels plus one), so
`MatchOrders` never fails for want of iterations.  Every round of the inner
loop, which records one trade, takes at least one order off the two first
queues, and on a well-formed book at least one entry off the locator: the front
order with the smaller remaining quantity is filled completely.  Hence on a
well-formed book without empty levels `MatchOrders` returns, and the number of
trades plus the new `Size` is at most the old `Size`; and on a reachable book
`AddOrder` returns at most as many trades as orders were resting before the
call. -/
theorem C25_matching_terminates (b : OrderBook) :
    (∃ r, matchLevel (headLen b.bids_ + headLen b.asks_) b = .ok r) ∧
    (∃ r, matchLoop (b.bids_.length + b.asks_.length + 1) b = .ok r) ∧
    MatchOrders b ≠ .error .nontermination ∧
    (BothFronts b →
      headLen (afterRound b).bids_ + headLen (afterRound b).asks_ <
        headLen b.bids_ + headLen b.asks_) ∧
    (WF b → BothFronts b → Size (afterRound b) < Size b) ∧
    (WF b → LevelsNonEmpty b →
      ∃ trades b', MatchOrders b = .ok (trades, b') ∧ trades.length + Size b' ≤ Size b) ∧
    (Reachable b → ∀ order, ∃ trades b', AddOrder b order = .ok (trades, b') ∧
      trades.length ≤ Size b ∧ trades.length + Size b' ≤ Size b + 1) := by
  refine ⟨matchLevel_total _ b le_rfl, matchLoop_total _ b (by omega), MatchOrders_terminates b,
    afterRound_headLen, ?_, ?_, ?_⟩
  · intro hwf hf
    have := size_afterRound hwf hf
    omega
  · intro hwf hne
    obtain ⟨trades, b', hm, _⟩ := MatchOrders_ok hwf hne
    exact ⟨trades, b', hm, MatchOrders_size hwf hne hm⟩
  · intro h order
    obtain ⟨trades, b', hadd, _⟩ := AddOrder_ok h.inv order
    have hc := AddOrder_count h.inv hadd
    exact ⟨trades, b', hadd, hc.2.1, hc.2.2⟩

/-- C25 at two books: a round on the book with a bid at 99 and an ask at 100
takes an order off the locator, and a Buy of 12 at 101 on the book with three
asks returns three trades. -/
theorem C25_matching_terminates_witness :
    Size (afterRound twoSided) < Size twoSided ∧
    (AddOrder threeAsks (Order.new OrderType.GoodTillCancel 4 Side.Buy 101 12)).map
      (fun r => r.1.length) = .ok 3 ∧
    ∃ trades b', AddOrder threeAsks (Order.new OrderType.GoodTillCancel 4 Side.Buy 101 12) =
        .ok (trades, b') ∧
      trades.length ≤ Size threeAsks ∧ trades.length + Size b' ≤ Size threeAsks + 1 :=
  ⟨(C25_matching_terminates twoSided).2.2.2.2.1 twoSided_reachable.inv.wf
      ⟨99, _, [], [], 100, _, [], [], rfl, rfl⟩,
   rfl,
   (C25_matching_terminates threeAsks).2.2.2.2.2.2 threeAsks_reachable
      (Order.new OrderType.GoodTillCancel 4 Side.Buy 101 12)⟩

/-! ## The visiting order of the level aggregate -/

theorem oppositeBest_of_canMatch {b : OrderBook} {side : Side} {price : Price}
    (hc : canMatch b side price = true) : ∃ t, oppositeBest b side = some t := by
  unfold canMatch at hc
  unfold oppositeBest
  cases side with
  | Buy =>
    simp only [if_true] at hc ⊢
    cases ha : b.asks_ with
    | nil => rw [ha] at hc; cases hc
    | cons e tl => exact ⟨e.1, rfl⟩
  | Sell =>
    simp only [reduceCtorEq, if_false] at hc ⊢
    cases hb : b.bids_ with
    | nil => rw [hb] at hc; cases hc
    | cons e tl => exact ⟨e.1, rfl⟩

/-- C26: let `canMatch side price` hold on a book whose level-aggregate
quantities are all non-negative, and let the quantity be positive.  Whatever
the order `visited` in which the entries of the level aggregate are walked, the
loop of `canFullyFill` gives the same answer, and so does `canFullyFill` on the
book with its aggregate in that order: whether the sum of the aggregate
quantities of the entries priced between the opposite best price and the limit
price, both included, is at least the quantity. -/
theorem C26_canFullyFill_order_independent (b : OrderBook) (side : Side) (price : Price)
    (quantity : Quantity) (hc : canMatch b side price = true)
    (hnn : ∀ e ∈ b.data_, 0 ≤ e.2.quantity_) (hq : 0 < quantity) :
    (∀ visited : List (Price × LevelData), visited.Perm b.data_ →
      canFullyFillWalk side price (oppositeBest b side) quantity visited =
        decide (quantity ≤ aggregateInRange b side price) ∧
      canFullyFill { b with data_ := visited } side price quantity =
        decide (quantity ≤ aggregateInRange b side price)) ∧
    canFullyFill b side price quantity = decide (quantity ≤ aggregateInRange b side price) ∧
    ∃ t, oppositeBest b side = some t ∧ ∀ levelPrice,
      (inRange side price (oppositeBest b side) levelPrice = true ↔
        (side = Side.Buy ∧ t ≤ levelPrice ∧ levelPrice ≤ price) ∨
        (side = Side.Sell ∧ price ≤ levelPrice ∧ levelPrice ≤ t)) := by
  have hwalk : ∀ visited : List (Price × LevelData), visited.Perm b.data_ →
      canFullyFillWalk side price (oppositeBest b side) quantity visited =
        decide (quantity ≤ aggregateInRange b side price) := by
    intro visited hp
    have hnn' : ∀ e ∈ visited, inRange side price (oppositeBest b side) e.1 = true →
        0 ≤ e.2.quantity_ := fun e he _ => hnn e (hp.mem_iff.mp he)
    have hsum : ((visited.filter (fun e => inRange side price (oppositeBest b side) e.1)).map
        (fun e => e.2.quantity_)).sum = aggregateInRange b side price :=
      ((hp.filter _).map _).sum_eq
    rw [Bool.eq_iff_iff, decide_eq_true_eq, ← hsum]
    exact canFullyFillWalk_eq side price (oppositeBest b side) visited quantity hq hnn'
  have hbook : ∀ visited : List (Price × LevelData),
      canFullyFill { b with data_ := visited } side price quantity =
        canFullyFillWalk side price (oppositeBest b side) quantity visited := by
    intro visited
    rw [canFullyFill_eq]
    have h1 : canMatch { b with data_ := visited } side price = canMatch b side price := rfl
    have h2 : oppositeBest { b with data_ := visited } side = oppositeBest b side := rfl
    rw [h1, h2, hc, Bool.true_and]
  refine ⟨fun visited hp => ⟨hwalk visited hp, by rw [hbook, hwalk visited hp]⟩, ?_, ?_⟩
  · rw [canFullyFill_eq, hc, Bool.true_and]
    exact hwalk b.data_ (List.Perm.refl _)
  · obtain ⟨t, ht⟩ := oppositeBest_of_canMatch hc
    refine ⟨t, ht, fun levelPrice => ?_⟩
    rw [ht]
    exact inRange_iff side price t levelPrice

/-- C26 at the book with asks at 100 (aggregate 10) and 101 (aggregate 10) for
a Buy at 101: the aggregate walked in either order covers 12 and does not
cover 21. -/
theorem C26_canFullyFill_order_independent_witness :
    canFullyFillWalk Side.Buy 101 (some 100) 12
      [(101, { quantity_ := 10, count_ := 1 }), (100, { quantity_ := 10, count_ := 2 })] = true ∧
    canFullyFillWalk Side.Buy 101 (some 100) 12 threeAsks.data_ = true ∧
    canFullyFill threeAsks Side.Buy 101 21 = false :=
  ⟨((C26_canFullyFill_order_independent threeAsks Side.Buy 101 12 rfl (by decide) (by decide)).1
      [(101, { quantity_ := 10, count_ := 1 }), (100, { quantity_ := 10, count_ := 2 })]
      (List.Perm.swap _ _ [])).1,
   ((C26_canFullyFill_order_independent threeAsks Side.Buy 101 12 rfl (by decide) (by decide)).1
      threeAsks.data_ (List.Perm.refl _)).1,
   (C26_canFullyFill_order_independent threeAsks Side.Buy 101 21 rfl (by decide) (by decide)).2.1⟩

end OrderBook
